import Mathlib

/-! Sneller: splitter, planning env and converter.

A shallow embedding of `cmd/snellerd/splitter.go`, `cmd/snellerd/fsenv.go` and
`ion/blockfmt/convert.go`, followed by theorems about the embedded functions.

Conventions of the embedding:

* Go `error` results are `Option Error` (`none` is `nil`); a Go pair `(v, err)`
  is `Except Error v`.  A runtime panic (integer division by zero, index or
  slice out of range) is the distinguished error `Error.runtimePanic`.
* A method with a pointer receiver takes the receiver and returns its final
  state next to the result.
* `int` and `int64` are 64 bits wide: their arithmetic is integer arithmetic
  followed by `wrap64`; `uint64` arithmetic is natural arithmetic modulo `2^64`.
* Code that the three files call but do not contain (siphash, the ion codec,
  the expression/transport/blob codecs, the storage layer, the writers) is a
  parameter of the function that calls it.
-/

namespace Sneller

/-! ## Errors and machine integers -/

/-- Failure values.  `fmtError` is an error built by `fmt.Errorf` or `errors.New`,
`syntaxError` is `*expr.SyntaxError` (the format string of `syntax(...)` and the rendered
offending fragment), `external` is an error handed back by a collaborator, `wrapped` is
an error built by `fmt.Errorf` with the verb `%w` around `inner`, `runtimePanic`
stands for a Go runtime panic, `sentinel` is a package-level error variable (such as
`gzip.ErrHeader`), known by its package and name, and `corruptInput` is a value of the
type `flate.CorruptInputError`. -/
inductive Error where
  | fmtError (msg : String)
  | syntaxError (msg : String) (fragment : String)
  | external (msg : String)
  | wrapped (msg : String) (inner : Error)
  | runtimePanic (msg : String)
  | sentinel (pkg : String) (name : String)
  | corruptInput (offset : Int)
  deriving DecidableEq, Repr

/-- True exactly for `*expr.SyntaxError` values. -/
def Error.isSyntax : Error → Bool
  | .syntaxError _ _ => true
  | _ => false

/-- True exactly for runtime panics. -/
def Error.isPanic : Error → Bool
  | .runtimePanic _ => true
  | _ => false

/-- The signed reading of the low 64 bits of `x`: the value an `int64` holds after the
arithmetic result `x` is stored in it. -/
def wrap64 (x : Int) : Int :=
  (x + 2 ^ 63) % 2 ^ 64 - 2 ^ 63

/-- The value a `uint64` holds after `x` is stored in it. -/
def wrapU64 (x : Nat) : Nat :=
  x % 2 ^ 64

/-! ## Blobs and trailers (package `blob` and `blockfmt`, declarations only) -/

/-- Modelled from the spec: `blob.Info`, the result of `Stat()`; only the size and the
ETag are read by the splitter. -/
structure Info where
  Size : Int
  ETag : String
  deriving DecidableEq, Repr

/-- Modelled from the spec: `blockfmt.Blockdesc`, a per-block descriptor holding the
offset of the block and its chunk count. -/
structure Blockdesc where
  Offset : Int
  Chunks : Nat
  deriving DecidableEq, Repr

/-- Modelled from the spec: `blockfmt.SparseIndex`, per-block min/max summaries; one
`[min, max]` range per block is kept. -/
structure SparseIndex where
  ranges : List (Int × Int)
  deriving DecidableEq, Repr

/-- Modelled from the spec: `blockfmt.Trailer` with its block descriptors, the block
shift and the sparse index. -/
structure Trailer where
  Blocks : List Blockdesc
  BlockShift : Nat
  Sparse : SparseIndex
  deriving DecidableEq, Repr

/-- Modelled from the spec: `Trailer.Decompressed()`, the decompressed size recorded by
the trailer, `chunks << blockShift` summed over all blocks, as an `int64`. -/
def Trailer.Decompressed (t : Trailer) : Int :=
  wrap64 (((t.Blocks.map (fun b => (b.Chunks : Int))).sum) * 2 ^ t.BlockShift)

/-- The answers of a compiled filter for one block (`ternary` of `filter.go`). -/
inductive ternary where
  | always
  | maybe
  | never
  deriving DecidableEq, Repr

/-- A compiled block-level predicate, `type filter func(*blockfmt.SparseIndex, int) ternary`.
A nil filter is `none` at its uses. -/
abbrev filter := SparseIndex → Int → ternary

/-- Modelled from the spec: `*blob.Compressed`.  `stat` is what `Stat()` returns and
`split target` is what `Split(target)` returns: the half-open block ranges of the parts
together with what `Stat()` of each part returns. -/
structure Compressed where
  stat : Except Error Info
  Trailer : Trailer
  split : Int → Except Error (List (Nat × Nat × Except Error Info))

/-- Modelled from the spec: `blob.CompressedPart`, a half-open block range of a parent
compressed blob. -/
structure CompressedPart where
  Parent : Compressed
  StartBlock : Nat
  EndBlock : Nat
  stat : Except Error Info

/-- The implementations of `blob.Interface` the splitter distinguishes: `*blob.Compressed`,
`*blob.CompressedPart`, and any other implementation (known through `Stat()` only). -/
inductive Blob where
  | generic (stat : Except Error Info)
  | compressed (c : Compressed)
  | part (p : CompressedPart)

/-- `b.Stat()`. -/
def Blob.Stat : Blob → Except Error Info
  | .generic st => st
  | .compressed c => c.stat
  | .part p => p.stat

/-! ## Expressions (package `expr`, declarations only) -/

/-- Modelled from the spec: `expr.PathComponent`, the tail of a path: `absent` is the nil
interface value (no further tail), `dot` is a field access `.Field` (`*expr.Dot`) and
`index` is an index `[i]` (`*expr.LiteralIndex`), each with its own tail. -/
inductive PathComponent where
  | absent
  | dot (Field : String) (Rest : PathComponent)
  | index (Field : Int) (Rest : PathComponent)
  deriving DecidableEq, Repr

/-- Modelled from the spec: `expr.Node`; `path` is `*expr.Path` with its first identifier
and its tail, `other` is any node that is not a path (kept by its text). -/
inductive Node where
  | path (First : String) (Rest : PathComponent)
  | other (text : String)
  deriving DecidableEq, Repr

/-- Text of a path tail, used in error messages only. -/
def PathComponent.text : PathComponent → String
  | .absent => ""
  | .dot f r => "." ++ f ++ r.text
  | .index i r => "[" ++ toString i ++ "]" ++ r.text

/-- Text of a node (`expr.ToString`), used in error messages only. -/
def Node.text : Node → String
  | .path f r => f ++ r.text
  | .other t => t

/-! ## The splitter (`splitter.go`) -/

/-- The constant `defaultSplitSize`. -/
def defaultSplitSize : Int := 100 * 1024 * 1024

/-- The struct `splitter`.  A peer (`*net.TCPAddr`) is kept as its `String()` form and
the worker id as a string. -/
structure splitter where
  SplitSize : Int
  workerID : String
  peers : List String
  selfAddr : String
  total : Int
  maxscan : Int
  deriving DecidableEq, Repr

/-- The implementations of `plan.Transport` built by the splitter. -/
inductive Transport where
  | LocalTransport
  | Remote (Tenant : String) (Net : String) (Addr : String)
  deriving DecidableEq, Repr

/-- The struct `split`: a transport and the indices of its blobs in the shared pool. -/
structure split where
  tp : Transport
  blobs : List Int
  deriving DecidableEq, Repr

/-- The method `(*splitter).transport`; a panic when `i` is out of range. -/
def splitter.transport (s : splitter) (i : Nat) : Except Error Transport :=
  match s.peers.get? i with
  | none => .error (.runtimePanic "index out of range")
  | some nodeID =>
    if nodeID = s.selfAddr then .ok Transport.LocalTransport
    else .ok (Transport.Remote s.workerID "tcp" nodeID)

/-- The siphash of `github.com/dchest/siphash`, `Hash(key0, key1, bytes)`; the result is
read as a `uint64`. -/
abbrev SipHash := Nat → Nat → String → Nat

/-- The first of the two fixed keys of `partition`. -/
def key0 : Nat := 0x5d1ec810

/-- The second of the two fixed keys of `partition`. -/
def key1 : Nat := 0xfebed702

/-- The method `(*splitter).partition`: the index of the peer which should handle the blob.
The division is a `uint64` division (a panic when the divisor is zero) and the result is
converted to `int`.  The receiver is returned unchanged next to the result. -/
def splitter.partition (H : SipHash) (s : splitter) (b : Blob) : Except Error Int × splitter :=
  match b.Stat with
  | .error err => (.error err, s)
  | .ok info =>
    let hash := wrapU64 (H key0 key1 info.ETag)
    let maxUint64 := 2 ^ 64 - 1
    let n := wrapU64 s.peers.length
    if n = 0 then (.error (.runtimePanic "integer divide by zero"), s)
    else
      let idx := hash / (maxUint64 / n)
      (.ok (wrap64 (idx : Int)), s)

/-- The loop condition of `maxscan`: `f == nil || f(&t.Sparse, block) != never`. -/
def scanned (f : Option filter) (sparse : SparseIndex) (block : Int) : Bool :=
  match f with
  | none => true
  | some g => g sparse block != ternary.never

/-- The function `maxscan`: the max scan size of a part, optionally with filter `f`
applied.  Slicing `t.Blocks[StartBlock:EndBlock]` panics when the range is not within the
block list; the block list is taken to have no spare capacity, so that its capacity, which
bounds the slice expression, is its length. -/
def maxscan (pc : CompressedPart) (f : Option filter) : Except Error Int :=
  let t := pc.Parent.Trailer
  if pc.StartBlock ≤ pc.EndBlock ∧ pc.EndBlock ≤ t.Blocks.length then
    let blocks := (t.Blocks.take pc.EndBlock).drop pc.StartBlock
    .ok ((List.range blocks.length).foldl
      (fun (scan : Int) (i : Nat) =>
        if scanned f t.Sparse ((pc.StartBlock : Int) + (i : Int)) then
          wrap64 (scan + wrap64 (wrap64 ((blocks.getD i ⟨0, 0⟩).Chunks : Int) * 2 ^ t.BlockShift))
        else scan)
      0)
  else .error (.runtimePanic "slice bounds out of range")

/-- The function `compact`: splits with no blobs are removed from the list. -/
def compact (splits : List split) : List split :=
  splits.foldl (fun out sp => if sp.blobs.length > 0 then out ++ [sp] else out) []

/-- The struct `filterHandle` (of `filter.go`): the table handle returned by `Stat`, with
the original predicate, its compiled form and the blob list. -/
structure filterHandle where
  filter : Option Node
  compiled : Option Sneller.filter
  blobs : List Blob

/-- The implementations of `plan.TableHandle`: the filter-carrying handle and any other
handle (kept by its type name). -/
inductive TableHandle where
  | filterHandle (fh : filterHandle)
  | otherHandle (typeName : String)

/-- The type `tableHandleFn`: produces a table handle from a list of blobs and a filter. -/
abbrev tableHandleFn := List Blob → Option Node → TableHandle

/-- The struct `subtables`, a chain linked through `next`. -/
inductive subtables where
  | mk (splits : List split) (table : Node) (blobs : List Blob) (filter : Option Node)
      (next : Option subtables) (fn : tableHandleFn)

def subtables.splits : subtables → List split
  | .mk sp _ _ _ _ _ => sp

def subtables.table : subtables → Node
  | .mk _ t _ _ _ _ => t

def subtables.blobs : subtables → List Blob
  | .mk _ _ b _ _ _ => b

def subtables.filter : subtables → Option Node
  | .mk _ _ _ f _ _ => f

def subtables.next : subtables → Option subtables
  | .mk _ _ _ _ n _ => n

def subtables.fn : subtables → tableHandleFn
  | .mk _ _ _ _ _ f => f

/-- The method `(*subtables).Len`. -/
def subtables.Len : subtables → Nat
  | .mk sp _ _ _ none _ => sp.length
  | .mk sp _ _ _ (some n) _ => sp.length + n.Len

/-- The variables `Split` mutates while it runs: the receiver (for `total` and `maxscan`),
the per-peer `splits` and the shared pool `blobs`. -/
structure SplitState where
  s : splitter
  splits : List split
  blobs : List Blob

/-- The closure `insert` of `Split`: the blob goes to the peer chosen by `partition`;
indexing `splits[i]` panics when `i` is out of range. -/
def insert (H : SipHash) (st : SplitState) (b : Blob) : Option Error × SplitState :=
  match (st.s.partition H b).1 with
  | .error err => (some err, st)
  | .ok i =>
    if 0 ≤ i ∧ i.toNat < st.splits.length then
      (none, { st with
        splits := st.splits.modify (fun sp => { sp with blobs := sp.blobs ++ [(st.blobs.length : Int)] }) i.toNat
        blobs := st.blobs ++ [b] })
    else (some (.runtimePanic "index out of range"), st)

/-- The inner loop of `Split` over the parts `sub` of a compressed blob: a part whose
`maxscan` is 0 is skipped, any other part is counted and inserted. -/
def splitParts (H : SipHash) (flt : Option filter) (c : Compressed) :
    List (Nat × Nat × Except Error Info) → SplitState → Option Error × SplitState
  | [], st => (none, st)
  | (start, stop, pstat) :: rest, st =>
    let pc : CompressedPart := ⟨c, start, stop, pstat⟩
    match maxscan pc flt with
    | .error err => (some err, st)
    | .ok scan =>
      if scan = 0 then splitParts H flt c rest st
      else
        let st1 := { st with s := { st.s with maxscan := wrap64 (st.s.maxscan + scan) } }
        match insert H st1 (Blob.part pc) with
        | (some err, st2) => (some err, st2)
        | (none, st2) => splitParts H flt c rest st2

/-- The loop of `Split` over `fh.blobs.Contents`. -/
def splitBlobs (H : SipHash) (size : Int) (flt : Option filter) :
    List Blob → SplitState → Option Error × SplitState
  | [], st => (none, st)
  | b :: rest, st =>
    match b.Stat with
    | .error err => (some err, st)
    | .ok stat =>
      match b with
      | .compressed c =>
        let st1 := { st with s := { st.s with total := wrap64 (st.s.total + c.Trailer.Decompressed) } }
        match c.split size with
        | .error err => (some err, st1)
        | .ok sub =>
          match splitParts H flt c sub st1 with
          | (some err, st2) => (some err, st2)
          | (none, st2) => splitBlobs H size flt rest st2
      | _ =>
        match insert H st b with
        | (some err, st1) => (some err, st1)
        | (none, st1) =>
          let st2 := { st1 with s := { st1.s with
            total := wrap64 (st1.s.total + stat.Size)
            maxscan := wrap64 (st1.s.maxscan + stat.Size) } }
          splitBlobs H size flt rest st2

/-- The closure `thfn` of `Split`. -/
def thfn : tableHandleFn :=
  fun blobs flt => TableHandle.filterHandle ⟨flt, none, blobs⟩

/-- The loop `for i := range splits` of `Split` that fills in the transports. -/
def initSplits (s : splitter) : Except Error (List split) :=
  (List.range s.peers.length).mapM (fun i => do
    let tp ← s.transport i
    pure (⟨tp, []⟩ : split))

/-- The method `(*splitter).Split`.  `compileFilter` is the filter compiler of
`filter.go`, which returns a filter and whether compilation succeeded. -/
def splitter.Split (H : SipHash) (compileFilter : Node → Option filter)
    (s : splitter) (table : Node) (handle : TableHandle) : Except Error subtables × splitter :=
  match handle with
  | .otherHandle typeName =>
    (.error (.fmtError ("cannot split table handle of type " ++ typeName)), s)
  | .filterHandle fh =>
    let size := if s.SplitSize = 0 then defaultSplitSize else s.SplitSize
    let flt := match fh.compiled, fh.filter with
      | some g, _ => some g
      | none, some e => compileFilter e
      | none, none => none
    match initSplits s with
    | .error err => (.error err, s)
    | .ok splits =>
      match splitBlobs H size flt fh.blobs ⟨s, splits, []⟩ with
      | (some err, st) => (.error err, st.s)
      | (none, st) =>
        (.ok (subtables.mk (compact st.splits) table st.blobs none none thfn), st.s)

/-! ## The sub-table plan encoding (`splitter.go` over package `ion`) -/

/-- Modelled from the spec: an ion value as the encoder wrote it.  The binary layer of
package `ion` is not part of the three files; a buffer is kept as the sequence of the
values it holds and a list value as the sequence of its elements. -/
inductive Datum where
  | null
  | int (n : Int)
  | string (s : String)
  | list (xs : List Datum)

/-- Modelled from the spec: `ion.Type`, as far as the decoder tests it; `InvalidType` is
the type of an empty buffer. -/
inductive IonType where
  | NullType
  | IntType
  | StringType
  | ListType
  | InvalidType
  deriving DecidableEq, Repr

/-- Modelled from the spec: `ion.TypeOf(body)`, the type of the first value of `body`. -/
def TypeOf : List Datum → IonType
  | [] => IonType.InvalidType
  | .null :: _ => IonType.NullType
  | .int _ :: _ => IonType.IntType
  | .string _ :: _ => IonType.StringType
  | .list _ :: _ => IonType.ListType

/-- Modelled from the spec: `ion.Contents(body)`, the contents of the first value of
`body` when it is a list; `none` is the nil result. -/
def Contents : List Datum → Option (List Datum)
  | .list xs :: _ => some xs
  | _ => none

/-- Modelled from the spec: `body[ion.SizeOf(body):]`, the buffer after its first value. -/
def skipValue (body : List Datum) : List Datum :=
  body.drop 1

/-- Modelled from the spec: `ion.ReadInt(body)`, the integer that starts `body`. -/
def ReadInt : List Datum → Except Error Int
  | .int n :: _ => .ok n
  | _ => .error (.external "ReadInt: bad type")

/-- Modelled from the spec: `ion.UnpackList(body, fn)`: `fn` is called on each element of
the list that starts `body`, in order, until it fails; the result is the state `fn` built
and the buffer after the list. -/
def UnpackList {σ : Type} (body : List Datum) (fn : List Datum → σ → Except Error σ)
    (init : σ) : Except Error (σ × List Datum) :=
  match body with
  | .list xs :: rest =>
    match xs.foldlM (fun acc x => fn [x] acc) init with
    | .error err => .error err
    | .ok out => .ok (out, rest)
  | _ => .error (.external "UnpackList: bad type")

/-- The codecs of packages `plan`, `expr` and `blob` that `splitter.go` calls, each
writing or reading one ion value: `plan.EncodeTransport` and `plan.DecodeTransport`,
`Node.Encode` and `expr.Decode`, `blob.List.Encode` and `blob.DecodeList`. -/
structure Codec where
  encodeTransport : Transport → Except Error Datum
  decodeTransport : Datum → Except Error Transport
  encodeExpr : Node → Datum
  decodeExpr : Datum → Except Error Node
  encodeBlobs : List Blob → Datum
  decodeBlobs : Datum → Except Error (List Blob)

/-- The call `plan.DecodeTransport(st, body)`: decodes the first value of `body`. -/
def Codec.DecodeTransport (c : Codec) : List Datum → Except Error Transport
  | [] => .error (.external "unexpected end of input")
  | d :: _ => c.decodeTransport d

/-- The call `expr.Decode(st, body)`: decodes the first value of `body` and returns
the buffer after it. -/
def Codec.DecodeExpr (c : Codec) : List Datum → Except Error (Node × List Datum)
  | [] => .error (.external "unexpected end of input")
  | d :: rest =>
    match c.decodeExpr d with
    | .error err => .error err
    | .ok e => .ok (e, rest)

/-- The call `blob.DecodeList(st, body)`: decodes the first value of `body`. -/
def Codec.DecodeList (c : Codec) : List Datum → Except Error (List Blob)
  | [] => .error (.external "unexpected end of input")
  | d :: _ => c.decodeBlobs d

/-- The method `(*split).encode`: the list `[tp, blobs]`. -/
def split.encode (c : Codec) (s : split) : Except Error Datum :=
  match c.encodeTransport s.tp with
  | .error err => .error err
  | .ok tp => .ok (Datum.list [tp, Datum.list (s.blobs.map Datum.int)])

/-- The loop of `Encode` over `s.splits`. -/
def encodeSplits (c : Codec) : List split → Except Error (List Datum)
  | [] => .ok []
  | sp :: rest =>
    match sp.encode c with
    | .error err => .error err
    | .ok d =>
      match encodeSplits c rest with
      | .error err => .error err
      | .ok ds => .ok (d :: ds)

/-- The filter slot written by `Encode`: a null when the filter is absent. -/
def encodeFilter (c : Codec) : Option Node → Datum
  | none => Datum.null
  | some e => c.encodeExpr e

/-- The method `(*subtables).Encode`: the list `[splits, table, blobs, filter, next]`,
with null for an absent filter and an absent next. -/
def subtables.Encode (c : Codec) : subtables → Except Error Datum
  | .mk splits table blobs filter none _ =>
    match encodeSplits c splits with
    | .error err => .error err
    | .ok sps =>
      .ok (Datum.list [Datum.list sps, c.encodeExpr table, c.encodeBlobs blobs,
        encodeFilter c filter, Datum.null])
  | .mk splits table blobs filter (some n) _ =>
    match encodeSplits c splits with
    | .error err => .error err
    | .ok sps =>
      match n.Encode c with
      | .error err => .error err
      | .ok nd =>
        .ok (Datum.list [Datum.list sps, c.encodeExpr table, c.encodeBlobs blobs,
          encodeFilter c filter, nd])

/-- The function `decodeSplit`.  The first error message ends with the name of the ion
type found, which package `ion` renders; the message is kept without that name. -/
def decodeSplit (c : Codec) (body : List Datum) : Except Error split :=
  if TypeOf body ≠ IonType.ListType then
    .error (.fmtError "expected a list; found ion type")
  else
    match Contents body with
    | none => .error (.fmtError "invalid list encoding")
    | some body1 =>
      match c.DecodeTransport body1 with
      | .error err => .error err
      | .ok tp =>
        let body2 := skipValue body1
        match UnpackList body2
            (fun b (blobs : List Int) =>
              match ReadInt b with
              | .error err => .error err
              | .ok n => .ok (blobs ++ [n]))
            [] with
        | .error err => .error err
        | .ok (blobs, _) => .ok ⟨tp, blobs⟩

/-- Lines 311 to 347 of `decodeSubtables`: everything but `next`.  The result is the
decoded `splits`, `table`, `blobs` and `filter` and the buffer that starts at `next`.  The
first error message ends with the name of the ion type found, which package `ion` renders;
the message is kept without that name. -/
def decodeHead (c : Codec) (body : List Datum) :
    Except Error (List split × Node × List Blob × Option Node × List Datum) :=
  if TypeOf body ≠ IonType.ListType then
    .error (.fmtError "expected a list; found ion type")
  else
    match Contents body with
    | none => .error (.fmtError "invalid list encoding")
    | some body1 =>
      match UnpackList body1
          (fun b (splits : List split) =>
            match decodeSplit c b with
            | .error err => .error err
            | .ok sp => .ok (splits ++ [sp]))
          [] with
      | .error err => .error err
      | .ok (splits, body2) =>
        match c.DecodeExpr body2 with
        | .error err => .error err
        | .ok (table, body3) =>
          match c.DecodeList body3 with
          | .error err => .error err
          | .ok blobs =>
            let body4 := skipValue body3
            if TypeOf body4 ≠ IonType.NullType then
              match c.DecodeExpr body4 with
              | .error err => .error err
              | .ok (flt, body5) => .ok (splits, table, blobs, some flt, body5)
            else .ok (splits, table, blobs, none, skipValue body4)

/-- The function `decodeSubtables`: the part before `next` is `decodeHead`, and `next` is
decoded by the recursive call when the buffer does not continue with a null. -/
def decodeSubtables (c : Codec) (fn : tableHandleFn) (body : List Datum) :
    Except Error subtables :=
  match h : decodeHead c body with
  | .error err => .error err
  | .ok (splits, table, blobs, flt, body5) =>
    if TypeOf body5 ≠ IonType.NullType then
      match decodeSubtables c fn body5 with
      | .error err => .error err
      | .ok next => .ok (subtables.mk splits table blobs flt (some next) fn)
    else .ok (subtables.mk splits table blobs flt none fn)
termination_by sizeOf body
decreasing_by
  have hdrop : ∀ (xs : List Datum) (k : Nat), sizeOf (xs.drop k) ≤ sizeOf xs := by
    intro xs
    induction xs with
    | nil => intro k; simp
    | cons x xs ih =>
      intro k
      cases k with
      | zero => simp
      | succ k =>
        have h1 := ih k
        simp only [List.drop_succ_cons, List.cons.sizeOf_spec]
        omega
  have hexpr : ∀ (b r : List Datum) (e : Node), c.DecodeExpr b = .ok (e, r) → r = b.drop 1 := by
    intro b r e h
    unfold Codec.DecodeExpr at h
    split at h
    · cases h
    · split at h
      · cases h
      · cases h; rfl
  unfold decodeHead at h
  split at h
  · cases h
  · split at h
    · cases h
    · rename_i body1 hc
      have h1 : sizeOf body1 < sizeOf body := by
        unfold Contents at hc
        split at hc
        · cases hc
          simp only [List.cons.sizeOf_spec, Datum.list.sizeOf_spec]
          omega
        · cases hc
      split at h
      · cases h
      · rename_i sp body2 hu
        have h2 : body2 = body1.drop 1 := by
          unfold UnpackList at hu
          split at hu
          · split at hu
            · cases hu
            · cases hu; rfl
          · cases hu
        split at h
        · cases h
        · rename_i tb body3 ht
          have h3 : body3 = body2.drop 1 := hexpr _ _ _ ht
          have e2 := hdrop body3 1
          have e3 := hdrop body2 1
          have e4 := hdrop body1 1
          have e1 := hdrop (body3.drop 1) 1
          split at h
          · cases h
          · simp only [skipValue] at h
            split at h
            · split at h
              · cases h
              · rename_i fl b5 hf
                have h5 := hexpr _ _ _ hf
                cases h
                subst h5 h3 h2
                omega
            · cases h
              subst h3 h2
              omega

/-! ## The planning env (`fsenv.go`) -/

/-- Modelled from the spec: `date.Time`, an instant counted from the zero value. -/
abbrev Time := Nat

/-- Modelled from the spec: `*blockfmt.Index`, known here by its identity (which object
it is) and its creation time. -/
structure Index where
  ident : Nat
  Created : Time
  deriving DecidableEq, Repr

structure savedIndex where
  db : String
  table : String
  index : Index
  deriving DecidableEq, Repr

structure savedList where
  db : String
  list : List String
  deriving DecidableEq, Repr

/-- One `io.WriteString(f.hash, ...)`: either `path.Join(dbname, table)` or
`index.Created.String()`, kept by its arguments. -/
inductive HashWrite where
  | joined (dbname : String) (table : String)
  | created (t : Time)
  deriving DecidableEq, Repr

/-- The storage layer behind `db.FS` (package `db`).  `openPartialIndex n` answers the
request `db.OpenPartialIndex(root, dbname, table, key)` made after `n` earlier such
requests, so that answers may change over time. -/
structure Storage where
  openPartialIndex : Nat → String → String → String → Except Error Index
  blobs : Index → Option (SparseIndex → Int → Bool) → Except Error (List Blob)
  listTables : String → Except Error (List String)

/-- One invocation of `db.OpenPartialIndex`: database, table and whether it succeeded. -/
structure OpenCall where
  db : String
  table : String
  ok : Bool
  deriving DecidableEq, Repr

/-- The struct `fsEnv`.  `hash` is the sequence of writes absorbed by the blake2b state.
`opens` is not a field of the Go struct: it records the invocations of
`db.OpenPartialIndex`, in order. -/
structure fsEnv where
  root : Storage
  db : String
  tenantKey : String
  recent : List savedIndex
  lists : List savedList
  hash : List HashWrite
  modtime : Time
  opens : List OpenCall

/-- What `t.Root()` of a `db.Tenant` yields: a root usable as `db.FS`, or a root of
another type. -/
inductive Root where
  | fs (src : Storage)
  | notFS (typeName : String)

/-- The function `environ`; the tenant is given by what `t.Root()` and `t.Key()` return. -/
def environ (tRoot : Except Error Root) (tKey : String) (dbname : String) : Except Error fsEnv :=
  match tRoot with
  | .error err => .error err
  | .ok (.notFS typeName) =>
    .error (.fmtError ("db " ++ typeName ++ " from auth cannot be used for reading"))
  | .ok (.fs src) =>
    .ok { root := src, db := dbname, tenantKey := tKey, recent := [], lists := [],
          hash := [], modtime := 0, opens := [] }

/-- The function `syntax` of `fsenv.go`: a `*expr.SyntaxError` with the format string and
the rendered argument. -/
def syntaxErr (f : String) (arg : String) : Error :=
  Error.syntaxError f arg

/-- The function `tsplit`, applied to a path given by `First` and `Rest`. -/
def tsplit (First : String) (Rest : PathComponent) : Except Error (String × String) :=
  match Rest with
  | .dot Field dRest =>
    if dRest ≠ PathComponent.absent then
      .error (syntaxErr "trailing path expression %q in table not supported" dRest.text)
    else .ok (First, Field)
  | _ => .error (syntaxErr "no database+table reference in %q" (Node.path First Rest).text)

/-- The method `(*fsEnv).CacheValues`, with the digest `sum` of the absorbed writes. -/
def fsEnv.CacheValues (sum : List HashWrite → List Nat) (f : fsEnv) : List Nat × Time :=
  (sum f.hash, f.modtime)

/-- Lines 105 to 125 of `(*fsEnv).index`: the database and table a table expression
refers to, or the syntax error. -/
def fsEnv.resolve (f : fsEnv) (e : Node) : Except Error (String × String) :=
  match e with
  | .other _ => .error (syntaxErr "unexpected table expression %q" e.text)
  | .path First Rest =>
    if f.db = "" then tsplit First Rest
    else if Rest ≠ PathComponent.absent then
      .error (syntaxErr "trailing path expression %q in table not supported" Rest.text)
    else .ok (f.db, First)

/-- Lines 127 to 154 of `(*fsEnv).index`: the memo lookup and, on a miss, the load from
the storage layer with its bookkeeping. -/
def fsEnv.load (f : fsEnv) (dbname table : String) : Except Error Index × fsEnv :=
  match f.recent.find? (fun r => r.db = dbname ∧ r.table = table) with
  | some r => (.ok r.index, f)
  | none =>
    match f.root.openPartialIndex f.opens.length dbname table f.tenantKey with
    | .error err => (.error err, { f with opens := f.opens ++ [⟨dbname, table, false⟩] })
    | .ok index =>
      (.ok index,
        { f with
          opens := f.opens ++ [⟨dbname, table, true⟩]
          recent := f.recent ++ [⟨dbname, table, index⟩]
          modtime := if f.modtime = 0 ∨ f.modtime < index.Created then index.Created else f.modtime
          hash := f.hash ++ [HashWrite.joined dbname table, HashWrite.created index.Created] })

/-- The method `(*fsEnv).index`. -/
def fsEnv.index (f : fsEnv) (e : Node) : Except Error Index × fsEnv :=
  match f.resolve e with
  | .error err => (.error err, f)
  | .ok (dbname, table) => f.load dbname table

/-- The method `(*fsEnv).Index`. -/
def fsEnv.Index (f : fsEnv) (p : Node) : Except Error Index × fsEnv :=
  f.index p

/-- The method `(*fsEnv).Stat`; `compileFilter` is the filter compiler of `filter.go`. -/
def fsEnv.Stat (compileFilter : Node → Option filter) (f : fsEnv) (e : Node)
    (whereE : Option Node) : Except Error TableHandle × fsEnv :=
  match f.index e with
  | (.error err, f1) => (.error err, f1)
  | (.ok index, f1) =>
    let matchF : Option filter := whereE.bind compileFilter
    let keep : Option (SparseIndex → Int → Bool) :=
      matchF.map (fun m => fun s n => m s n != ternary.never)
    match f1.root.blobs index keep with
    | .error err => (.error err, f1)
    | .ok blobs => (.ok (TableHandle.filterHandle ⟨whereE, matchF, blobs⟩), f1)

/-- The method `(*fsEnv).ListTables`. -/
def fsEnv.ListTables (f : fsEnv) (dbname : String) : Except Error (List String) × fsEnv :=
  let dbname := if dbname = "" then f.db else dbname
  match f.lists.find? (fun l => l.db = dbname) with
  | some l => (.ok l.list, f)
  | none =>
    match f.root.listTables dbname with
    | .error err => (.error err, f)
    | .ok li => (.ok li, { f with lists := f.lists ++ [⟨dbname, li⟩] })

/-- A call made on the planning env while a query is planned. -/
inductive EnvCall where
  | Index (e : Node)
  | Stat (e : Node) (whereE : Option Node)

/-- The env after one call. -/
def fsEnv.call (compileFilter : Node → Option filter) (f : fsEnv) : EnvCall → fsEnv
  | .Index e => (f.Index e).2
  | .Stat e whereE => (f.Stat compileFilter e whereE).2

/-- The env after a sequence of calls. -/
def fsEnv.calls (compileFilter : Node → Option filter) (f : fsEnv) (cs : List EnvCall) : fsEnv :=
  cs.foldl (fun g c => g.call compileFilter c) f

/-- Number of `db.OpenPartialIndex` invocations recorded for a database and table. -/
def openCount (log : List OpenCall) (dbname table : String) : Nat :=
  (log.filter (fun c => c.db = dbname ∧ c.table = table)).length

/-- Number of successful `db.OpenPartialIndex` invocations recorded for a database and
table. -/
def openOkCount (log : List OpenCall) (dbname table : String) : Nat :=
  (log.filter (fun c => c.db = dbname ∧ c.table = table ∧ c.ok = true)).length

/-! ## The converter (`convert.go`) -/

/-- The constant `wantInflight`. -/
def wantInflight : Int := 80 * 1024 * 1024

/-- The struct `Input`.  The stream `R` and the format `F` are kept by what they answer:
`convert` is what `F.Convert(R, &cn)` returns and `rclose` what `R.Close()` returns.
`closed` is not a field of the Go struct: it counts the invocations of `R.Close()`. -/
structure Input where
  Path : String
  ETag : String
  Size : Int
  convert : Option Error
  rclose : Option Error
  Err : Option Error
  closed : Nat
  deriving DecidableEq, Repr

/-- The stream `Prepend.R` when it is not nil: `copy` is what `d.Copy(cn, R)` returns and
`closed` counts the invocations of `R.Close()`. -/
structure PrependStream where
  copy : Option Error
  closed : Nat
  deriving DecidableEq, Repr

/-- The struct `Converter`; `Prepend` is `none` when `Prepend.R` is nil. -/
structure Converter where
  Prepend : Option PrependStream
  Inputs : List Input
  Comp : String
  Align : Int
  FlushMeta : Int
  TargetSize : Int
  Parallel : Int
  DisablePrefetch : Bool
  trailer : Option Trailer
  deriving DecidableEq, Repr

/-- The collaborators of a run, by what they answer: `compression name` is whether
`compr.Compression(name)` is not nil, `flush` is what `cn.Flush()` returns, `wclose` and
`wtrailer` are what `Close()` of the `CompressionWriter` returns and the trailer it built,
`gomaxprocs` is `runtime.GOMAXPROCS(0)`, `openLane i` is the error of the i-th
`MultiWriter.Open()`, `lanes p inputs` is the outcome of the `p` concurrent lanes (the
errors received from `errs`, in order, and the inputs as the lanes left them),
`mclose` and `mtrailer` are what `Close()` of the `MultiWriter` returns and its trailer,
and `outputClose` is what `c.Output.Close(nil)`, called on the Uploader itself, returns. -/
structure World where
  compression : String → Bool
  flush : Option Error
  wclose : Option Error
  wtrailer : Trailer
  gomaxprocs : Int
  openLane : Nat → Option Error
  lanes : Nat → List Input → List (Option Error) × List Input
  mclose : Option Error
  mtrailer : Trailer
  outputClose : Option Error

/-- The method `(*Converter).MultiStream`. -/
def Converter.MultiStream (c : Converter) : Bool :=
  decide (c.Inputs.length > 1) && (decide (c.Parallel ≤ 0) || decide (c.Parallel > 1))

/-- The method `(*Converter).Trailer`. -/
def Converter.Trailer (c : Converter) : Option Trailer :=
  c.trailer

/-- The method `(*Converter).runPrepend`: the copy error, and the prepend stream closed
once when there is one. -/
def Converter.runPrepend (c : Converter) : Option Error × Converter :=
  match c.Prepend with
  | none => (none, c)
  | some r => (r.copy, { c with Prepend := some { r with closed := r.closed + 1 } })

/-- The variables of the main loop of `runSingle`: which `ready[k]` hold a channel, the
prefetch pointer `next`, the in-flight byte counter and the inputs. -/
structure SingleState where
  ready : List Bool
  next : Nat
  inflight : Int
  Inputs : List Input
  deriving DecidableEq, Repr

/-- The readahead loop of `runSingle` (the inner `for`), run for input `i`; `fuel` bounds
the iterations and the caller passes the number of inputs. -/
def prefetch (disable : Bool) (i : Nat) : Nat → SingleState → SingleState
  | 0, st => st
  | fuel + 1, st =>
    if !disable ∧ st.inflight < wantInflight ∧ (st.next : Int) - (i : Int) < 64
        ∧ st.next < st.Inputs.length then
      prefetch disable i fuel
        { st with
          ready := st.ready.set st.next true
          inflight := wrap64 (st.inflight + (st.Inputs.getD st.next ⟨"", "", 0, none, none, none, 0⟩).Size)
          next := st.next + 1 }
    else st

/-- One `R.Close()` on an input. -/
def Input.close (x : Input) : Input :=
  { x with closed := x.closed + 1 }

/-- The error path of the main loop at input `i`: every input after `i` is closed and the
error is stored in `Inputs[i].Err`. -/
def failAt (i : Nat) (err : Error) (inputs : List Input) : List Input :=
  ((inputs.take (i + 1)) ++ ((inputs.drop (i + 1)).map Input.close)).modify
    (fun x => { x with Err := some err }) i

/-- The head of the body of the main loop of `runSingle` for input `i` (lines 349 to 376):
the wait for a prefetch queued on this input, the fast-forward of the prefetch pointer and
the readahead loop. -/
def awaitAndPrefetch (disable : Bool) (i : Nat) (x : Input) (st : SingleState) : SingleState :=
  let st1 : SingleState :=
    if st.ready.getD i false then
      { st with ready := st.ready.set i false, inflight := wrap64 (st.inflight - x.Size) }
    else st
  let st2 : SingleState := if st1.next ≤ i then { st1 with next := i + 1 } else st1
  prefetch disable i st2.Inputs.length st2

/-- The main loop of `runSingle` from input `i` on, with `n` inputs left. -/
def singleLoop (disable : Bool) : Nat → Nat → SingleState → Option Error × SingleState
  | 0, _, st => (none, st)
  | n + 1, i, st =>
    match st.Inputs.get? i with
    | none => (none, st)
    | some x =>
      let st3 := awaitAndPrefetch disable i x st
      let err := match x.convert with
        | some e => some e
        | none => x.rclose
      let st4 : SingleState := { st3 with Inputs := st3.Inputs.modify Input.close i }
      match err with
      | some e => (some e, { st4 with Inputs := failAt i e st4.Inputs })
      | none => singleLoop disable n (i + 1) st4

/-- The method `(*Converter).runSingle`.  The division that computes `MinChunksPerBlock`
panics when `c.Align * 2` is zero.  The verb `%q` of the first error message is rendered
as the name in double quotes, as it is for a name without special characters. -/
def Converter.runSingle (w : World) (c : Converter) : Option Error × Converter :=
  if !w.compression c.Comp then
    (some (.fmtError ("compression \x22" ++ c.Comp ++ "\x22 unavailable")), c)
  else if wrap64 (c.Align * 2) = 0 then
    (some (.runtimePanic "integer divide by zero"), c)
  else
    match c.runPrepend with
    | (some err, c1) => (some err, c1)
    | (none, c1) =>
      let st0 : SingleState := ⟨List.replicate c1.Inputs.length false, 1, 0, c1.Inputs⟩
      match singleLoop c1.DisablePrefetch c1.Inputs.length 0 st0 with
      | (some err, st) => (some err, { c1 with Inputs := st.Inputs })
      | (none, st) =>
        let c2 := { c1 with Inputs := st.Inputs }
        match w.flush with
        | some err => (some err, c2)
        | none => (w.wclose, { c2 with trailer := some w.wtrailer })

/-- The loop of `runMulti` that opens the `p` lanes: the first error of `w.Open()`. -/
def openLanes (w : World) (p : Nat) : Option Error :=
  (List.range p).findSome? w.openLane

/-- The loop of `runMulti` that collects the `p` lane results: the first error and the
number of further errors. -/
def collect (errs : List (Option Error)) : Option Error × Nat :=
  errs.foldl
    (fun (acc : Option Error × Nat) err =>
      match acc.1 with
      | none => (err, acc.2)
      | some _ => (acc.1, acc.2 + 1))
    (none, 0)

/-- The end of `runMulti` (lines 504 to 526), after the results `errs` of the lanes have
been received: the first lane error is returned, with the count of further errors when
there are any; otherwise the writer is closed and only then the trailer is set. -/
def Converter.finishMulti (w : World) (c : Converter) (errs : List (Option Error)) :
    Option Error × Converter :=
  match collect errs with
  | (some outerr, extra) =>
    if extra > 0 then
      (some (.wrapped ("%w (and " ++ toString extra ++ " other errors)") outerr), c)
    else (some outerr, c)
  | (none, _) =>
    match w.mclose with
    | some err => (some err, c)
    | none => (none, { c with trailer := some w.mtrailer })

/-- The method `(*Converter).runMulti`, with the concurrent lanes taken from the world:
the sequential part before the lanes start and after their results are received is
embedded as written.  The verb `%q` of the first error message is rendered as the name in
double quotes. -/
def Converter.runMulti (w : World) (c : Converter) : Option Error × Converter :=
  if !w.compression c.Comp then
    (some (.fmtError ("compression \x22" ++ c.Comp ++ "\x22 unavailable")), c)
  else if wrap64 (c.Align * 2) = 0 then
    (some (.runtimePanic "integer divide by zero"), c)
  else
    let p0 : Int := if c.Parallel ≤ 0 then w.gomaxprocs else c.Parallel
    if p0 < 0 then (some (.runtimePanic "makechan: size out of range"), c)
    else
      let p : Nat := if p0 ≥ (c.Inputs.length : Int) then c.Inputs.length else p0.toNat
      match openLanes w p with
      | some err => (some err, c)
      | none =>
        Converter.finishMulti w { c with Inputs := (w.lanes p c.Inputs).2 }
          ((w.lanes p c.Inputs).1.take p)

/-- The method `(*Converter).Run`, with both tests of `len(c.Inputs) == 0` as the source
has them; the second one would close the Uploader. -/
def Converter.Run (w : World) (c : Converter) : Option Error × Converter :=
  if c.Inputs.length = 0 then
    (some (.fmtError "no inputs or merge sources"), c)
  else if c.Inputs.length = 0 then
    (w.outputClose, c)
  else if c.MultiStream then c.runMulti w
  else c.runSingle w

/-! ## Specifications and values used in the theorems -/

/-- A world in which every collaborator succeeds: every compression is available, flushing
and closing the writers succeed, and the lanes report no error. -/
def quietWorld : World where
  compression := fun _ => true
  flush := none
  wclose := none
  wtrailer := ⟨[⟨0, 1⟩], 20, ⟨[(0, 0)]⟩⟩
  gomaxprocs := 4
  openLane := fun _ => none
  lanes := fun p inputs => (List.replicate p none, inputs.map Input.close)
  mclose := none
  mtrailer := ⟨[⟨0, 1⟩], 20, ⟨[(0, 0)]⟩⟩
  outputClose := none

/-- An input that converts and closes without error and has not been closed yet. -/
def plainInput (path : String) (size : Int) : Input :=
  ⟨path, "etag-" ++ path, size, none, none, none, 0⟩

/-- A freshly constructed single-input converter writing with compression `comp`. -/
def oneInputConverter (comp : String) : Converter :=
  ⟨none, [plainInput "a.json" 10], comp, 1024, 4096, 8192, 1, false, none⟩

/-- The specification of reference resolution, in the words of the design: with a fixed
database name the expression must be a single identifier `t` and refers to `(fixedDB, t)`;
without one it must be exactly `db.table`; any other shape has no referent. -/
def resolveSpec (fixedDB : String) (e : Node) : Option (String × String) :=
  if fixedDB ≠ "" then
    match e with
    | .path t .absent => some (fixedDB, t)
    | _ => none
  else
    match e with
    | .path a (.dot b .absent) => some (a, b)
    | _ => none


/-- A storage layer whose every request fails. -/
def failingStorage : Storage where
  openPartialIndex := fun _ _ _ _ => .error (.external "index not found")
  blobs := fun _ _ => .error (.external "no blobs")
  listTables := fun _ => .error (.external "no such database")

/-- A storage layer that holds one index per table, created at instant 5, and no blobs. -/
def steadyStorage : Storage where
  openPartialIndex := fun n _ _ _ => .ok ⟨n, 5⟩
  blobs := fun _ _ => .ok []
  listTables := fun _ => .ok []

/-- The env `environ` builds over the storage `src` for a query with no fixed database. -/
def freshEnv (src : Storage) : fsEnv :=
  { root := src, db := "", tenantKey := "key", recent := [], lists := [], hash := [],
    modtime := 0, opens := [] }

/-- The table expression `db.t`. -/
def dbDotT : Node :=
  Node.path "db" (PathComponent.dot "t" PathComponent.absent)

/-- The record of storage requests never repeats a request for a table after a successful
one: for every successful entry, no later entry names the same database and table. -/
def loadsOnce (log : List OpenCall) : Prop :=
  log.Pairwise (fun a b => a.ok = true → ¬(b.db = a.db ∧ b.table = a.table))

/-- Every successful storage request is remembered in the memo table `recent`. -/
def remembered (f : fsEnv) : Prop :=
  ∀ c ∈ f.opens, c.ok = true → ∃ r ∈ f.recent, r.db = c.db ∧ r.table = c.table


/-- The bytes of block `i` of a trailer, `chunks << blockShift` as a natural number. -/
def blockBytes (t : Trailer) (i : Nat) : Nat :=
  (t.Blocks.getD i ⟨0, 0⟩).Chunks * 2 ^ t.BlockShift

/-- The sum of `g` over the half-open range `[a, b)`. -/
def rangeSum (g : Nat → Nat) (a b : Nat) : Nat :=
  ((List.range (b - a)).map (fun k => g (a + k))).sum

/-- The decompressed size of a blob in the words of the design: the sum over all blocks of
`chunks << blockShift`. -/
def decompressedSize (t : Trailer) : Nat :=
  rangeSum (blockBytes t) 0 t.Blocks.length

/-- The bytes block `i` contributes under filter `f`: its bytes when the filter does not
answer `never` for it (or there is no filter), and zero when the filter eliminates it. -/
def keptBytes (t : Trailer) (f : Option filter) (i : Nat) : Nat :=
  if scanned f t.Sparse (i : Int) then blockBytes t i else 0

/-- The scan size of the blocks `[start, stop)` in the words of the design: the sum of
`chunks << blockShift` over the blocks of the range that the filter does not eliminate. -/
def scanSum (t : Trailer) (f : Option filter) (start stop : Nat) : Nat :=
  rangeSum (keptBytes t f) start stop

/-- The parts `[start, stop)` listed in `parts` are consecutive and disjoint and lead from
block `a` to block `b`. -/
def consecutive (a : Nat) : List (Nat × Nat) → Nat → Prop
  | [], b => a = b
  | (start, stop) :: rest, b => start = a ∧ start ≤ stop ∧ consecutive stop rest b

/-- A compressed blob with a single block of one chunk and block shift 63. -/
def hugeShiftBlob : Compressed where
  stat := .ok ⟨1, "huge"⟩
  Trailer := ⟨[⟨0, 1⟩], 63, ⟨[(100, 200)]⟩⟩
  split := fun _ => .ok [(0, 1, .ok ⟨1, "huge-0-1"⟩)]

/-- A compressed blob with two blocks of one and two chunks and block shift 20. -/
def twoBlockBlob : Compressed where
  stat := .ok ⟨3145728, "two"⟩
  Trailer := ⟨[⟨0, 1⟩, ⟨10, 2⟩], 20, ⟨[(100, 200), (0, 10)]⟩⟩
  split := fun _ => .ok [(0, 1, .ok ⟨1, "two-0-1"⟩), (1, 2, .ok ⟨2, "two-1-2"⟩)]


/-- A sub-table chain is well formed for the codecs `c` and the handle factory `fn`: the
codecs read back what they write for the transport of every split, the table expression,
the blob pool and the filter of every link, a filter that is present is not written as an
ion null, and every link carries `fn`. -/
def Codec.roundTrips (c : Codec) (fn : tableHandleFn) : subtables → Prop
  | .mk splits table blobs filter none fn2 =>
    (∀ sp ∈ splits, ∀ d, c.encodeTransport sp.tp = .ok d → c.decodeTransport d = .ok sp.tp)
    ∧ c.decodeExpr (c.encodeExpr table) = .ok table
    ∧ c.decodeBlobs (c.encodeBlobs blobs) = .ok blobs
    ∧ (∀ e, filter = some e → c.encodeExpr e ≠ Datum.null ∧ c.decodeExpr (c.encodeExpr e) = .ok e)
    ∧ fn2 = fn
  | .mk splits table blobs filter (some n) fn2 =>
    (∀ sp ∈ splits, ∀ d, c.encodeTransport sp.tp = .ok d → c.decodeTransport d = .ok sp.tp)
    ∧ c.decodeExpr (c.encodeExpr table) = .ok table
    ∧ c.decodeBlobs (c.encodeBlobs blobs) = .ok blobs
    ∧ (∀ e, filter = some e → c.encodeExpr e ≠ Datum.null ∧ c.decodeExpr (c.encodeExpr e) = .ok e)
    ∧ fn2 = fn
    ∧ c.roundTrips fn n

/-- Codecs for the examples.  A transport is written as the string `local` or as the list
of its three strings, an expression as the string of its text (read back as a node that
is not a path), and a blob list as the list of the sizes and ETags of its blobs (read back
as blobs known through `Stat()` only). -/
def exampleCodec : Codec where
  encodeTransport := fun t =>
    match t with
    | .LocalTransport => .ok (.string "local")
    | .Remote tenant net addr => .ok (.list [.string tenant, .string net, .string addr])
  decodeTransport := fun d =>
    match d with
    | .string "local" => .ok .LocalTransport
    | .list [.string tenant, .string net, .string addr] => .ok (.Remote tenant net addr)
    | _ => .error (.external "bad transport")
  encodeExpr := fun e => .string e.text
  decodeExpr := fun d =>
    match d with
    | .string t => .ok (.other t)
    | _ => .error (.external "bad expression")
  encodeBlobs := fun l =>
    .list (l.map (fun b =>
      match b.Stat with
      | .ok info => Datum.list [.int info.Size, .string info.ETag]
      | .error _ => Datum.null))
  decodeBlobs := fun d =>
    match d with
    | .list xs =>
      xs.mapM (fun x =>
        match x with
        | .list [.int n, .string etag] => .ok (Blob.generic (.ok ⟨n, etag⟩))
        | _ => .error (.external "bad blob"))
    | _ => .error (.external "bad blob list")

/-- A chain of two links: two splits (one local, one remote) with a filter, followed by a
link with one split and no filter. -/
def exampleChain : subtables :=
  .mk [⟨.LocalTransport, [0]⟩, ⟨.Remote "w" "tcp" "10.0.0.2:9000", [1]⟩] (.other "db.t")
    [.generic (.ok ⟨1, "a"⟩), .generic (.ok ⟨2, "b"⟩)] (some (.other "x < 5"))
    (some (.mk [⟨.LocalTransport, [0]⟩] (.other "db.u") [.generic (.ok ⟨3, "c"⟩)] none none thfn))
    thfn


/-! ## Concatenation and late filter (`splitter.go`) -/

/-- The implementations of `plan.Subtables`: the chain built by the splitter, and any
other implementation (kept by its type name). -/
inductive Subtables where
  | chain (s : subtables)
  | foreign (typeName : String)

/-- The loop and the assignment of `(*subtables).Append`, for an argument that is a
`*subtables`: `sub` becomes the `next` of the last link of `s`. -/
def subtables.append : subtables → subtables → subtables
  | .mk splits table blobs filter none fn, sub =>
    .mk splits table blobs filter (some sub) fn
  | .mk splits table blobs filter (some n) fn, sub =>
    .mk splits table blobs filter (some (n.append sub)) fn

/-- The method `(*subtables).Append`; the type assertion `sub.(*subtables)` panics on
another implementation of `plan.Subtables`. -/
def subtables.Append (s : subtables) (sub : Subtables) : Except Error subtables :=
  match sub with
  | .chain t => .ok (s.append t)
  | .foreign typeName =>
    .error (.runtimePanic ("interface conversion: plan.Subtables is " ++ typeName))

/-- The method `(*subtables).Filter`; a nil expression is `none`. -/
def subtables.Filter : subtables → Option Node → subtables
  | .mk splits table blobs _ none fn, e => .mk splits table blobs e none fn
  | .mk splits table blobs _ (some n) fn, e => .mk splits table blobs e (some (n.Filter e)) fn

/-- One link of a chain without its `next`. -/
structure Link where
  splits : List split
  table : Node
  blobs : List Blob
  filter : Option Node
  fn : tableHandleFn

/-- The links of a chain, first link first. -/
def subtables.links : subtables → List Link
  | .mk splits table blobs filter none fn => [⟨splits, table, blobs, filter, fn⟩]
  | .mk splits table blobs filter (some n) fn => ⟨splits, table, blobs, filter, fn⟩ :: n.links

/-- Three one-link chains for the examples, told apart by their table. -/
def oneLink (name : String) : subtables :=
  .mk [⟨.LocalTransport, [0]⟩] (.other name) [.generic (.ok ⟨1, name⟩)] none none thfn


/-! ## Fatal errors (`convert.go` over package `errors`) -/

/-- The function `errors.Is(err, target)` for an error and a target that are not nil:
`err` or an error reached from it by `Unwrap` equals `target`.  Only errors built with
the verb `%w` have an `Unwrap` method. -/
def Error.is : Error → Error → Bool
  | .wrapped msg inner, target => (Error.wrapped msg inner == target) || inner.is target
  | err, target => err == target

/-- The function `errors.Is(err, target)`; a nil `err` never is a target that is not nil. -/
def errorsIs (err : Option Error) (target : Error) : Bool :=
  match err with
  | none => false
  | some e => e.is target

/-- The function `errors.As(err, &cie)` for `cie` of type `flate.CorruptInputError`:
whether `err` or an error reached from it by `Unwrap` has that type. -/
def Error.asCorruptInput : Error → Bool
  | .corruptInput _ => true
  | .wrapped _ inner => inner.asCorruptInput
  | _ => false

/-- The variable `isFatal`: the static errors known to be fatal to decoding. -/
def isFatal : List Error :=
  [ .sentinel "jsonrl" "ErrNoMatch",
    .sentinel "jsonrl" "ErrTooLarge",
    .sentinel "ion" "ErrTooLarge",
    .sentinel "gzip" "ErrHeader",
    .sentinel "zstd" "ErrReservedBlockType",
    .sentinel "zstd" "ErrMagicMismatch",
    .sentinel "zstd" "ErrUnknownDictionary",
    .sentinel "zstd" "ErrWindowSizeExceeded",
    .sentinel "zstd" "ErrWindowSizeTooSmall",
    .sentinel "zstd" "ErrBlockTooSmall" ]

/-- The function `IsFatal`. -/
def IsFatal (err : Option Error) : Bool :=
  isFatal.any (fun target => errorsIs err target)
    || (match err with
      | none => false
      | some e => e.asCorruptInput)

/-- The error obtained by wrapping `e` once for every message of `msgs`, the first message
outermost, in the words of the design: `e` is reached from it by unwrapping. -/
def wrapAll (msgs : List String) (e : Error) : Error :=
  msgs.foldr Error.wrapped e


/-- The latest creation time among the indexes held by the memo table, the zero time when
it is empty. -/
def maxCreated (recent : List savedIndex) : Time :=
  recent.foldl (fun m r => max m r.index.Created) 0


/-- A fresh converter with two inputs and the given parallelism. -/
def twoInputConverter (parallel : Int) : Converter :=
  ⟨none, [plainInput "a.json" 10, plainInput "b.json" 20], "zstd", 1024, 4096, 8192, parallel,
    false, none⟩


/-! ## The JSON row format (`convert.go`) -/

/-- The struct `jsonConverter`, without its hints.  The decompressor is kept by what it
answers for the stream at hand: `decomp` is `none` when `j.decomp` is nil, `some (.error e)`
when `j.decomp(r)` fails with `e`, and `some (.ok closer)` when it returns a reader, where
`closer` is `none` when that reader has no `Close() error` method and otherwise holds what
its `Close()` returns. -/
structure jsonConverter where
  decomp : Option (Except Error (Option (Option Error)))
  compname : String
  isCloudtrail : Bool

/-- The method `(*jsonConverter).Name`. -/
def jsonConverter.Name (j : jsonConverter) : String :=
  if j.compname = "" then "json" else "json." ++ j.compname

/-- The method `(*jsonConverter).Convert`; `cloudtrail` is what
`jsonrl.ConvertCloudtrail(rc, dst)` returns and `rows` what `jsonrl.Convert(rc, dst, hints)`
returns. -/
def jsonConverter.Convert (j : jsonConverter) (cloudtrail rows : Option Error) : Option Error :=
  match j.decomp with
  | some (.error err) => some err
  | none =>
    let err := if j.isCloudtrail then cloudtrail else rows
    err
  | some (.ok closer) =>
    let err := if j.isCloudtrail then cloudtrail else rows
    let err2 : Option Error :=
      match closer with
      | some closeErr => closeErr
      | none => none
    match err with
    | some e => some e
    | none => err2

/-- The first error of a list of error results that is not nil, in the words of the
design; nil when all are nil. -/
def firstNonNil : List (Option Error) → Option Error
  | [] => none
  | some e :: _ => some e
  | none :: rest => firstNonNil rest

/-- The row-conversion error of a JSON input: what the conversion routine selected by
`isCloudtrail` returns. -/
def jsonConverter.rowError (j : jsonConverter) (cloudtrail rows : Option Error) : Option Error :=
  if j.isCloudtrail then cloudtrail else rows

/-- The error of opening the decompressor of a JSON input, nil when there is no
decompressor or it opens. -/
def jsonConverter.openError (j : jsonConverter) : Option Error :=
  match j.decomp with
  | some (.error err) => some err
  | _ => none

/-- The `Close` error of the decompressor of a JSON input, nil when there is no
decompressor, it did not open, or it has no `Close` method. -/
def jsonConverter.closeError (j : jsonConverter) : Option Error :=
  match j.decomp with
  | some (.ok (some closeErr)) => closeErr
  | _ => none

/-- A gzip-compressed JSON format whose stream does not start with a gzip header. -/
def badGzip : jsonConverter :=
  ⟨some (.error (.sentinel "gzip" "ErrHeader")), "gz", false⟩

/-- A gzip-compressed JSON format whose stream decompresses and whose checksum fails when
the decompressor is closed. -/
def badChecksumGzip : jsonConverter :=
  ⟨some (.ok (some (some (.external "gzip: invalid checksum")))), "gz", false⟩

/-- The error `runSingle` computes for an input: what `Convert` returns when it is not
nil, and otherwise what `R.Close()` returns. -/
def inputError (x : Input) : Option Error :=
  firstNonNil [x.convert, x.rclose]


/-- The filter `Split` applies (lines 65 to 68): the compiled filter of the handle, or the
result of compiling its predicate when there is none. -/
def effectiveFilter (compileFilter : Node → Option filter) (fh : filterHandle) : Option filter :=
  match fh.compiled, fh.filter with
  | some g, _ => some g
  | none, some e => compileFilter e
  | none, none => none

/-- The split size `Split` uses (lines 61 to 64). -/
def effectiveSize (s : splitter) : Int :=
  if s.SplitSize = 0 then defaultSplitSize else s.SplitSize

/-- Where a blob of the pool returned by `Split` comes from: it is a blob of the handle
that is not a `*blob.Compressed` and was inserted whole, or it is a part cut from a
compressed blob of the handle whose scan size under the filter is not zero (and is
positive when the decompressed size of the blob fits an `int64`). -/
def fromHandle (flt : Option filter) (handleBlobs : List Blob) (b : Blob) : Prop :=
  (b ∈ handleBlobs ∧ ∀ c, b ≠ Blob.compressed c)
    ∨ ∃ pc scan, b = Blob.part pc ∧ Blob.compressed pc.Parent ∈ handleBlobs
      ∧ maxscan pc flt = .ok scan ∧ scan ≠ 0
      ∧ (decompressedSize pc.Parent.Trailer < 2 ^ 63 → 0 < scan)

/-- The filter that answers `never` for every block. -/
def neverFilter : filter :=
  fun _ _ => ternary.never

/-- A splitter with one peer, which is the splitter itself. -/
def soloSplitter : splitter :=
  ⟨0, "w", ["10.0.0.1:9000"], "10.0.0.1:9000", 0, 0⟩


/-- The memo tables, the writes absorbed by the fingerprint hash and the modification time
of the env `g` are those of the env `f`. -/
def sameCaches (g f : fsEnv) : Prop :=
  g.recent = f.recent ∧ g.lists = f.lists ∧ g.hash = f.hash ∧ g.modtime = f.modtime

/-- The filter `Stat` hands to `db.Blobs` (lines 162 to 171). -/
def keepOf (compileFilter : Node → Option filter) (whereE : Option Node) :
    Option (SparseIndex → Int → Bool) :=
  (whereE.bind compileFilter).map (fun m => fun s n => m s n != ternary.never)

/-- A storage layer that holds one index per table, created at instant 5, and fails every
request for the blobs of an index. -/
def blobsFailStorage : Storage where
  openPartialIndex := fun n _ _ _ => .ok ⟨n, 5⟩
  blobs := fun _ _ => .error (.external "blob listing failed")
  listTables := fun _ => .ok []


/-- The filter that answers `always` for every block. -/
def alwaysFilter : filter :=
  fun _ _ => ternary.always

/-- A compressed blob with a single block that holds no chunk. -/
def zeroChunkBlob : Compressed where
  stat := .ok ⟨0, "zero"⟩
  Trailer := ⟨[⟨0, 0⟩], 20, ⟨[(0, 10)]⟩⟩
  split := fun _ => .ok [(0, 1, .ok ⟨0, "zero-0-1"⟩)]


/-! ## Sub-table lookup (`splitter.go`) -/

/-- Modelled from the spec: `plan.Subtable`, one unit of remote work: the transport to the
peer, the table it reads (the binding of the table expression to a name) and the handle of
its blobs. -/
structure Subtable where
  Transport : Transport
  Table : Node × String
  Handle : TableHandle

/-- Lines 266 to 279 of `(*subtables).Subtable`: the sub-table for the split `i` of one
link.  Indexing `s.splits[i]` or `s.blobs[bi]` out of range panics. -/
def subtableOf (splits : List split) (table : Node) (blobs : List Blob) (filter : Option Node)
    (fn : tableHandleFn) (i : Int) : Except Error Subtable :=
  match (if 0 ≤ i then splits.get? i.toNat else none) with
  | none => .error (.runtimePanic "index out of range")
  | some sp =>
    let name := "part." ++ toString i
    match sp.blobs.mapM (fun bi => if 0 ≤ bi then blobs.get? bi.toNat else none) with
    | none => .error (.runtimePanic "index out of range")
    | some picked => .ok ⟨sp.tp, (table, name), fn picked filter⟩

/-- The method `(*subtables).Subtable`, returning the value it stores through `sub`. -/
def subtables.Subtable : subtables → Int → Except Error Sneller.Subtable
  | .mk splits table blobs filter none fn, i => subtableOf splits table blobs filter fn i
  | .mk splits table blobs filter (some n) fn, i =>
    if i ≥ (splits.length : Int) then n.Subtable (i - (splits.length : Int))
    else subtableOf splits table blobs filter fn i

/-- The splits of a chain in the order of the concatenation of the split lists of its
links, each with the link that owns it. -/
def subtables.entries (s : subtables) : List (Link × split) :=
  s.links.flatMap (fun l => l.splits.map (fun sp => (l, sp)))

/-- Every blob index held by a split of the chain is a position of the blob pool of the
link that owns the split. -/
def validIndices (s : subtables) : Prop :=
  ∀ l ∈ s.links, ∀ sp ∈ l.splits, ∀ bi ∈ sp.blobs, 0 ≤ bi ∧ bi < (l.blobs.length : Int)


/-- The blob indices held by `splits` divide the positions `0 .. n-1` of a pool of `n` blobs
among the splits: taken together, the index lists are a rearrangement of `0, 1, .., n-1`
(so every index is a position of the pool and every position occurs once, in one split),
and within a split the indices increase strictly. -/
def dividesPool (splits : List split) (n : Nat) : Prop :=
  (splits.flatMap (fun sp => sp.blobs)).Perm ((List.range n).map (fun k : Nat => (k : Int)))
    ∧ ∀ sp ∈ splits, sp.blobs.Pairwise (fun a b => a < b)
        ∧ ∀ bi ∈ sp.blobs, 0 ≤ bi ∧ bi < (n : Int)

/-- A splitter with two peers, the first of which is the splitter itself. -/
def pairSplitter : splitter :=
  ⟨0, "w", ["10.0.0.1:9000", "10.0.0.2:9000"], "10.0.0.1:9000", 0, 0⟩

/-- A hash for the examples: the ETag `two-1-2` hashes to `2^63` and every other ETag
to 0. -/
def exampleHash : SipHash :=
  fun _ _ etag => if etag = "two-1-2" then 2 ^ 63 else 0

/-- The plan `Split` returns for the blob with two blocks on the splitter with two peers
under the example hash: one part for each peer. -/
def pairPlan : subtables :=
  .mk [⟨.LocalTransport, [0]⟩, ⟨.Remote "w" "tcp" "10.0.0.2:9000", [1]⟩] (Node.other "db.t")
    [Blob.part ⟨twoBlockBlob, 0, 1, .ok ⟨1, "two-0-1"⟩⟩,
      Blob.part ⟨twoBlockBlob, 1, 2, .ok ⟨2, "two-1-2"⟩⟩] none none thfn


/-! ## The program points of the main loop of `runSingle` (`convert.go`) -/

/-- Lines 351 to 356 of `runSingle`: the wait for the prefetch queued on input `i`, which
takes the size of the input off the in-flight counter. -/
def awaitReady (i : Nat) (x : Input) (st : SingleState) : SingleState :=
  if st.ready.getD i false then
    { st with ready := st.ready.set i false, inflight := wrap64 (st.inflight - x.Size) }
  else st

/-- Lines 357 to 361 of `runSingle`: the fast-forward of the prefetch pointer. -/
def fastForward (i : Nat) (st : SingleState) : SingleState :=
  if st.next ≤ i then { st with next := i + 1 } else st

/-- The values of the loop variables at the points the body of the main loop passes for
input `i` before the conversion: on entry, after the wait, after the fast-forward, and
after each round of the readahead loop (the state after `k` rounds, or after the last round
when the loop ends earlier). -/
def bodyPoints (disable : Bool) (i : Nat) (x : Input) (st : SingleState) : List SingleState :=
  [st, awaitReady i x st, fastForward i (awaitReady i x st)]
    ++ (List.range ((fastForward i (awaitReady i x st)).Inputs.length + 1)).map
      (fun k => prefetch disable i k (fastForward i (awaitReady i x st)))

/-- The main loop of `runSingle` from input `i` on, with `n` inputs left, as the list of
the values of the loop variables at its points, each with the index of the input being
converted: the points of the body, and the state after the conversion and the close of
the input (on an error, after the error path). -/
def loopPoints (disable : Bool) : Nat → Nat → SingleState → List (Nat × SingleState)
  | 0, _, _ => []
  | n + 1, i, st =>
    match st.Inputs.get? i with
    | none => []
    | some x =>
      let st3 := awaitAndPrefetch disable i x st
      let err := match x.convert with
        | some e => some e
        | none => x.rclose
      let st4 : SingleState := { st3 with Inputs := st3.Inputs.modify Input.close i }
      (bodyPoints disable i x st).map (fun p => (i, p)) ++
        match err with
        | some e => [(i, { st4 with Inputs := failAt i e st4.Inputs })]
        | none => (i, st4) :: loopPoints disable n (i + 1) st4

/-- The total size of the inputs whose prefetch is queued and not yet awaited: the sum of
`Size` over the inputs `k` for which `ready[k]` holds a channel. -/
def queued : List Bool → List Input → Int
  | true :: r, x :: xs => x.Size + queued r xs
  | false :: r, _ :: xs => queued r xs
  | _, _ => 0

/-- A converter with two inputs, of 10 bytes and of 200 MiB. -/
def bigInputConverter : Converter :=
  ⟨none, [plainInput "a.json" 10, plainInput "b.json" (200 * 1024 * 1024)], "zstd", 1024, 4096,
    8192, 1, false, none⟩

/-- The invariant of the main loop of `runSingle` while input `i` is at hand, for inputs
whose sizes lie between 0 and `M`: `ready` has one entry for each input and holds no
channel from the prefetch pointer on, the in-flight counter is the total size of the
inputs queued and not yet awaited and stays below `wantInflight + M`, and the prefetch
pointer is at most 64 inputs ahead of `i`. -/
def windowInv (M : Int) (i : Nat) (st : SingleState) : Prop :=
  st.ready.length = st.Inputs.length
    ∧ (∀ k, st.next ≤ k → st.ready.getD k false = false)
    ∧ st.inflight = queued st.ready st.Inputs
    ∧ (st.next : Int) - (i : Int) ≤ 64
    ∧ st.inflight < wantInflight + M
    ∧ ∀ x ∈ st.Inputs, 0 ≤ x.Size ∧ x.Size ≤ M


/-- The handle holds nothing for `Split` to place: every blob of `bs` is a
`*blob.Compressed` whose `Stat` and `Split` succeed and all of whose parts have the scan
size 0 under the filter, so that the closure `insert` is never called.  An empty blob list
holds nothing to place. -/
def nothingToPlace (size : Int) (flt : Option filter) (bs : List Blob) : Prop :=
  ∀ b ∈ bs, ∃ c stat sub, b = Blob.compressed c ∧ c.stat = .ok stat ∧ c.split size = .ok sub
    ∧ ∀ p ∈ sub, maxscan ⟨c, p.1, p.2.1, p.2.2⟩ flt = .ok 0

/-- A splitter with no peers. -/
def noPeerSplitter : splitter :=
  ⟨0, "w", [], "", 0, 0⟩

/-- A handle without a filter that holds one blob known through `Stat()` only. -/
def oneBlobHandle : filterHandle :=
  ⟨none, none, [Blob.generic (.ok ⟨10, "abc123"⟩)]⟩

/-- Codecs that write the expression `NULL` as an ion null and read an ion null back as
the expression `NULL`; every other value is written and read as by `exampleCodec`. -/
def nullCodec : Codec :=
  { exampleCodec with
    encodeExpr := fun e =>
      match e with
      | .other "NULL" => .null
      | _ => .string e.text
    decodeExpr := fun d =>
      match d with
      | .null => .ok (.other "NULL")
      | .string t => .ok (.other t)
      | _ => .error (.external "bad expression") }

/-- A chain of one link whose filter is the expression `NULL`. -/
def nullFilterChain : subtables :=
  .mk [⟨.LocalTransport, [0]⟩] (.other "db.t") [.generic (.ok ⟨1, "a"⟩)] (some (.other "NULL"))
    none thfn


/-! ## Theorems -/

/-! ### The empty peer list -/

theorem Split_eq (H : SipHash) (compileFilter : Node → Option filter) (s : splitter)
    (table : Node) (fh : filterHandle) :
    s.Split H compileFilter table (.filterHandle fh) =
      match initSplits s with
      | .error err => (.error err, s)
      | .ok splits =>
        match splitBlobs H (effectiveSize s) (effectiveFilter compileFilter fh) fh.blobs
            ⟨s, splits, []⟩ with
        | (some err, st) => (.error err, st.s)
        | (none, st) =>
          (.ok (subtables.mk (compact st.splits) table st.blobs none none thfn), st.s) := by
  rfl

theorem initSplits_nil (s : splitter) (h : s.peers = []) : initSplits s = .ok [] := by
  simp [initSplits, h]
  rfl

theorem insert_no_peers (H : SipHash) (st : SplitState) (b : Blob) (h : st.s.peers = []) :
    ∃ err, insert H st b = (some err, st) := by
  unfold insert splitter.partition
  cases hb : b.Stat with
  | error e => exact ⟨e, by simp⟩
  | ok info => exact ⟨.runtimePanic "integer divide by zero", by simp [h, wrapU64]⟩

theorem splitParts_no_peers (H : SipHash) (flt : Option filter) (c : Compressed)
    (sub : List (Nat × Nat × Except Error Info)) (st st2 : SplitState)
    (h : st.s.peers = []) (hok : splitParts H flt c sub st = (none, st2)) :
    st2 = st := by
  induction sub generalizing st with
  | nil => simp [splitParts] at hok; exact hok.symm
  | cons p rest ih =>
    obtain ⟨start, stop, pstat⟩ := p
    simp only [splitParts] at hok
    split at hok
    · cases hok
    · split at hok
      · exact ih st h hok
      · rename_i scan hs hne
        obtain ⟨err, he⟩ := insert_no_peers H
          { st with s := { st.s with maxscan := wrap64 (st.s.maxscan + scan) } }
          (Blob.part ⟨c, start, stop, pstat⟩) h
        rw [he] at hok
        simp at hok

theorem splitBlobs_no_peers (H : SipHash) (size : Int) (flt : Option filter)
    (bs : List Blob) (st st2 : SplitState)
    (h : st.s.peers = []) (hok : splitBlobs H size flt bs st = (none, st2)) :
    st2.splits = st.splits ∧ st2.blobs = st.blobs := by
  induction bs generalizing st with
  | nil => simp [splitBlobs] at hok; subst hok; exact ⟨rfl, rfl⟩
  | cons b rest ih =>
    simp only [splitBlobs] at hok
    split at hok
    · cases hok
    · split at hok
      · split at hok
        · cases hok
        · rename_i sub hsub
          split at hok
          · cases hok
          · rename_i st3 hp
            have h3 := splitParts_no_peers H flt _ sub _ st3 (by exact h) hp
            subst h3
            have h4 := ih _ (by exact h) hok
            exact h4
      · obtain ⟨err, he⟩ := insert_no_peers H st b h
        rw [he] at hok
        simp at hok

theorem splitParts_no_peers_iff (H : SipHash) (flt : Option filter) (c : Compressed) :
    ∀ (sub : List (Nat × Nat × Except Error Info)) (st : SplitState), st.s.peers = [] →
      ((splitParts H flt c sub st).1 = none
        ↔ ∀ p ∈ sub, maxscan ⟨c, p.1, p.2.1, p.2.2⟩ flt = .ok 0)
  | [], st, _ => by
    simp only [splitParts, List.not_mem_nil, false_implies, implies_true]
  | (start, stop, pstat) :: rest, st, hP => by
    unfold splitParts
    simp only [List.mem_cons, forall_eq_or_imp]
    cases hm : maxscan ⟨c, start, stop, pstat⟩ flt with
    | error e =>
      simp only [reduceCtorEq, false_and]
    | ok scan =>
      simp only [Except.ok.injEq]
      by_cases h0 : scan = 0
      · simp only [h0, if_true, true_and]
        exact splitParts_no_peers_iff H flt c rest st hP
      · simp only [h0, if_false, false_and, iff_false]
        obtain ⟨err, he⟩ := insert_no_peers H
          { st with s := { st.s with maxscan := wrap64 (st.s.maxscan + scan) } }
          (Blob.part ⟨c, start, stop, pstat⟩) hP
        rw [he]
        simp only [reduceCtorEq, not_false_eq_true]

theorem splitBlobs_no_peers_iff (H : SipHash) (size : Int) (flt : Option filter) :
    ∀ (bs : List Blob) (st : SplitState), st.s.peers = [] →
      ((splitBlobs H size flt bs st).1 = none ↔ nothingToPlace size flt bs)
  | [], st, _ => by
    simp only [splitBlobs, nothingToPlace, List.not_mem_nil, false_implies, implies_true]
  | b :: rest, st, hP => by
    have hcons : nothingToPlace size flt (b :: rest)
        ↔ (∃ c stat sub, b = Blob.compressed c ∧ c.stat = .ok stat ∧ c.split size = .ok sub
            ∧ ∀ p ∈ sub, maxscan ⟨c, p.1, p.2.1, p.2.2⟩ flt = .ok 0)
          ∧ nothingToPlace size flt rest := by
      simp only [nothingToPlace, List.mem_cons, forall_eq_or_imp]
    rw [hcons]
    cases b with
    | compressed c =>
      unfold splitBlobs
      simp only [Blob.Stat]
      cases hs : c.stat with
      | error e =>
        simp only [reduceCtorEq, false_iff, not_and]
        rintro ⟨c2, stat, sub, hb, hst, _⟩
        cases hb
        rw [hs] at hst
        cases hst
      | ok stat =>
        simp only
        cases hsp : c.split size with
        | error e =>
          simp only [reduceCtorEq, false_iff, not_and]
          rintro ⟨c2, stat2, sub, hb, _, hsp2, _⟩
          cases hb
          rw [hsp] at hsp2
          cases hsp2
        | ok sub =>
          simp only
          have hparts := splitParts_no_peers_iff H flt c sub
            { st with s := { st.s with total := wrap64 (st.s.total + c.Trailer.Decompressed) } } hP
          rcases hr : splitParts H flt c sub
            { st with s := { st.s with total := wrap64 (st.s.total + c.Trailer.Decompressed) } }
            with ⟨r, st2⟩
          rw [hr] at hparts
          cases r with
          | some err =>
            simp only [reduceCtorEq, false_iff, not_and]
            rintro ⟨c2, stat2, sub2, hb, _, hsp2, hall⟩
            cases hb
            rw [hsp] at hsp2
            cases hsp2
            have := hparts.mpr hall
            cases this
          | none =>
            simp only
            have hst2 := splitParts_no_peers H flt c sub _ st2 (by exact hP) hr
            subst hst2
            have hrec := splitBlobs_no_peers_iff H size flt rest
              { st with s := { st.s with
                total := wrap64 (st.s.total + c.Trailer.Decompressed) } } hP
            rw [hrec]
            constructor
            · intro hrest
              exact ⟨⟨c, stat, sub, rfl, hs, hsp, hparts.mp rfl⟩, hrest⟩
            · intro h
              exact h.2
    | generic gst =>
      unfold splitBlobs
      cases hs : (Blob.generic gst).Stat with
      | error e =>
        simp only [reduceCtorEq, false_iff, not_and]
        rintro ⟨c2, stat, sub, hb, _⟩
        cases hb
      | ok stat =>
        simp only
        obtain ⟨err, he⟩ := insert_no_peers H st (Blob.generic gst) hP
        rw [he]
        simp only [reduceCtorEq, false_iff, not_and]
        rintro ⟨c2, stat, sub, hb, _⟩
        cases hb
    | part pc =>
      unfold splitBlobs
      cases hs : (Blob.part pc).Stat with
      | error e =>
        simp only [reduceCtorEq, false_iff, not_and]
        rintro ⟨c2, stat, sub, hb, _⟩
        cases hb
      | ok stat =>
        simp only
        obtain ⟨err, he⟩ := insert_no_peers H st (Blob.part pc) hP
        rw [he]
        simp only [reduceCtorEq, false_iff, not_and]
        rintro ⟨c2, stat, sub, hb, _⟩
        cases hb

theorem Split_ok_iff (H : SipHash) (compileFilter : Node → Option filter) (s : splitter)
    (table : Node) (fh : filterHandle) (hP : s.peers = []) :
    ((∃ st, (s.Split H compileFilter table (.filterHandle fh)).1 = .ok st)
      ↔ nothingToPlace (effectiveSize s) (effectiveFilter compileFilter fh) fh.blobs) := by
  rw [← splitBlobs_no_peers_iff H (effectiveSize s) (effectiveFilter compileFilter fh) fh.blobs
    ⟨s, [], []⟩ hP, Split_eq, initSplits_nil s hP]
  simp only
  rcases splitBlobs H (effectiveSize s) (effectiveFilter compileFilter fh) fh.blobs ⟨s, [], []⟩
    with ⟨r, st2⟩
  cases r with
  | some err => simp only [reduceCtorEq, exists_false]
  | none => simp only [Except.ok.injEq, exists_eq']

/-- C9 (as amended): with an empty peer list `Split` fails exactly when the handle holds
something to place.  It succeeds if and only if every blob of the handle is a
`*blob.Compressed` whose `Stat` and `Split` succeed and all of whose parts have the scan
size 0 under the filter, which is so for an empty blob list, and the subtables it then
returns have no splits and an empty pool.  On every other handle it returns an error and
no subtables: so on every handle that holds a blob that is not a `*blob.Compressed`, and
when the first blob is such a blob and its `Stat` succeeds, the error is the panic of the
division by the number of peers. -/
theorem Split_no_peers (H : SipHash) (compileFilter : Node → Option filter) (s : splitter)
    (table : Node) (fh : filterHandle) (hP : s.peers = []) :
    (fh.blobs = [] →
      ∃ st, (s.Split H compileFilter table (.filterHandle fh)).1 = .ok st
        ∧ st.splits = [] ∧ st.blobs = [] ∧ st.Len = 0) ∧
    (∀ st, (s.Split H compileFilter table (.filterHandle fh)).1 = .ok st →
      st.splits = [] ∧ st.blobs = [] ∧ st.Len = 0) ∧
    ((∃ st, (s.Split H compileFilter table (.filterHandle fh)).1 = .ok st)
      ↔ nothingToPlace (effectiveSize s) (effectiveFilter compileFilter fh) fh.blobs) ∧
    (¬ nothingToPlace (effectiveSize s) (effectiveFilter compileFilter fh) fh.blobs →
      ∃ err, (s.Split H compileFilter table (.filterHandle fh)).1 = .error err) ∧
    (∀ b ∈ fh.blobs, (∀ c, b ≠ Blob.compressed c) →
      ∃ err, (s.Split H compileFilter table (.filterHandle fh)).1 = .error err) ∧
    (∀ b rest info, fh.blobs = b :: rest → (∀ c, b ≠ Blob.compressed c) → b.Stat = .ok info →
      (s.Split H compileFilter table (.filterHandle fh)).1
        = .error (.runtimePanic "integer divide by zero")) := by
  have hiff := Split_ok_iff H compileFilter s table fh hP
  have hfail : ¬ nothingToPlace (effectiveSize s) (effectiveFilter compileFilter fh) fh.blobs →
      ∃ err, (s.Split H compileFilter table (.filterHandle fh)).1 = .error err := by
    intro hn
    cases hres : (s.Split H compileFilter table (.filterHandle fh)).1 with
    | error err => exact ⟨err, rfl⟩
    | ok st => exact absurd (hiff.mp ⟨st, hres⟩) hn
  refine ⟨?_, ?_, hiff, hfail, ?_, ?_⟩
  · intro hb
    refine ⟨subtables.mk [] table [] none none thfn, ?_, rfl, rfl, rfl⟩
    simp [splitter.Split, initSplits_nil s hP, hb, splitBlobs, compact]
  · intro st hst
    simp only [splitter.Split, initSplits_nil s hP] at hst
    split at hst
    · cases hst
    · rename_i st2 hsb
      have h2 := splitBlobs_no_peers H _ _ fh.blobs ⟨s, [], []⟩ st2 hP hsb
      simp only at h2
      cases hst
      simp [subtables.splits, subtables.blobs, subtables.Len, h2.1, h2.2, compact]
  · intro b hb hnc
    apply hfail
    intro hnothing
    obtain ⟨c, _, _, hbc, _⟩ := hnothing b hb
    exact hnc c hbc
  · intro b rest info hbs hnc hstat
    rw [Split_eq, initSplits_nil s hP, hbs]
    simp only
    have hins : insert H ⟨s, [], []⟩ b
        = (some (.runtimePanic "integer divide by zero"), ⟨s, [], []⟩) := by
      unfold insert splitter.partition
      simp [hstat, hP, wrapU64]
    cases b with
    | compressed c => exact absurd rfl (hnc c)
    | generic gst =>
      unfold splitBlobs
      rw [hstat]
      simp only
      rw [hins]
    | part pc =>
      unfold splitBlobs
      rw [hstat]
      simp only
      rw [hins]

/-- C9 (the claim fails): a splitter with no peers, given a filter-carrying handle whose
blob list is empty, returns subtables and no error. -/
theorem Split_no_peers_empty_handle_succeeds :
    ((⟨0, "w", [], "", 0, 0⟩ : splitter).Split (fun _ _ _ => 0) (fun _ => none)
        (Node.path "t" PathComponent.absent) (.filterHandle ⟨none, none, []⟩)).1
      = .ok (subtables.mk [] (Node.path "t" PathComponent.absent) [] none none thfn) := by
  rfl

theorem Split_no_peers_witness :
    noPeerSplitter.peers = [] ∧
    ((oneBlobHandle.blobs = [] →
      ∃ st, (noPeerSplitter.Split (fun _ _ _ => 0) (fun _ => none) (Node.other "t")
          (.filterHandle oneBlobHandle)).1 = .ok st
        ∧ st.splits = [] ∧ st.blobs = [] ∧ st.Len = 0) ∧
    (∀ st, (noPeerSplitter.Split (fun _ _ _ => 0) (fun _ => none) (Node.other "t")
          (.filterHandle oneBlobHandle)).1 = .ok st →
      st.splits = [] ∧ st.blobs = [] ∧ st.Len = 0) ∧
    ((∃ st, (noPeerSplitter.Split (fun _ _ _ => 0) (fun _ => none) (Node.other "t")
          (.filterHandle oneBlobHandle)).1 = .ok st)
      ↔ nothingToPlace (effectiveSize noPeerSplitter)
          (effectiveFilter (fun _ => none) oneBlobHandle) oneBlobHandle.blobs) ∧
    (¬ nothingToPlace (effectiveSize noPeerSplitter)
          (effectiveFilter (fun _ => none) oneBlobHandle) oneBlobHandle.blobs →
      ∃ err, (noPeerSplitter.Split (fun _ _ _ => 0) (fun _ => none) (Node.other "t")
          (.filterHandle oneBlobHandle)).1 = .error err) ∧
    (∀ b ∈ oneBlobHandle.blobs, (∀ c, b ≠ Blob.compressed c) →
      ∃ err, (noPeerSplitter.Split (fun _ _ _ => 0) (fun _ => none) (Node.other "t")
          (.filterHandle oneBlobHandle)).1 = .error err) ∧
    (∀ b rest info, oneBlobHandle.blobs = b :: rest → (∀ c, b ≠ Blob.compressed c) →
      b.Stat = .ok info →
      (noPeerSplitter.Split (fun _ _ _ => 0) (fun _ => none) (Node.other "t")
          (.filterHandle oneBlobHandle)).1
        = .error (.runtimePanic "integer divide by zero"))) :=
  ⟨rfl, Split_no_peers (fun _ _ _ => 0) (fun _ => none) noPeerSplitter (Node.other "t")
    oneBlobHandle rfl⟩

/-- With no peers, `Split` of a handle that holds one blob known through `Stat()` only
panics in the division by the number of peers. -/
theorem Split_no_peers_one_blob_panics :
    (noPeerSplitter.Split (fun _ _ _ => 0) (fun _ => none) (Node.other "t")
        (.filterHandle oneBlobHandle)).1
      = .error (.runtimePanic "integer divide by zero") := by
  rfl

/-! ### Peer assignment -/

/-- C1 (the code breaks the claim): with one peer and a blob whose ETag hashes to
`2^64 - 1`, `partition` returns index 1, which is not below the number of peers, and
`Split` panics when it indexes `splits` with it. -/
theorem partition_index_reaches_peer_count :
    ((⟨0, "w", ["10.0.0.1:9000"], "", 0, 0⟩ : splitter).partition (fun _ _ _ => 2 ^ 64 - 1)
        (Blob.generic (.ok ⟨10, "abc123"⟩))).1 = .ok 1
    ∧ (⟨0, "w", ["10.0.0.1:9000"], "", 0, 0⟩ : splitter).peers.length = 1
    ∧ ((⟨0, "w", ["10.0.0.1:9000"], "", 0, 0⟩ : splitter).Split (fun _ _ _ => 2 ^ 64 - 1)
        (fun _ => none) (Node.path "t" PathComponent.absent)
        (.filterHandle ⟨none, none, [Blob.generic (.ok ⟨10, "abc123"⟩)]⟩)).1
      = .error (.runtimePanic "index out of range") := by
  refine ⟨?_, rfl, ?_⟩
  · simp [splitter.partition, Blob.Stat, wrapU64, wrap64]
  · simp [splitter.Split, initSplits, splitter.transport, splitBlobs, insert,
      splitter.partition, Blob.Stat, wrapU64, wrap64]
    rfl

/-- The index `partition` returns is below the number of peers whenever the hash is below
`P * ((2^64 - 1) / P)`, the part of the hash range that the `P` buckets cover. -/
theorem partition_lt_of_hash_covered (H : SipHash) (s : splitter) (b : Blob) (info : Info)
    (hstat : b.Stat = .ok info) (hP : 0 < s.peers.length) (hP2 : s.peers.length < 2 ^ 63)
    (hcov : wrapU64 (H key0 key1 info.ETag)
      < s.peers.length * ((2 ^ 64 - 1) / s.peers.length)) :
    ∃ i : Nat, (s.partition H b).1 = .ok (i : Int) ∧ i < s.peers.length := by
  have hmod : wrapU64 s.peers.length = s.peers.length := by
    unfold wrapU64
    exact Nat.mod_eq_of_lt (by omega)
  have hd : 0 < (2 ^ 64 - 1) / s.peers.length := by
    apply Nat.div_pos <;> omega
  have hlt : wrapU64 (H key0 key1 info.ETag) / ((2 ^ 64 - 1) / s.peers.length)
      < s.peers.length := by
    rw [Nat.div_lt_iff_lt_mul hd]
    exact hcov
  refine ⟨wrapU64 (H key0 key1 info.ETag) / ((2 ^ 64 - 1) / s.peers.length), ?_, hlt⟩
  have hne : s.peers.length ≠ 0 := by omega
  simp only [splitter.partition, hstat, hmod, hne, if_false]
  apply congrArg Except.ok
  generalize wrapU64 (H key0 key1 info.ETag) / ((2 ^ 64 - 1) / s.peers.length) = q at hlt
  have hq : (q : Int) < 2 ^ 63 := by
    have : q < 2 ^ 63 := by omega
    exact_mod_cast this
  have hq0 : (0 : Int) ≤ q := Int.natCast_nonneg q
  unfold wrap64
  rw [Int.emod_eq_of_lt (by linarith) (by linarith)]
  ring

/-- C8: `partition` depends on the blob through its ETag only and on the splitter through
the length of its peer list only, and it leaves the splitter as it was. -/
theorem partition_pure (H : SipHash) (s1 s2 : splitter) (b1 b2 : Blob) (i1 i2 : Info)
    (hlen : s1.peers.length = s2.peers.length)
    (h1 : b1.Stat = .ok i1) (h2 : b2.Stat = .ok i2) (htag : i1.ETag = i2.ETag) :
    (s1.partition H b1).1 = (s2.partition H b2).1
      ∧ (s1.partition H b1).2 = s1 ∧ (s2.partition H b2).2 = s2 := by
  refine ⟨?_, ?_, ?_⟩
  · simp only [splitter.partition, h1, h2, htag, hlen]
    split <;> rfl
  · simp only [splitter.partition, h1]
    split <;> rfl
  · simp only [splitter.partition, h2]
    split <;> rfl

theorem partition_pure_witness :
    (⟨0, "w1", ["a:1", "b:1", "c:1"], "a:1", 0, 0⟩ : splitter).peers.length
        = (⟨5, "w2", ["x:1", "y:1", "z:1"], "z:1", 7, 9⟩ : splitter).peers.length
    ∧ (Blob.generic (.ok ⟨10, "abc123"⟩)).Stat = .ok ⟨10, "abc123"⟩
    ∧ (Blob.generic (.ok ⟨99, "abc123"⟩)).Stat = .ok ⟨99, "abc123"⟩
    ∧ (⟨10, "abc123"⟩ : Info).ETag = (⟨99, "abc123"⟩ : Info).ETag
    ∧ (((⟨0, "w1", ["a:1", "b:1", "c:1"], "a:1", 0, 0⟩ : splitter).partition
          (fun k0 k1 tag => k0 * k1 * tag.length) (Blob.generic (.ok ⟨10, "abc123"⟩))).1
        = ((⟨5, "w2", ["x:1", "y:1", "z:1"], "z:1", 7, 9⟩ : splitter).partition
          (fun k0 k1 tag => k0 * k1 * tag.length) (Blob.generic (.ok ⟨99, "abc123"⟩))).1
      ∧ ((⟨0, "w1", ["a:1", "b:1", "c:1"], "a:1", 0, 0⟩ : splitter).partition
          (fun k0 k1 tag => k0 * k1 * tag.length) (Blob.generic (.ok ⟨10, "abc123"⟩))).2
        = ⟨0, "w1", ["a:1", "b:1", "c:1"], "a:1", 0, 0⟩
      ∧ ((⟨5, "w2", ["x:1", "y:1", "z:1"], "z:1", 7, 9⟩ : splitter).partition
          (fun k0 k1 tag => k0 * k1 * tag.length) (Blob.generic (.ok ⟨99, "abc123"⟩))).2
        = ⟨5, "w2", ["x:1", "y:1", "z:1"], "z:1", 7, 9⟩) :=
  ⟨rfl, rfl, rfl, rfl,
    partition_pure (fun k0 k1 tag => k0 * k1 * tag.length)
      ⟨0, "w1", ["a:1", "b:1", "c:1"], "a:1", 0, 0⟩ ⟨5, "w2", ["x:1", "y:1", "z:1"], "z:1", 7, 9⟩
      (Blob.generic (.ok ⟨10, "abc123"⟩)) (Blob.generic (.ok ⟨99, "abc123"⟩))
      ⟨10, "abc123"⟩ ⟨99, "abc123"⟩ rfl rfl rfl rfl⟩

/-! ### The converter -/

/-- C2 (the code breaks the claim): when the compression is unavailable, and also when
the prepend copy fails, `Run` returns an error and the single input has not been closed. -/
theorem Run_early_return_leaves_input_open :
    (((oneInputConverter "bogus").Run { quietWorld with compression := fun _ => false }).1
        = some (.fmtError "compression \x22bogus\x22 unavailable")
      ∧ (((oneInputConverter "bogus").Run
          { quietWorld with compression := fun _ => false }).2.Inputs.map Input.closed) = [0])
    ∧ ((({ oneInputConverter "zstd" with
            Prepend := some ⟨some (.external "short read"), 0⟩ } : Converter).Run quietWorld).1
        = some (.external "short read")
      ∧ ((({ oneInputConverter "zstd" with
            Prepend := some ⟨some (.external "short read"), 0⟩ } : Converter).Run
          quietWorld).2.Inputs.map Input.closed) = [0]) := by
  decide

/-- C3 (the code breaks the claim): in single-stream mode, when the only failure is the
final `Close` of the writer, `Run` returns that error and `Trailer()` is not nil. -/
theorem Run_failed_close_sets_trailer :
    ((oneInputConverter "zstd").Run { quietWorld with wclose := some (.external "upload failed") }).1
        = some (.external "upload failed")
      ∧ ((oneInputConverter "zstd").Run
          { quietWorld with wclose := some (.external "upload failed") }).2.Trailer
        = some quietWorld.wtrailer
      ∧ (oneInputConverter "zstd").Trailer = none := by
  decide

/-! ### Reference resolution -/

theorem resolve_error_isSyntax (f : fsEnv) (e : Node) (err : Error)
    (h : f.resolve e = .error err) : err.isSyntax = true := by
  unfold fsEnv.resolve at h
  split at h
  · cases h; rfl
  · split at h
    · unfold tsplit at h
      split at h
      · split at h
        · cases h; rfl
        · cases h
      · cases h; rfl
    · split at h
      · cases h; rfl
      · cases h

theorem resolve_toOption (f : fsEnv) (e : Node) :
    (f.resolve e).toOption = resolveSpec f.db e := by
  unfold resolveSpec fsEnv.resolve
  by_cases hdb : f.db = ""
  · cases e with
    | other t => simp [hdb, Except.toOption]
    | path a r =>
      cases r with
      | absent => simp [hdb, tsplit, Except.toOption]
      | index i r => simp [hdb, tsplit, Except.toOption]
      | dot b r =>
        cases r with
        | absent => simp [hdb, tsplit, Except.toOption]
        | dot b2 r2 => simp [hdb, tsplit, Except.toOption]
        | index i2 r2 => simp [hdb, tsplit, Except.toOption]
  · cases e with
    | other t => simp [hdb, Except.toOption]
    | path a r =>
      cases r with
      | absent => simp [hdb, Except.toOption]
      | dot b r2 => simp [hdb, Except.toOption]
      | index i r2 => simp [hdb, Except.toOption]

/-- C6: `index` resolves a table expression as specified.  When the specification gives
the referent `(d, t)`, `resolve` returns it and `index` continues with the memo lookup and
load for `(d, t)`; in every other case `index` returns a syntax error and the env,
including the record of storage requests, is as before. -/
theorem index_resolves_as_specified (f : fsEnv) (e : Node) :
    match resolveSpec f.db e with
    | some (d, t) => f.resolve e = .ok (d, t) ∧ f.index e = f.load d t
    | none => ∃ err, err.isSyntax = true ∧ f.resolve e = .error err
        ∧ f.index e = (.error err, f) := by
  have hspec := resolve_toOption f e
  cases hr : f.resolve e with
  | error err =>
    rw [hr] at hspec
    simp only [Except.toOption] at hspec
    rw [← hspec]
    exact ⟨err, resolve_error_isSyntax f e err hr, rfl, by simp [fsEnv.index, hr]⟩
  | ok p =>
    rw [hr] at hspec
    simp only [Except.toOption] at hspec
    rw [← hspec]
    obtain ⟨d, t⟩ := p
    exact ⟨rfl, by simp [fsEnv.index, hr]⟩

/-! ### Index loads -/

theorem load_preserves (f : fsEnv) (d t : String)
    (h1 : loadsOnce f.opens) (h2 : remembered f) :
    loadsOnce (f.load d t).2.opens ∧ remembered (f.load d t).2 := by
  unfold fsEnv.load
  cases hfind : f.recent.find? (fun r => r.db = d ∧ r.table = t) with
  | some r => exact ⟨h1, h2⟩
  | none =>
    have hnone : ∀ r ∈ f.recent, ¬(r.db = d ∧ r.table = t) := by
      intro r hr
      have := List.find?_eq_none.mp hfind r hr
      simpa using this
    have hnew : ∀ (ok : Bool), loadsOnce (f.opens ++ [⟨d, t, ok⟩]) := by
      intro ok
      unfold loadsOnce
      rw [List.pairwise_append]
      refine ⟨h1, List.pairwise_singleton _ _, ?_⟩
      intro a ha b hb hok
      simp only [List.mem_singleton] at hb
      subst hb
      obtain ⟨r, hr, hrd, hrt⟩ := h2 a ha hok
      intro hab
      exact hnone r hr ⟨hrd.trans hab.1.symm, hrt.trans hab.2.symm⟩
    cases hopen : f.root.openPartialIndex f.opens.length d t f.tenantKey with
    | error err =>
      refine ⟨hnew false, ?_⟩
      intro c hc hok
      simp only [List.mem_append, List.mem_singleton] at hc
      rcases hc with hc | hc
      · exact h2 c hc hok
      · subst hc; simp at hok
    | ok index =>
      refine ⟨hnew true, ?_⟩
      intro c hc hok
      simp only [List.mem_append, List.mem_singleton] at hc
      rcases hc with hc | hc
      · obtain ⟨r, hr, hrd⟩ := h2 c hc hok
        exact ⟨r, List.mem_append_left _ hr, hrd⟩
      · subst hc
        exact ⟨⟨d, t, index⟩, by simp, rfl, rfl⟩

theorem index_preserves (f : fsEnv) (e : Node)
    (h1 : loadsOnce f.opens) (h2 : remembered f) :
    loadsOnce (f.index e).2.opens ∧ remembered (f.index e).2 := by
  unfold fsEnv.index
  split
  · exact ⟨h1, h2⟩
  · exact load_preserves f _ _ h1 h2

theorem Stat_env (compileFilter : Node → Option filter) (f : fsEnv) (e : Node)
    (whereE : Option Node) : (f.Stat compileFilter e whereE).2 = (f.index e).2 := by
  unfold fsEnv.Stat
  split
  · rename_i h; rw [h]
  · rename_i h
    rw [h]
    simp only
    split <;> rfl

theorem call_preserves (compileFilter : Node → Option filter) (f : fsEnv) (c : EnvCall)
    (h1 : loadsOnce f.opens) (h2 : remembered f) :
    loadsOnce (f.call compileFilter c).opens ∧ remembered (f.call compileFilter c) := by
  cases c with
  | Index e => exact index_preserves f e h1 h2
  | Stat e whereE =>
    simp only [fsEnv.call, Stat_env]
    exact index_preserves f e h1 h2

theorem calls_preserve (compileFilter : Node → Option filter) (cs : List EnvCall) (f : fsEnv)
    (h1 : loadsOnce f.opens) (h2 : remembered f) :
    loadsOnce (f.calls compileFilter cs).opens ∧ remembered (f.calls compileFilter cs) := by
  induction cs generalizing f with
  | nil => exact ⟨h1, h2⟩
  | cons c cs ih =>
    have h := call_preserves compileFilter f c h1 h2
    exact ih (f.call compileFilter c) h.1 h.2

theorem openOkCount_le_one (log : List OpenCall) (h : loadsOnce log) (d t : String) :
    openOkCount log d t ≤ 1 := by
  induction log with
  | nil => simp [openOkCount]
  | cons a rest ih =>
    unfold loadsOnce at h
    rw [List.pairwise_cons] at h
    have ih2 := ih h.2
    unfold openOkCount at ih2 ⊢
    by_cases ha : a.db = d ∧ a.table = t ∧ a.ok = true
    · have hrest : rest.filter (fun c => decide (c.db = d ∧ c.table = t ∧ c.ok = true)) = [] := by
        rw [List.filter_eq_nil_iff]
        intro b hb
        have := h.1 b hb ha.2.2
        simp only [decide_eq_true_eq]
        intro hb2
        exact this ⟨hb2.1.trans ha.1.symm, hb2.2.1.trans ha.2.1.symm⟩
      rw [List.filter_cons, if_pos (by simpa using ha), hrest]
      simp
    · simp only [List.filter_cons, ha, decide_False]
      simpa using ih2

/-- C4 (as amended): over any sequence of `Index` and `Stat` calls on an env built by
`environ`, the storage layer is asked successfully for the index of a database and table
at most once, and after a successful request it is never asked for that table again. -/
theorem index_loaded_at_most_once (compileFilter : Node → Option filter)
    (tRoot : Except Error Root) (tKey dbname : String) (f : fsEnv) (cs : List EnvCall)
    (henv : environ tRoot tKey dbname = .ok f) :
    loadsOnce (f.calls compileFilter cs).opens
      ∧ ∀ d t, openOkCount (f.calls compileFilter cs).opens d t ≤ 1 := by
  have hf : f.opens = [] ∧ f.recent = [] := by
    unfold environ at henv
    split at henv
    · cases henv
    · cases henv
    · cases henv; exact ⟨rfl, rfl⟩
  have h1 : loadsOnce f.opens := by rw [hf.1]; exact List.Pairwise.nil
  have h2 : remembered f := by
    intro c hc
    rw [hf.1] at hc
    cases hc
  have h := calls_preserve compileFilter cs f h1 h2
  exact ⟨h.1, fun d t => openOkCount_le_one _ h.1 d t⟩

/-- C4 (the claim fails): when the load fails, two `Index` calls for `db.t` on one env
ask the storage layer for the index of `db.t` twice. -/
theorem failed_load_is_repeated :
    openCount ((freshEnv failingStorage).calls (fun _ => none)
      [EnvCall.Index dbDotT, EnvCall.Index dbDotT]).opens "db" "t" = 2 := by
  decide

theorem index_loaded_at_most_once_witness :
    environ (.ok (.fs steadyStorage)) "key" "" = .ok (freshEnv steadyStorage)
    ∧ (loadsOnce ((freshEnv steadyStorage).calls (fun _ => none)
          [EnvCall.Index dbDotT, EnvCall.Stat dbDotT none]).opens
      ∧ ∀ d t, openOkCount ((freshEnv steadyStorage).calls (fun _ => none)
          [EnvCall.Index dbDotT, EnvCall.Stat dbDotT none]).opens d t ≤ 1) :=
  ⟨rfl, index_loaded_at_most_once (fun _ => none) (.ok (.fs steadyStorage)) "key" ""
    (freshEnv steadyStorage) [EnvCall.Index dbDotT, EnvCall.Stat dbDotT none] rfl⟩

/-! ### Scan sizes -/

theorem wrap64_of_fits (x : Int) (h0 : 0 ≤ x) (h1 : x < 2 ^ 63) : wrap64 x = x := by
  unfold wrap64
  rw [Int.emod_eq_of_lt (by linarith) (by linarith)]
  ring

theorem rangeSum_self (g : Nat → Nat) (a : Nat) : rangeSum g a a = 0 := by
  simp [rangeSum]

theorem rangeSum_succ (g : Nat → Nat) (a b : Nat) (h : a ≤ b) :
    rangeSum g a (b + 1) = rangeSum g a b + g b := by
  unfold rangeSum
  have h1 : b + 1 - a = (b - a) + 1 := by omega
  rw [h1, List.range_succ, List.map_append, List.sum_append]
  simp only [List.map_cons, List.map_nil, List.sum_cons, List.sum_nil, add_zero]
  have h2 : a + (b - a) = b := by omega
  rw [h2]

theorem rangeSum_add (g : Nat → Nat) (a b c : Nat) (hab : a ≤ b) (hbc : b ≤ c) :
    rangeSum g a b + rangeSum g b c = rangeSum g a c := by
  induction c, hbc using Nat.le_induction with
  | base => simp [rangeSum_self]
  | succ c hbc ih =>
    rw [rangeSum_succ g b c hbc, rangeSum_succ g a c (le_trans hab hbc), ← add_assoc, ih]

theorem rangeSum_mono (g g2 : Nat → Nat) (hg : ∀ i, g i ≤ g2 i) (a b : Nat) :
    rangeSum g a b ≤ rangeSum g2 a b := by
  unfold rangeSum
  apply List.sum_le_sum
  intro k _
  exact hg (a + k)

theorem rangeSum_le_total (g : Nat → Nat) (a b n : Nat) (hab : a ≤ b) (hbn : b ≤ n) :
    rangeSum g a b ≤ rangeSum g 0 n := by
  have h1 := rangeSum_add g 0 a b (Nat.zero_le a) hab
  have h2 := rangeSum_add g 0 b n (Nat.zero_le b) hbn
  omega

theorem keptBytes_le (t : Trailer) (f : Option filter) (i : Nat) :
    keptBytes t f i ≤ blockBytes t i := by
  unfold keptBytes
  split
  · exact le_refl _
  · exact Nat.zero_le _

theorem scanSum_le_decompressed (t : Trailer) (f : Option filter) (a b : Nat)
    (hab : a ≤ b) (hb : b ≤ t.Blocks.length) : scanSum t f a b ≤ decompressedSize t :=
  le_trans (rangeSum_mono _ _ (keptBytes_le t f) a b) (rangeSum_le_total _ a b _ hab hb)

theorem consecutive_le (parts : List (Nat × Nat)) (a b : Nat) (h : consecutive a parts b) :
    a ≤ b ∧ ∀ p ∈ parts, a ≤ p.1 ∧ p.1 ≤ p.2 ∧ p.2 ≤ b := by
  induction parts generalizing a with
  | nil => simp only [consecutive] at h; subst h; simp
  | cons p rest ih =>
    obtain ⟨start, stop⟩ := p
    simp only [consecutive] at h
    obtain ⟨h1, h2, h3⟩ := h
    subst h1
    have ih2 := ih stop h3
    refine ⟨le_trans h2 ih2.1, ?_⟩
    intro q hq
    simp only [List.mem_cons] at hq
    rcases hq with hq | hq
    · subst hq; exact ⟨le_refl _, h2, ih2.1⟩
    · have := ih2.2 q hq
      exact ⟨le_trans h2 this.1, this.2.1, this.2.2⟩

theorem consecutive_sum (g : Nat → Nat) (parts : List (Nat × Nat)) (a b : Nat)
    (h : consecutive a parts b) :
    (parts.map (fun p => rangeSum g p.1 p.2)).sum = rangeSum g a b := by
  induction parts generalizing a with
  | nil => simp only [consecutive] at h; subst h; simp [rangeSum_self]
  | cons p rest ih =>
    obtain ⟨start, stop⟩ := p
    simp only [consecutive] at h
    obtain ⟨h1, h2, h3⟩ := h
    subst h1
    simp only [List.map_cons, List.sum_cons]
    rw [ih stop h3]
    exact rangeSum_add g start stop b h2 (consecutive_le rest stop b h3).1

theorem parts_sum_le (g g2 : Nat → Nat) (hg : ∀ i, g i ≤ g2 i) (parts : List (Nat × Nat)) :
    (parts.map (fun p => rangeSum g p.1 p.2)).sum
      ≤ (parts.map (fun p => rangeSum g2 p.1 p.2)).sum := by
  induction parts with
  | nil => simp
  | cons p rest ih =>
    simp only [List.map_cons, List.sum_cons]
    exact Nat.add_le_add (rangeSum_mono g g2 hg p.1 p.2) ih

theorem slice_getD (l : List Blockdesc) (start stop i : Nat) (h : start + i < stop) :
    ((l.take stop).drop start).getD i ⟨0, 0⟩ = l.getD (start + i) ⟨0, 0⟩ := by
  simp only [List.getD_eq_getElem?_getD, List.getElem?_drop, List.getElem?_take, h, if_true]

theorem slice_length (l : List Blockdesc) (start stop : Nat) (h1 : start ≤ stop)
    (h2 : stop ≤ l.length) : ((l.take stop).drop start).length = stop - start := by
  simp only [List.length_drop, List.length_take]
  omega

theorem blockBytes_le_decompressed (t : Trailer) (i : Nat) (h : i < t.Blocks.length) :
    blockBytes t i ≤ decompressedSize t := by
  have h1 := rangeSum_le_total (blockBytes t) i (i + 1) t.Blocks.length (by omega) h
  rw [rangeSum_succ _ i i (le_refl i), rangeSum_self] at h1
  unfold decompressedSize
  omega

theorem maxscan_fold (t : Trailer) (f : Option filter) (start stop : Nat)
    (he : stop ≤ t.Blocks.length) (hfit : decompressedSize t < 2 ^ 63)
    (n : Nat) (hn : start + n ≤ stop) :
    (List.range n).foldl
      (fun (scan : Int) (i : Nat) =>
        if scanned f t.Sparse ((start : Int) + (i : Int)) then
          wrap64 (scan + wrap64 (wrap64
            ((((t.Blocks.take stop).drop start).getD i ⟨0, 0⟩).Chunks : Int) * 2 ^ t.BlockShift))
        else scan)
      0 = ((scanSum t f start (start + n) : Nat) : Int) := by
  induction n with
  | zero => simp [scanSum, rangeSum_self]
  | succ n ih =>
    have ihn := ih (by omega)
    rw [List.range_succ, List.foldl_append, ihn]
    simp only [List.foldl_cons, List.foldl_nil]
    have hsum : scanSum t f start (start + (n + 1))
        = scanSum t f start (start + n) + keptBytes t f (start + n) := by
      unfold scanSum
      rw [← add_assoc, rangeSum_succ _ start (start + n) (by omega)]
    rw [hsum, slice_getD t.Blocks start stop n (by omega)]
    have hcast : ((start : Int) + (n : Int)) = ((start + n : Nat) : Int) := by push_cast; rfl
    rw [hcast]
    have hbb := blockBytes_le_decompressed t (start + n) (by omega)
    have htot := scanSum_le_decompressed t f start (start + (n + 1)) (by omega) (by omega)
    rw [hsum] at htot
    unfold keptBytes at htot ⊢
    by_cases hk : scanned f t.Sparse ((start + n : Nat) : Int) = true
    · simp only [hk, if_true] at htot ⊢
      have hchunks : (t.Blocks.getD (start + n) ⟨0, 0⟩).Chunks ≤ blockBytes t (start + n) := by
        unfold blockBytes
        exact Nat.le_mul_of_pos_right _ (by positivity)
      have hc : ((t.Blocks.getD (start + n) ⟨0, 0⟩).Chunks : Int) < 2 ^ 63 := by
        have : (t.Blocks.getD (start + n) ⟨0, 0⟩).Chunks < 2 ^ 63 := by omega
        exact_mod_cast this
      rw [wrap64_of_fits _ (Int.natCast_nonneg _) hc]
      have hbytes : ((t.Blocks.getD (start + n) ⟨0, 0⟩).Chunks : Int) * 2 ^ t.BlockShift
          = ((blockBytes t (start + n) : Nat) : Int) := by
        unfold blockBytes
        push_cast
        rfl
      rw [hbytes]
      have hb2 : ((blockBytes t (start + n) : Nat) : Int) < 2 ^ 63 := by
        have : blockBytes t (start + n) < 2 ^ 63 := by omega
        exact_mod_cast this
      rw [wrap64_of_fits _ (Int.natCast_nonneg _) hb2]
      have hs2 : ((scanSum t f start (start + n) : Nat) : Int)
          + ((blockBytes t (start + n) : Nat) : Int) < 2 ^ 63 := by
        have : scanSum t f start (start + n) + blockBytes t (start + n) < 2 ^ 63 := by omega
        exact_mod_cast this
      rw [wrap64_of_fits _ (by positivity) hs2]
      push_cast
      rfl
    · simp only [hk, if_false]
      simp

/-- The scan size `maxscan` returns for a part within the block list, when the
decompressed size of the blob fits an `int64`. -/
theorem maxscan_eq_scanSum (pc : CompressedPart) (f : Option filter)
    (hs : pc.StartBlock ≤ pc.EndBlock) (he : pc.EndBlock ≤ pc.Parent.Trailer.Blocks.length)
    (hfit : decompressedSize pc.Parent.Trailer < 2 ^ 63) :
    maxscan pc f = .ok ((scanSum pc.Parent.Trailer f pc.StartBlock pc.EndBlock : Nat) : Int) := by
  unfold maxscan
  simp only [hs, he, and_self, if_true]
  rw [slice_length _ _ _ hs he]
  have h := maxscan_fold pc.Parent.Trailer f pc.StartBlock pc.EndBlock he hfit
    (pc.EndBlock - pc.StartBlock) (by omega)
  rw [h]
  have h2 : pc.StartBlock + (pc.EndBlock - pc.StartBlock) = pc.EndBlock := by omega
  rw [h2]

/-- C7 (as amended): for a compressed blob whose decompressed size fits an `int64`, every
division of its blocks into consecutive parts and every filter, `maxscan` of each part is
the sum of `chunks << blockShift` over the blocks of the part the filter does not
eliminate, and these scan sizes add up to at most the decompressed size. -/
theorem maxscan_parts_within_decompressed (c : Compressed) (f : Option filter)
    (parts : List (Nat × Nat)) (pstat : Except Error Info)
    (hdiv : consecutive 0 parts c.Trailer.Blocks.length)
    (hfit : decompressedSize c.Trailer < 2 ^ 63) :
    (∀ p ∈ parts, maxscan ⟨c, p.1, p.2, pstat⟩ f
        = .ok ((scanSum c.Trailer f p.1 p.2 : Nat) : Int))
      ∧ (parts.map (fun p => scanSum c.Trailer f p.1 p.2)).sum ≤ decompressedSize c.Trailer := by
  have hb := consecutive_le parts 0 _ hdiv
  constructor
  · intro p hp
    have := hb.2 p hp
    exact maxscan_eq_scanSum ⟨c, p.1, p.2, pstat⟩ f this.2.1 this.2.2 hfit
  · have h1 := parts_sum_le (keptBytes c.Trailer f) (blockBytes c.Trailer)
      (keptBytes_le c.Trailer f) parts
    have h2 := consecutive_sum (blockBytes c.Trailer) parts 0 _ hdiv
    unfold scanSum decompressedSize
    omega

/-- C7 (the claim fails): for the blob with one block of one chunk and block shift 63,
the unfiltered `maxscan` of the part `[0, 1)` is `-2^63`, not the sum `2^63` of
`chunks << blockShift`, and it is not bounded by zero from below as a size is. -/
theorem maxscan_wraps_on_huge_shift :
    maxscan ⟨hugeShiftBlob, 0, 1, .ok ⟨1, "huge-0-1"⟩⟩ none = .ok (-(2 ^ 63))
      ∧ scanSum hugeShiftBlob.Trailer none 0 1 = 2 ^ 63
      ∧ decompressedSize hugeShiftBlob.Trailer = 2 ^ 63
      ∧ hugeShiftBlob.Trailer.Decompressed = -(2 ^ 63) := by
  refine ⟨?_, by decide, by decide, by decide⟩
  rfl

theorem maxscan_parts_within_decompressed_witness :
    consecutive 0 [(0, 1), (1, 2)] twoBlockBlob.Trailer.Blocks.length
      ∧ decompressedSize twoBlockBlob.Trailer < 2 ^ 63
      ∧ ((∀ p ∈ [(0, 1), (1, 2)],
            maxscan ⟨twoBlockBlob, p.1, p.2, .ok ⟨1, "part"⟩⟩
                (some (fun _ i => if i = 0 then ternary.never else ternary.maybe))
              = .ok ((scanSum twoBlockBlob.Trailer
                  (some (fun _ i => if i = 0 then ternary.never else ternary.maybe)) p.1 p.2 : Nat) : Int))
        ∧ ([(0, 1), (1, 2)].map (fun p => scanSum twoBlockBlob.Trailer
              (some (fun _ i => if i = 0 then ternary.never else ternary.maybe)) p.1 p.2)).sum
            ≤ decompressedSize twoBlockBlob.Trailer) :=
  have hdiv : consecutive 0 [(0, 1), (1, 2)] twoBlockBlob.Trailer.Blocks.length := by
    simp [consecutive, twoBlockBlob]
  have hfit : decompressedSize twoBlockBlob.Trailer < 2 ^ 63 := by decide
  ⟨hdiv, hfit, maxscan_parts_within_decompressed twoBlockBlob
    (some (fun _ i => if i = 0 then ternary.never else ternary.maybe)) [(0, 1), (1, 2)]
    (.ok ⟨1, "part"⟩) hdiv hfit⟩

/-! ### The sub-table plan encoding -/

theorem decodeSubtables_unfold (c : Codec) (fn : tableHandleFn) (body : List Datum) :
    decodeSubtables c fn body =
      match decodeHead c body with
      | .error err => .error err
      | .ok (splits, table, blobs, flt, body5) =>
        if TypeOf body5 ≠ IonType.NullType then
          match decodeSubtables c fn body5 with
          | .error err => .error err
          | .ok next => .ok (subtables.mk splits table blobs flt (some next) fn)
        else .ok (subtables.mk splits table blobs flt none fn) := by
  rw [decodeSubtables]
  split <;> rename_i h <;> simp only [h]

theorem TypeOf_null_iff (d : Datum) (rest : List Datum) :
    TypeOf (d :: rest) = IonType.NullType ↔ d = Datum.null := by
  cases d <;> simp [TypeOf]

theorem readInts (ints : List Int) (acc : List Int) :
    (ints.map Datum.int).foldlM
      (fun (blobs : List Int) x =>
        match ReadInt [x] with
        | .error err => (.error err : Except Error (List Int))
        | .ok n => .ok (blobs ++ [n])) acc = .ok (acc ++ ints) := by
  induction ints generalizing acc with
  | nil => simp [List.foldlM]; rfl
  | cons n rest ih =>
    have hn : ReadInt [Datum.int n] = .ok n := rfl
    rw [List.map_cons, List.foldlM_cons]
    simp only [hn, bind, Except.bind]
    rw [ih]
    simp

theorem decodeSplit_encode (c : Codec) (sp : split) (d : Datum)
    (hrt : ∀ d, c.encodeTransport sp.tp = .ok d → c.decodeTransport d = .ok sp.tp)
    (henc : sp.encode c = .ok d) : decodeSplit c [d] = .ok sp := by
  unfold split.encode at henc
  split at henc
  · cases henc
  · rename_i tp htp
    cases henc
    have h := hrt tp htp
    simp only [decodeSplit, TypeOf, Contents, Codec.DecodeTransport, h, skipValue,
      UnpackList, List.drop, ne_eq, not_true_eq_false, if_false]
    rw [readInts]
    simp

theorem decodeSplits_encode (c : Codec) (splits : List split) (ds : List Datum)
    (acc : List split)
    (hrt : ∀ sp ∈ splits, ∀ d, c.encodeTransport sp.tp = .ok d → c.decodeTransport d = .ok sp.tp)
    (henc : encodeSplits c splits = .ok ds) :
    ds.foldlM
      (fun (sps : List split) x =>
        match decodeSplit c [x] with
        | .error err => (.error err : Except Error (List split))
        | .ok sp => .ok (sps ++ [sp])) acc = .ok (acc ++ splits) := by
  induction splits generalizing ds acc with
  | nil =>
    simp only [encodeSplits] at henc
    cases henc
    simp [List.foldlM]; rfl
  | cons sp rest ih =>
    simp only [encodeSplits] at henc
    split at henc
    · cases henc
    · rename_i d hd
      split at henc
      · cases henc
      · rename_i ds2 hds
        cases henc
        have h1 := decodeSplit_encode c sp d (hrt sp (List.mem_cons_self _ _)) hd
        rw [List.foldlM_cons]
        simp only [h1, bind, Except.bind]
        rw [ih ds2 (acc ++ [sp]) (fun sp2 h2 => hrt sp2 (List.mem_cons_of_mem _ h2)) hds]
        simp

theorem Encode_is_list (c : Codec) :
    ∀ (s : subtables) (d : Datum), s.Encode c = .ok d → ∃ xs, d = Datum.list xs
  | .mk splits table blobs filter none fn2, d, h => by
    simp only [subtables.Encode] at h
    split at h
    · cases h
    · cases h; exact ⟨_, rfl⟩
  | .mk splits table blobs filter (some n) fn2, d, h => by
    simp only [subtables.Encode] at h
    split at h
    · cases h
    · split at h
      · cases h
      · cases h; exact ⟨_, rfl⟩

theorem TypeOf_list (xs rest : List Datum) : TypeOf (Datum.list xs :: rest) = IonType.ListType :=
  rfl

theorem decodeHead_encode (c : Codec) (splits : List split) (table : Node) (blobs : List Blob)
    (filter : Option Node) (sps : List Datum) (nd : Datum) (rest : List Datum)
    (hsp : ∀ sp ∈ splits, ∀ d, c.encodeTransport sp.tp = .ok d → c.decodeTransport d = .ok sp.tp)
    (htable : c.decodeExpr (c.encodeExpr table) = .ok table)
    (hblobs : c.decodeBlobs (c.encodeBlobs blobs) = .ok blobs)
    (hflt : ∀ e, filter = some e →
      c.encodeExpr e ≠ Datum.null ∧ c.decodeExpr (c.encodeExpr e) = .ok e)
    (henc : encodeSplits c splits = .ok sps) :
    decodeHead c (Datum.list [Datum.list sps, c.encodeExpr table, c.encodeBlobs blobs,
        encodeFilter c filter, nd] :: rest)
      = .ok (splits, table, blobs, filter, [nd]) := by
  have hs := decodeSplits_encode c splits sps [] hsp henc
  simp only [List.nil_append] at hs
  simp only [decodeHead, TypeOf_list, Contents, UnpackList, hs, Codec.DecodeExpr, htable,
    Codec.DecodeList, hblobs, skipValue, List.drop, ne_eq, not_true_eq_false, if_false]
  cases filter with
  | none =>
    have hty : TypeOf [encodeFilter c none, nd] = IonType.NullType := rfl
    simp only [hty, not_true_eq_false, if_false]
  | some e =>
    obtain ⟨hne, hdec⟩ := hflt e rfl
    have hty : TypeOf [encodeFilter c (some e), nd] ≠ IonType.NullType := by
      rw [ne_eq, TypeOf_null_iff]
      exact hne
    simp only [hty, ne_eq, not_false_eq_true, if_true]
    simp only [encodeFilter, hdec]

/-- C5 (as amended): decoding what `Encode` wrote gives back the chain, for every chain
that is well formed for the codecs and the handle factory and whose filter, when present,
is not written as an ion null, whatever follows the encoded value in the buffer. -/
theorem decodeSubtables_Encode (c : Codec) (fn : tableHandleFn) :
    ∀ (s : subtables) (d : Datum) (rest : List Datum),
      c.roundTrips fn s → s.Encode c = .ok d → decodeSubtables c fn (d :: rest) = .ok s
  | .mk splits table blobs filter none fn2, d, rest, hwf, henc => by
    simp only [Codec.roundTrips] at hwf
    obtain ⟨hsp, htable, hblobs, hflt, hfn⟩ := hwf
    subst hfn
    simp only [subtables.Encode] at henc
    split at henc
    · cases henc
    · rename_i sps hsps
      cases henc
      rw [decodeSubtables_unfold,
        decodeHead_encode c splits table blobs filter sps Datum.null rest hsp htable hblobs hflt hsps]
      have hty : TypeOf [Datum.null] = IonType.NullType := rfl
      simp only [hty, ne_eq, not_true_eq_false, if_false]
  | .mk splits table blobs filter (some n) fn2, d, rest, hwf, henc => by
    simp only [Codec.roundTrips] at hwf
    obtain ⟨hsp, htable, hblobs, hflt, hfn, hnext⟩ := hwf
    subst hfn
    simp only [subtables.Encode] at henc
    split at henc
    · cases henc
    · rename_i sps hsps
      split at henc
      · cases henc
      · rename_i nd hnd
        cases henc
        have ih := decodeSubtables_Encode c fn2 n nd [] hnext hnd
        obtain ⟨xs, hxs⟩ := Encode_is_list c n nd hnd
        rw [decodeSubtables_unfold,
          decodeHead_encode c splits table blobs filter sps nd rest hsp htable hblobs hflt hsps]
        have hty : TypeOf [nd] ≠ IonType.NullType := by
          rw [hxs, TypeOf_list]; decide
        simp only [hty, ne_eq, not_false_eq_true, if_true, ih]

theorem exampleChain_roundTrips : exampleCodec.roundTrips thfn exampleChain := by
  have hlocal : ∀ d, exampleCodec.encodeTransport Transport.LocalTransport = .ok d →
      exampleCodec.decodeTransport d = .ok Transport.LocalTransport := by
    intro d hd; cases hd; rfl
  have hremote : ∀ d, exampleCodec.encodeTransport (Transport.Remote "w" "tcp" "10.0.0.2:9000")
      = .ok d → exampleCodec.decodeTransport d
        = .ok (Transport.Remote "w" "tcp" "10.0.0.2:9000") := by
    intro d hd; cases hd; rfl
  have hlast : exampleCodec.roundTrips thfn
      (.mk [⟨.LocalTransport, [0]⟩] (.other "db.u") [.generic (.ok ⟨3, "c"⟩)] none none thfn) := by
    rw [Codec.roundTrips]
    refine ⟨?_, rfl, rfl, ?_, rfl⟩
    · intro sp hsp
      simp only [List.mem_singleton] at hsp
      subst hsp
      exact hlocal
    · intro e he
      cases he
  unfold exampleChain
  rw [Codec.roundTrips]
  refine ⟨?_, rfl, rfl, ?_, rfl, hlast⟩
  · intro sp hsp
    simp only [List.mem_cons, List.mem_singleton, List.not_mem_nil, or_false] at hsp
    rcases hsp with h | h
    · subst h; exact hlocal
    · subst h; exact hremote
  · intro e he
    cases he
    exact ⟨by simp [exampleCodec], rfl⟩

theorem decodeSubtables_Encode_witness :
    exampleCodec.roundTrips thfn exampleChain
      ∧ exampleChain.Encode exampleCodec = .ok (Datum.list [
          Datum.list [
            Datum.list [Datum.string "local", Datum.list [Datum.int 0]],
            Datum.list [Datum.list [Datum.string "w", Datum.string "tcp",
              Datum.string "10.0.0.2:9000"], Datum.list [Datum.int 1]]],
          Datum.string "db.t",
          Datum.list [Datum.list [Datum.int 1, Datum.string "a"],
            Datum.list [Datum.int 2, Datum.string "b"]],
          Datum.string "x < 5",
          Datum.list [
            Datum.list [Datum.list [Datum.string "local", Datum.list [Datum.int 0]]],
            Datum.string "db.u",
            Datum.list [Datum.list [Datum.int 3, Datum.string "c"]],
            Datum.null,
            Datum.null]])
      ∧ decodeSubtables exampleCodec thfn [Datum.list [
          Datum.list [
            Datum.list [Datum.string "local", Datum.list [Datum.int 0]],
            Datum.list [Datum.list [Datum.string "w", Datum.string "tcp",
              Datum.string "10.0.0.2:9000"], Datum.list [Datum.int 1]]],
          Datum.string "db.t",
          Datum.list [Datum.list [Datum.int 1, Datum.string "a"],
            Datum.list [Datum.int 2, Datum.string "b"]],
          Datum.string "x < 5",
          Datum.list [
            Datum.list [Datum.list [Datum.string "local", Datum.list [Datum.int 0]]],
            Datum.string "db.u",
            Datum.list [Datum.list [Datum.int 3, Datum.string "c"]],
            Datum.null,
            Datum.null]]] = .ok exampleChain :=
  ⟨exampleChain_roundTrips, rfl,
    decodeSubtables_Encode exampleCodec thfn exampleChain _ [] exampleChain_roundTrips rfl⟩


/-- C5 (the claim fails): with codecs that read back what they write and write the
expression `NULL` as an ion null, the chain of one link whose filter is `NULL` is encoded
with a null in the filter slot, and decoding the result succeeds and returns the chain
without a filter. -/
theorem decodeSubtables_drops_null_filter :
    nullCodec.decodeExpr (nullCodec.encodeExpr (.other "NULL")) = .ok (.other "NULL")
      ∧ nullCodec.decodeExpr (nullCodec.encodeExpr (.other "db.t")) = .ok (.other "db.t")
      ∧ nullCodec.decodeTransport (Datum.string "local") = .ok Transport.LocalTransport
      ∧ nullCodec.encodeTransport Transport.LocalTransport = .ok (Datum.string "local")
      ∧ nullCodec.decodeBlobs (nullCodec.encodeBlobs [.generic (.ok ⟨1, "a"⟩)])
        = .ok [.generic (.ok ⟨1, "a"⟩)]
      ∧ nullFilterChain.filter = some (.other "NULL")
      ∧ nullFilterChain.Encode nullCodec = .ok (Datum.list [
          Datum.list [Datum.list [Datum.string "local", Datum.list [Datum.int 0]]],
          Datum.string "db.t",
          Datum.list [Datum.list [Datum.int 1, Datum.string "a"]],
          Datum.null,
          Datum.null])
      ∧ decodeSubtables nullCodec thfn [Datum.list [
          Datum.list [Datum.list [Datum.string "local", Datum.list [Datum.int 0]]],
          Datum.string "db.t",
          Datum.list [Datum.list [Datum.int 1, Datum.string "a"]],
          Datum.null,
          Datum.null]]
        = .ok (subtables.mk [⟨.LocalTransport, [0]⟩] (.other "db.t") [.generic (.ok ⟨1, "a"⟩)]
            none none thfn) := by
  refine ⟨rfl, rfl, rfl, rfl, rfl, rfl, rfl, ?_⟩
  rw [decodeSubtables_unfold]
  rfl

theorem foldlM_ok_all {σ : Type} (step : σ → Datum → Except Error σ) (P : Datum → Prop)
    (hstep : ∀ acc x out, step acc x = .ok out → P x) (xs : List Datum) (init out : σ)
    (h : xs.foldlM step init = .ok out) : ∀ x ∈ xs, P x := by
  induction xs generalizing init with
  | nil => intro x hx; cases hx
  | cons y ys ih =>
    rw [List.foldlM_cons] at h
    cases hy : step init y with
    | error err =>
      simp only [hy, bind, Except.bind] at h
      cases h
    | ok a =>
      simp only [hy, bind, Except.bind] at h
      intro x hx
      simp only [List.mem_cons] at hx
      rcases hx with hx | hx
      · subst hx; exact hstep _ _ _ hy
      · exact ih _ h x hx

theorem ReadInt_ok (x : Datum) (n : Int) (h : ReadInt [x] = .ok n) : x = Datum.int n := by
  cases x <;> simp [ReadInt] at h
  subst h; rfl

theorem decodeSplit_ok_shape (c : Codec) (x : Datum) (sp : split)
    (h : decodeSplit c [x] = .ok sp) :
    ∃ tp ints extra, x = Datum.list (tp :: Datum.list ints :: extra)
      ∧ c.decodeTransport tp = .ok sp.tp ∧ ∀ y ∈ ints, ∃ n, y = Datum.int n := by
  cases x with
  | null => simp [decodeSplit, TypeOf] at h
  | int n => simp [decodeSplit, TypeOf] at h
  | string s => simp [decodeSplit, TypeOf] at h
  | list xs =>
    simp only [decodeSplit, TypeOf_list, ne_eq, not_true_eq_false, if_false, Contents] at h
    cases xs with
    | nil => simp [Codec.DecodeTransport] at h
    | cons tp rest =>
      simp only [Codec.DecodeTransport] at h
      cases htp : c.decodeTransport tp with
      | error err => simp [htp] at h
      | ok t =>
        simp only [htp, skipValue, List.drop] at h
        cases rest with
        | nil => simp [UnpackList] at h
        | cons l extra =>
          cases l with
          | null => simp [UnpackList] at h
          | int n => simp [UnpackList] at h
          | string s => simp [UnpackList] at h
          | list ints =>
            simp only [UnpackList] at h
            split at h
            · cases h
            · rename_i out hfold
              split at hfold
              · cases hfold
              · rename_i out2 hfold2
                cases hfold
                cases h
                refine ⟨tp, ints, extra, rfl, htp, ?_⟩
                refine foldlM_ok_all _ (fun y => ∃ n, y = Datum.int n) ?_ ints [] _ hfold2
                intro acc y out3 hstep
                split at hstep
                · cases hstep
                · rename_i n hn
                  exact ⟨n, ReadInt_ok y n hn⟩

theorem decodeHead_ok_shape (c : Codec) (body : List Datum) (splits : List split)
    (table : Node) (blobs : List Blob) (flt : Option Node) (body5 : List Datum)
    (h : decodeHead c body = .ok (splits, table, blobs, flt, body5)) :
    ∃ sps tableD blobsD fltD rest,
      body = Datum.list (Datum.list sps :: tableD :: blobsD :: fltD :: body5) :: rest
      ∧ (∀ x ∈ sps, ∃ tp ints extra, x = Datum.list (tp :: Datum.list ints :: extra)
          ∧ (∃ t, c.decodeTransport tp = .ok t) ∧ ∀ y ∈ ints, ∃ n, y = Datum.int n)
      ∧ c.decodeExpr tableD = .ok table
      ∧ c.decodeBlobs blobsD = .ok blobs
      ∧ ((fltD = Datum.null ∧ flt = none)
        ∨ (fltD ≠ Datum.null ∧ ∃ e, c.decodeExpr fltD = .ok e ∧ flt = some e)) := by
  cases body with
  | nil => simp [decodeHead, TypeOf] at h
  | cons d rest =>
    cases d with
    | null => simp [decodeHead, TypeOf] at h
    | int n => simp [decodeHead, TypeOf] at h
    | string s => simp [decodeHead, TypeOf] at h
    | list xs =>
      simp only [decodeHead, TypeOf_list, ne_eq, not_true_eq_false, if_false, Contents] at h
      split at h
      · cases h
      · rename_i splits2 body2 hu
        simp only [UnpackList] at hu
        split at hu
        · rename_i sps rest2
          split at hu
          · cases hu
          · rename_i out hfold
            cases hu
            have hsplits : ∀ x ∈ sps, ∃ tp ints extra,
                x = Datum.list (tp :: Datum.list ints :: extra)
                ∧ (∃ t, c.decodeTransport tp = .ok t) ∧ ∀ y ∈ ints, ∃ n, y = Datum.int n := by
              refine foldlM_ok_all _ _ ?_ sps [] _ hfold
              intro acc x out3 hstep
              split at hstep
              · cases hstep
              · rename_i sp hsp
                obtain ⟨tp, ints, extra, hx, htp, hints⟩ := decodeSplit_ok_shape c x sp hsp
                exact ⟨tp, ints, extra, hx, ⟨_, htp⟩, hints⟩
            split at h
            · cases h
            · rename_i table2 body3 ht
              cases body2 with
              | nil => simp [Codec.DecodeExpr] at ht
              | cons tableD r3 =>
                simp only [Codec.DecodeExpr] at ht
                split at ht
                · cases ht
                · rename_i e2 hte
                  cases ht
                  split at h
                  · cases h
                  · rename_i blobs2 hb
                    cases body3 with
                    | nil => simp [Codec.DecodeList] at hb
                    | cons blobsD r4 =>
                      simp only [Codec.DecodeList] at hb
                      simp only [skipValue, List.drop] at h
                      cases r4 with
                      | nil =>
                        simp [TypeOf, Codec.DecodeExpr] at h
                      | cons fltD r5 =>
                        by_cases hnull : fltD = Datum.null
                        · subst hnull
                          have hty : TypeOf (Datum.null :: r5) = IonType.NullType := rfl
                          simp only [hty, ne_eq, not_true_eq_false, if_false, List.drop] at h
                          cases h
                          exact ⟨sps, tableD, blobsD, Datum.null, rest, rfl, hsplits, hte, hb,
                            Or.inl ⟨rfl, rfl⟩⟩
                        · have hty : TypeOf (fltD :: r5) ≠ IonType.NullType := by
                            rw [ne_eq, TypeOf_null_iff]; exact hnull
                          simp only [hty, ne_eq, not_false_eq_true, if_true] at h
                          split at h
                          · cases h
                          · rename_i flt2 b5 hf
                            simp only [Codec.DecodeExpr] at hf
                            split at hf
                            · cases hf
                            · rename_i e3 hfe
                              cases hf
                              cases h
                              exact ⟨sps, tableD, blobsD, fltD, rest, rfl, hsplits, hte, hb,
                                Or.inr ⟨hnull, _, hfe, rfl⟩⟩
        · cases hu

/-- C10 (as amended): `decodeSubtables` fails on every input whose first value is not a
list, and whenever it succeeds the input starts with a list whose first five elements
have the declared shape: a list of splits that each start with a transport and a list of
integers, a table expression, a blob list, a filter or null, and next or null, where a
next that is not null decodes in turn.  Elements after these are not examined. -/
theorem decodeSubtables_rejects_bad_shape (c : Codec) (fn : tableHandleFn)
    (body : List Datum) :
    (TypeOf body ≠ IonType.ListType →
      decodeSubtables c fn body = .error (.fmtError "expected a list; found ion type"))
    ∧ ∀ s, decodeSubtables c fn body = .ok s →
      ∃ sps tableD blobsD fltD nextD extra rest,
        body = Datum.list (Datum.list sps :: tableD :: blobsD :: fltD :: nextD :: extra) :: rest
        ∧ (∀ x ∈ sps, ∃ tp ints extra2, x = Datum.list (tp :: Datum.list ints :: extra2)
            ∧ (∃ t, c.decodeTransport tp = .ok t) ∧ ∀ y ∈ ints, ∃ n, y = Datum.int n)
        ∧ c.decodeExpr tableD = .ok s.table
        ∧ c.decodeBlobs blobsD = .ok s.blobs
        ∧ ((fltD = Datum.null ∧ s.filter = none)
          ∨ (fltD ≠ Datum.null ∧ ∃ e, c.decodeExpr fltD = .ok e ∧ s.filter = some e))
        ∧ ((nextD = Datum.null ∧ s.next = none)
          ∨ (nextD ≠ Datum.null
            ∧ ∃ n, decodeSubtables c fn (nextD :: extra) = .ok n ∧ s.next = some n)) := by
  constructor
  · intro hty
    rw [decodeSubtables_unfold]
    simp only [decodeHead, hty, ne_eq, not_false_eq_true, if_true]
  · intro s h
    rw [decodeSubtables_unfold] at h
    split at h
    · cases h
    · rename_i splits table blobs flt body5 hhead
      obtain ⟨sps, tableD, blobsD, fltD, rest, hbody, hsps, htable, hblobs, hflt⟩ :=
        decodeHead_ok_shape c body splits table blobs flt body5 hhead
      cases body5 with
      | nil =>
        have hty : TypeOf ([] : List Datum) ≠ IonType.NullType := by decide
        simp only [hty, ne_eq, not_false_eq_true, if_true] at h
        rw [decodeSubtables_unfold] at h
        simp [decodeHead, TypeOf] at h
      | cons nextD extra =>
        by_cases hnull : nextD = Datum.null
        · subst hnull
          have hty : TypeOf (Datum.null :: extra) = IonType.NullType := rfl
          simp only [hty, ne_eq, not_true_eq_false, if_false] at h
          cases h
          exact ⟨sps, tableD, blobsD, fltD, Datum.null, extra, rest, hbody, hsps, htable,
            hblobs, hflt, Or.inl ⟨rfl, rfl⟩⟩
        · have hty : TypeOf (nextD :: extra) ≠ IonType.NullType := by
            rw [ne_eq, TypeOf_null_iff]; exact hnull
          simp only [hty, ne_eq, not_false_eq_true, if_true] at h
          split at h
          · cases h
          · rename_i next hnext
            cases h
            exact ⟨sps, tableD, blobsD, fltD, nextD, extra, rest, hbody, hsps, htable,
              hblobs, hflt, Or.inr ⟨hnull, next, hnext, rfl⟩⟩

/-- C10 (the claim fails): a list that carries an extra element after `nextOrNull`, and
whose split carries an extra element after its list of blob indices, is decoded without
error; the extra elements are ignored. -/
theorem decodeSubtables_accepts_extra_elements :
    decodeSubtables exampleCodec thfn [Datum.list [
        Datum.list [Datum.list [Datum.string "local", Datum.list [Datum.int 0],
          Datum.string "extra"]],
        Datum.string "db.t",
        Datum.list [Datum.list [Datum.int 1, Datum.string "a"]],
        Datum.null,
        Datum.null,
        Datum.int 7]]
      = .ok (.mk [⟨.LocalTransport, [0]⟩] (.other "db.t") [.generic (.ok ⟨1, "a"⟩)]
          none none thfn) := by
  rw [decodeSubtables_unfold]
  rfl

theorem decodeSubtables_rejects_bad_shape_witness :
    TypeOf [Datum.int 3] ≠ IonType.ListType
      ∧ decodeSubtables exampleCodec thfn [Datum.int 3]
        = .error (.fmtError "expected a list; found ion type")
      ∧ decodeSubtables exampleCodec thfn
          [Datum.list [Datum.list [], Datum.string "db.t", Datum.list [], Datum.null, Datum.null]]
        = .ok (.mk [] (.other "db.t") [] none none thfn)
      ∧ ∃ sps tableD blobsD fltD nextD extra rest,
        [Datum.list [Datum.list [], Datum.string "db.t", Datum.list [], Datum.null, Datum.null]]
          = Datum.list (Datum.list sps :: tableD :: blobsD :: fltD :: nextD :: extra) :: rest
        ∧ (∀ x ∈ sps, ∃ tp ints extra2, x = Datum.list (tp :: Datum.list ints :: extra2)
            ∧ (∃ t, exampleCodec.decodeTransport tp = .ok t) ∧ ∀ y ∈ ints, ∃ n, y = Datum.int n)
        ∧ exampleCodec.decodeExpr tableD = .ok (Node.other "db.t")
        ∧ exampleCodec.decodeBlobs blobsD = .ok []
        ∧ ((fltD = Datum.null ∧ (none : Option Node) = none)
          ∨ (fltD ≠ Datum.null ∧ ∃ e, exampleCodec.decodeExpr fltD = .ok e
            ∧ (none : Option Node) = some e))
        ∧ ((nextD = Datum.null ∧ (none : Option subtables) = none)
          ∨ (nextD ≠ Datum.null
            ∧ ∃ n, decodeSubtables exampleCodec thfn (nextD :: extra) = .ok n
              ∧ (none : Option subtables) = some n)) :=
  have hok : decodeSubtables exampleCodec thfn
      [Datum.list [Datum.list [], Datum.string "db.t", Datum.list [], Datum.null, Datum.null]]
      = .ok (.mk [] (.other "db.t") [] none none thfn) := by
    rw [decodeSubtables_unfold]
    rfl
  ⟨by decide,
    (decodeSubtables_rejects_bad_shape exampleCodec thfn [Datum.int 3]).1 (by decide),
    hok,
    (decodeSubtables_rejects_bad_shape exampleCodec thfn
      [Datum.list [Datum.list [], Datum.string "db.t", Datum.list [], Datum.null, Datum.null]]).2
      _ hok⟩


/-! ### Closing of the inputs in the main loop -/

theorem prefetch_Inputs (disable : Bool) (i fuel : Nat) (st : SingleState) :
    (prefetch disable i fuel st).Inputs = st.Inputs := by
  induction fuel generalizing st with
  | zero => rfl
  | succ fuel ih =>
    simp only [prefetch]
    split
    · rw [ih]
    · rfl

/-- Fuel beyond the number of inputs not yet queued does not change the result of the
readahead loop: the loop stops by itself when `next` reaches the number of inputs. -/
theorem prefetch_fuel (disable : Bool) (i fuel : Nat) (st : SingleState)
    (h : st.Inputs.length - st.next ≤ fuel) :
    prefetch disable i (fuel + 1) st = prefetch disable i fuel st := by
  induction fuel generalizing st with
  | zero =>
    simp only [prefetch]
    split
    · rename_i hc
      omega
    · rfl
  | succ fuel ih =>
    rw [prefetch]
    split
    · rename_i hc
      rw [ih _ (by simp only; omega)]
      conv_rhs => rw [prefetch]
      rw [if_pos hc]
    · rename_i hc
      conv_rhs => rw [prefetch]
      rw [if_neg hc]

theorem map_closed_modify (g : Input → Input) (hg : ∀ x, (g x).closed = x.closed)
    (l : List Input) (i : Nat) : (l.modify g i).map Input.closed = l.map Input.closed := by
  induction l generalizing i with
  | nil => cases i <;> rfl
  | cons x xs ih =>
    cases i with
    | zero => simp [List.modify, List.modifyHead, hg]
    | succ i =>
      have := ih i
      simp only [List.modify_succ_cons, List.map_cons, this]

theorem closed_after_step (l : List Input) (i : Nat) (h : i < l.length) :
    ((l.modify Input.close i).take (i + 1)).map Input.closed
        ++ (((l.modify Input.close i).drop (i + 1)).map Input.close).map Input.closed
      = (l.take i).map Input.closed ++ (l.drop i).map (fun x => x.closed + 1) := by
  rw [List.modify_eq_take_cons_drop h]
  have hlen : (l.take i).length = i := by simp [List.length_take]; omega
  have h1 : (l.take i ++ Input.close l[i] :: l.drop (i + 1)).take (i + 1)
      = l.take i ++ [Input.close l[i]] := by
    rw [List.take_append_eq_append_take, hlen]
    simp [List.take_of_length_le, hlen]
  have h2 : (l.take i ++ Input.close l[i] :: l.drop (i + 1)).drop (i + 1)
      = l.drop (i + 1) := by
    rw [List.drop_append_eq_append_drop, hlen]
    simp [List.drop_of_length_le, hlen]
  have h3 : l.drop i = l[i] :: l.drop (i + 1) := List.drop_eq_getElem_cons h
  rw [h1, h2, h3]
  simp only [List.map_append, List.map_cons, List.map_nil, List.map_map, List.append_assoc,
    List.singleton_append]
  rfl

theorem awaitAndPrefetch_Inputs (disable : Bool) (i : Nat) (x : Input) (st : SingleState) :
    (awaitAndPrefetch disable i x st).Inputs = st.Inputs := by
  unfold awaitAndPrefetch
  simp only [prefetch_Inputs]
  split <;> split <;> rfl

theorem singleLoop_closed (disable : Bool) (n i : Nat) (st : SingleState)
    (h : i + n = st.Inputs.length) :
    (singleLoop disable n i st).2.Inputs.map Input.closed
      = (st.Inputs.take i).map Input.closed
        ++ (st.Inputs.drop i).map (fun x => x.closed + 1) := by
  induction n generalizing i st with
  | zero =>
    have hi : i = st.Inputs.length := by omega
    simp [singleLoop, hi]
  | succ n ih =>
    have hi : i < st.Inputs.length := by omega
    have hget : st.Inputs.get? i = some st.Inputs[i] := by
      simp [List.getElem?_eq_getElem hi]
    have hstep := closed_after_step st.Inputs i hi
    rw [singleLoop]
    simp only [hget]
    split
    · rename_i e he
      simp only [failAt, awaitAndPrefetch_Inputs]
      rw [map_closed_modify (fun x => { x with Err := some e }) (fun _ => rfl), List.map_append]
      exact hstep
    · rename_i he
      rw [ih _ _ (by simp only [List.length_modify, awaitAndPrefetch_Inputs]; omega)]
      simp only [awaitAndPrefetch_Inputs]
      rw [← hstep, List.map_map]
      rfl

/-- Once the main loop of `runSingle` is reached, every input has been closed exactly once
more when `runSingle` returns, whether the loop, the flush or the final close fails or
everything succeeds. -/
theorem runSingle_closes_inputs_once (w : World) (c : Converter)
    (hcomp : w.compression c.Comp = true) (halign : wrap64 (c.Align * 2) ≠ 0)
    (hpre : ∀ r, c.Prepend = some r → r.copy = none) :
    (c.runSingle w).2.Inputs.map Input.closed = c.Inputs.map (fun x => x.closed + 1) := by
  have hloop := fun (st : SingleState) (h : 0 + st.Inputs.length = st.Inputs.length) =>
    singleLoop_closed c.DisablePrefetch st.Inputs.length 0 st h
  unfold Converter.runSingle
  simp only [hcomp, Bool.not_true, Bool.false_eq_true, if_false, halign]
  have hrun : c.runPrepend.1 = none ∧ c.runPrepend.2.Inputs = c.Inputs
      ∧ c.runPrepend.2.DisablePrefetch = c.DisablePrefetch := by
    unfold Converter.runPrepend
    cases hp : c.Prepend with
    | none => exact ⟨rfl, rfl, rfl⟩
    | some r => exact ⟨hpre r hp, rfl, rfl⟩
  obtain ⟨hr1, hr2, hr3⟩ := hrun
  cases hrp : c.runPrepend with
  | mk perr c1 =>
    rw [hrp] at hr1 hr2 hr3
    simp only at hr1 hr2 hr3
    subst hr1
    simp only
    have hl := singleLoop_closed c1.DisablePrefetch c1.Inputs.length 0
      ⟨List.replicate c1.Inputs.length false, 1, 0, c1.Inputs⟩ (by simp)
    simp only [List.take_zero, List.map_nil, List.nil_append, List.drop_zero] at hl
    rw [hr2] at hl
    split
    · rename_i err st hsl
      rw [hr2] at hsl
      rw [hsl] at hl
      exact hl
    · rename_i st hsl
      rw [hr2] at hsl
      rw [hsl] at hl
      split <;> exact hl


/-! ### The trailer after a run -/

theorem finishMulti_trailer (w : World) (c : Converter) (errs : List (Option Error)) :
    ((c.finishMulti w errs).1 = none ∧ (c.finishMulti w errs).2.trailer = some w.mtrailer)
      ∨ ((c.finishMulti w errs).1 ≠ none ∧ (c.finishMulti w errs).2.trailer = c.trailer) := by
  unfold Converter.finishMulti
  split
  · split <;> simp
  · split <;> simp

theorem runMulti_trailer (w : World) (c : Converter) :
    ((c.runMulti w).1 = none ∧ (c.runMulti w).2.trailer = some w.mtrailer)
      ∨ ((c.runMulti w).1 ≠ none ∧ (c.runMulti w).2.trailer = c.trailer) := by
  generalize hr : c.runMulti w = r
  unfold Converter.runMulti at hr
  simp only at hr
  repeat' split at hr
  all_goals
    subst hr
    first
      | exact finishMulti_trailer w _ _
      | simp

theorem runPrepend_trailer (c : Converter) : c.runPrepend.2.trailer = c.trailer := by
  unfold Converter.runPrepend
  split <;> rfl

theorem runSingle_trailer (w : World) (c : Converter) :
    ((c.runSingle w).1 = w.wclose ∧ (c.runSingle w).2.trailer = some w.wtrailer)
      ∨ ((c.runSingle w).1 ≠ none ∧ (c.runSingle w).2.trailer = c.trailer) := by
  have hp := runPrepend_trailer c
  unfold Converter.runSingle
  split
  · simp
  · split
    · simp
    · split
      · rename_i h1
        rw [h1] at hp
        simp only at hp
        simp [hp]
      · rename_i h1
        rw [h1] at hp
        simp only at hp
        simp only
        split
        · simp [hp]
        · split
          · simp [hp]
          · simp

/-- A run that returns nil leaves `Trailer()` non-nil. -/
theorem Run_nil_sets_trailer (w : World) (c : Converter) (h : (c.Run w).1 = none) :
    (c.Run w).2.Trailer ≠ none := by
  unfold Converter.Trailer
  by_cases h0 : c.Inputs.length = 0
  · simp [Converter.Run, h0] at h
  · by_cases hm : c.MultiStream = true
    · simp only [Converter.Run, h0, hm, if_true, if_false] at h ⊢
      rcases runMulti_trailer w c with h1 | h1
      · rw [h1.2]; simp
      · exact absurd h h1.1
    · simp only [Converter.Run, h0, hm, if_false, Bool.false_eq_true] at h ⊢
      rcases runSingle_trailer w c with h1 | h1
      · rw [h1.2]; simp
      · exact absurd h h1.1

/-- A failed run of a fresh converter leaves `Trailer()` nil, except in single-stream mode
when the error is the one returned by the final `Close` of the writer. -/
theorem Run_error_trailer (w : World) (c : Converter) (e : Error) (hfresh : c.trailer = none)
    (h : (c.Run w).1 = some e) (ht : (c.Run w).2.Trailer ≠ none) :
    c.MultiStream = false ∧ w.wclose = some e := by
  unfold Converter.Trailer at ht
  by_cases h0 : c.Inputs.length = 0
  · simp only [Converter.Run, h0, if_true] at ht
    exact absurd hfresh ht
  · by_cases hm : c.MultiStream = true
    · simp only [Converter.Run, h0, hm, if_true, if_false] at h ht
      rcases runMulti_trailer w c with h1 | h1
      · rw [h1.1] at h; cases h
      · rw [h1.2] at ht; exact absurd hfresh ht
    · simp only [Converter.Run, h0, hm, if_false, Bool.false_eq_true] at h ht
      rcases runSingle_trailer w c with h1 | h1
      · rw [h1.1] at h
        exact ⟨by simpa using hm, h⟩
      · rw [h1.2] at ht; exact absurd hfresh ht


/-! ### Concatenation and late filter -/

theorem append_assoc_chain : ∀ (a b c : subtables),
    (a.append b).append c = a.append (b.append c)
  | .mk splits table blobs filter none fn, b, c => by
    simp only [subtables.append]
  | .mk splits table blobs filter (some n) fn, b, c => by
    simp only [subtables.append]
    rw [append_assoc_chain n b c]

theorem links_append : ∀ (a b : subtables), (a.append b).links = a.links ++ b.links
  | .mk splits table blobs filter none fn, b => by
    simp only [subtables.append, subtables.links, List.singleton_append]
  | .mk splits table blobs filter (some n) fn, b => by
    simp only [subtables.append, subtables.links, List.cons_append]
    rw [links_append n b]

/-- C11: `Append` is associative on chains.  Appending `b` to `a` and then `c` to the
result, and appending to `a` the result of appending `c` to `b`, both succeed and give the
same chain, whose links are the links of `a`, then those of `b`, then those of `c`, each
with its own splits, table, blob pool, filter and handle factory. -/
theorem Append_assoc (a b c : subtables) :
    ∃ ab bc x,
      a.Append (.chain b) = .ok ab ∧ ab.Append (.chain c) = .ok x
      ∧ b.Append (.chain c) = .ok bc ∧ a.Append (.chain bc) = .ok x
      ∧ x.links = a.links ++ b.links ++ c.links :=
  ⟨a.append b, b.append c, (a.append b).append c, rfl, rfl, rfl,
    by simp only [subtables.Append, append_assoc_chain],
    by rw [links_append, links_append]⟩

theorem Len_eq_links : ∀ (s : subtables), s.Len = (s.links.map (fun l => l.splits.length)).sum
  | .mk splits table blobs filter none fn => by
    simp only [subtables.Len, subtables.links, List.map_cons, List.map_nil, List.sum_cons,
      List.sum_nil, add_zero]
  | .mk splits table blobs filter (some n) fn => by
    simp only [subtables.Len, subtables.links, List.map_cons, List.sum_cons]
    rw [Len_eq_links n]

theorem links_Filter : ∀ (s : subtables) (e : Option Node),
    (s.Filter e).links = s.links.map (fun l => { l with filter := e })
  | .mk splits table blobs filter none fn, e => by
    simp only [subtables.Filter, subtables.links, List.map_cons, List.map_nil]
  | .mk splits table blobs filter (some n) fn, e => by
    simp only [subtables.Filter, subtables.links, List.map_cons]
    rw [links_Filter n e]

/-- C12: after `Filter(e)` the links of the chain are the links it had before, in the same
number and order and with the same splits, table, blob pool and handle factory, each with
its filter set to `e`. -/
theorem Filter_sets_every_link (s : subtables) (e : Node) :
    (s.Filter (some e)).links = s.links.map (fun l => { l with filter := some e })
      ∧ (∀ l ∈ (s.Filter (some e)).links, l.filter = some e)
      ∧ (s.Filter (some e)).links.length = s.links.length
      ∧ (s.Filter (some e)).Len = s.Len := by
  have h := links_Filter s (some e)
  refine ⟨h, ?_, ?_, ?_⟩
  · intro l hl
    rw [h, List.mem_map] at hl
    obtain ⟨l0, _, hl0⟩ := hl
    rw [← hl0]
  · rw [h, List.length_map]
  · rw [Len_eq_links, Len_eq_links, h, List.map_map]
    rfl

/-! ### Compaction -/

theorem compact_foldl (splits : List split) (acc : List split) :
    splits.foldl (fun out sp => if sp.blobs.length > 0 then out ++ [sp] else out) acc
      = acc ++ splits.filter (fun sp => decide (sp.blobs ≠ [])) := by
  induction splits generalizing acc with
  | nil => simp
  | cons sp rest ih =>
    rw [List.foldl_cons, ih, List.filter_cons]
    by_cases h : sp.blobs = []
    · simp [h]
    · have hpos : sp.blobs.length > 0 := List.length_pos.mpr h
      simp [h, hpos]

/-- C18: `compact` returns exactly the splits whose blob list is not empty, in their
original order and unchanged. -/
theorem compact_eq_filter (splits : List split) :
    compact splits = splits.filter (fun sp => decide (sp.blobs ≠ []))
      ∧ (∀ sp ∈ compact splits, sp.blobs ≠ [])
      ∧ (∀ sp ∈ splits, sp.blobs ≠ [] → sp ∈ compact splits)
      ∧ (compact splits).Sublist splits := by
  have h : compact splits = splits.filter (fun sp => decide (sp.blobs ≠ [])) := by
    unfold compact
    rw [compact_foldl]
    simp
  refine ⟨h, ?_, ?_, ?_⟩
  · intro sp hsp
    rw [h, List.mem_filter] at hsp
    simpa using hsp.2
  · intro sp hsp hne
    rw [h, List.mem_filter]
    exact ⟨hsp, by simpa using hne⟩
  · rw [h]
    exact List.filter_sublist _


/-! ### Fatal errors -/

theorem is_self (e : Error) : e.is e = true := by
  cases e <;> simp [Error.is]

theorem is_wrapAll (msgs : List String) (e : Error) : (wrapAll msgs e).is e = true := by
  induction msgs with
  | nil => exact is_self e
  | cons m rest ih =>
    simp only [wrapAll, List.foldr_cons] at ih ⊢
    simp only [Error.is, ih, Bool.or_true]

theorem asCorruptInput_wrapAll (msgs : List String) (offset : Int) :
    (wrapAll msgs (.corruptInput offset)).asCorruptInput = true := by
  induction msgs with
  | nil => rfl
  | cons m rest ih =>
    simp only [wrapAll, List.foldr_cons] at ih ⊢
    simp only [Error.asCorruptInput, ih]

/-- C15: `IsFatal` is true of every error obtained by wrapping, any number of times, an
entry of `isFatal` or a `flate.CorruptInputError`, and it is false of nil. -/
theorem IsFatal_of_wrapped (e : Error) (msgs : List String)
    (he : e ∈ isFatal ∨ ∃ offset, e = Error.corruptInput offset) :
    IsFatal (some (wrapAll msgs e)) = true ∧ IsFatal none = false := by
  refine ⟨?_, by decide⟩
  rcases he with he | ⟨offset, he⟩
  · unfold IsFatal
    rw [Bool.or_eq_true]
    left
    rw [List.any_eq_true]
    exact ⟨e, he, is_wrapAll msgs e⟩
  · subst he
    unfold IsFatal
    rw [Bool.or_eq_true]
    right
    exact asCorruptInput_wrapAll msgs offset

theorem IsFatal_of_wrapped_witness :
    (Error.sentinel "gzip" "ErrHeader" ∈ isFatal
        ∨ ∃ offset, Error.sentinel "gzip" "ErrHeader" = Error.corruptInput offset)
      ∧ IsFatal (some (Error.wrapped "a.json.gz: %w"
          (Error.wrapped "converting: %w" (Error.sentinel "gzip" "ErrHeader")))) = true
      ∧ IsFatal none = false :=
  ⟨Or.inl (by decide),
    IsFatal_of_wrapped (Error.sentinel "gzip" "ErrHeader") ["a.json.gz: %w", "converting: %w"]
      (Or.inl (by decide))⟩


/-! ### The memo table and the fingerprint -/

theorem load_ok_cached (f f1 : fsEnv) (d t : String) (idx : Index)
    (h : f.load d t = (.ok idx, f1)) :
    ∃ r, f1.recent.find? (fun r => decide (r.db = d ∧ r.table = t)) = some r ∧ r.index = idx := by
  unfold fsEnv.load at h
  split at h
  · rename_i r hr
    cases h
    exact ⟨r, hr, rfl⟩
  · rename_i hnone
    split at h
    · cases h
    · rename_i index hopen
      cases h
      refine ⟨⟨d, t, idx⟩, ?_, rfl⟩
      simp only [List.find?_append, hnone, Option.none_or]
      simp

theorem load_cached (f : fsEnv) (d t : String) (r : savedIndex)
    (h : f.recent.find? (fun r => decide (r.db = d ∧ r.table = t)) = some r) :
    f.load d t = (.ok r.index, f) := by
  unfold fsEnv.load
  rw [h]

/-- C13: after an `Index` call that resolved an expression to an index, a further `Index`
or `Stat` call that resolves to the same database and table finds that index in the memo
table: `Index` returns the same index, no request for an index is made to the storage
layer, and the env, with the writes absorbed by the hash, the modtime and the memo table,
is as it was, so that `CacheValues` returns the same pair as before the call. -/
theorem second_Index_is_cached (compileFilter : Node → Option filter)
    (sum : List HashWrite → List Nat) (f f1 : fsEnv) (e1 e2 : Node) (idx : Index)
    (whereE : Option Node)
    (h1 : f.Index e1 = (.ok idx, f1)) (h2 : f1.resolve e2 = f.resolve e1) :
    f1.Index e2 = (.ok idx, f1)
      ∧ (f1.Stat compileFilter e2 whereE).2 = f1
      ∧ (f1.Index e2).2.opens = f1.opens
      ∧ (f1.Stat compileFilter e2 whereE).2.opens = f1.opens
      ∧ (f1.Index e2).2.CacheValues sum = f1.CacheValues sum
      ∧ (f1.Stat compileFilter e2 whereE).2.CacheValues sum = f1.CacheValues sum := by
  have hidx : f1.Index e2 = (.ok idx, f1) := by
    unfold fsEnv.Index fsEnv.index at h1 ⊢
    rw [h2]
    split at h1
    · cases h1
    · rename_i d t hres
      obtain ⟨r, hr, hri⟩ := load_ok_cached f f1 d t idx h1
      rw [load_cached f1 d t r hr, hri]
  have hstat : (f1.Stat compileFilter e2 whereE).2 = f1 := by
    rw [Stat_env]
    have := hidx
    unfold fsEnv.Index at this
    rw [this]
  refine ⟨hidx, hstat, ?_, ?_, ?_, ?_⟩
  · rw [hidx]
  · rw [hstat]
  · rw [hidx]
  · rw [hstat]

theorem second_Index_is_cached_witness :
    (freshEnv steadyStorage).Index dbDotT
        = (.ok ⟨0, 5⟩, ((freshEnv steadyStorage).Index dbDotT).2)
      ∧ ((freshEnv steadyStorage).Index dbDotT).2.resolve dbDotT
        = (freshEnv steadyStorage).resolve dbDotT
      ∧ (((freshEnv steadyStorage).Index dbDotT).2.Index dbDotT
          = (.ok ⟨0, 5⟩, ((freshEnv steadyStorage).Index dbDotT).2)
        ∧ (((freshEnv steadyStorage).Index dbDotT).2.Stat (fun _ => none) dbDotT none).2
          = ((freshEnv steadyStorage).Index dbDotT).2
        ∧ (((freshEnv steadyStorage).Index dbDotT).2.Index dbDotT).2.opens
          = ((freshEnv steadyStorage).Index dbDotT).2.opens
        ∧ (((freshEnv steadyStorage).Index dbDotT).2.Stat (fun _ => none) dbDotT none).2.opens
          = ((freshEnv steadyStorage).Index dbDotT).2.opens
        ∧ (((freshEnv steadyStorage).Index dbDotT).2.Index dbDotT).2.CacheValues (fun _ => [])
          = ((freshEnv steadyStorage).Index dbDotT).2.CacheValues (fun _ => [])
        ∧ (((freshEnv steadyStorage).Index dbDotT).2.Stat (fun _ => none) dbDotT
            none).2.CacheValues (fun _ => [])
          = ((freshEnv steadyStorage).Index dbDotT).2.CacheValues (fun _ => [])) :=
  ⟨rfl, rfl,
    second_Index_is_cached (fun _ => none) (fun _ => []) (freshEnv steadyStorage)
      ((freshEnv steadyStorage).Index dbDotT).2 dbDotT dbDotT ⟨0, 5⟩ none rfl rfl⟩

theorem maxCreated_append (recent : List savedIndex) (r : savedIndex) :
    maxCreated (recent ++ [r]) = max (maxCreated recent) r.index.Created := by
  simp [maxCreated, List.foldl_append]

theorem load_modtime (f : fsEnv) (d t : String) (h : f.modtime = maxCreated f.recent) :
    (f.load d t).2.modtime = maxCreated (f.load d t).2.recent
      ∧ f.modtime ≤ (f.load d t).2.modtime := by
  unfold fsEnv.load
  split
  · exact ⟨h, le_refl _⟩
  · split
    · exact ⟨h, le_refl _⟩
    · rename_i index hopen
      simp only [maxCreated_append, ← h]
      constructor
      · split
        · rename_i hc
          rcases hc with hc | hc
          · rw [hc]; simp
          · exact (max_eq_right (le_of_lt hc)).symm
        · rename_i hc
          push_neg at hc
          exact (max_eq_left hc.2).symm
      · split
        · rename_i hc
          rcases hc with hc | hc
          · rw [hc]; exact Nat.zero_le _
          · exact le_of_lt hc
        · exact le_refl _

theorem load_first_time_modtime (f : fsEnv) (d t : String) (index : Index)
    (hmiss : f.recent.find? (fun r => decide (r.db = d ∧ r.table = t)) = none)
    (hopen : f.root.openPartialIndex f.opens.length d t f.tenantKey = .ok index) :
    (f.load d t).2.modtime = max f.modtime index.Created := by
  unfold fsEnv.load
  rw [hmiss]
  simp only [hopen]
  split
  · rename_i hc
    rcases hc with hc | hc
    · rw [hc]; simp
    · exact (max_eq_right (le_of_lt hc)).symm
  · rename_i hc
    push_neg at hc
    exact (max_eq_left hc.2).symm

theorem call_modtime (compileFilter : Node → Option filter) (f : fsEnv) (c : EnvCall)
    (h : f.modtime = maxCreated f.recent) :
    (f.call compileFilter c).modtime = maxCreated (f.call compileFilter c).recent
      ∧ f.modtime ≤ (f.call compileFilter c).modtime := by
  have hindex : ∀ e, (f.index e).2.modtime = maxCreated (f.index e).2.recent
      ∧ f.modtime ≤ (f.index e).2.modtime := by
    intro e
    unfold fsEnv.index
    split
    · exact ⟨h, le_refl _⟩
    · exact load_modtime f _ _ h
  cases c with
  | Index e => exact hindex e
  | Stat e whereE =>
    simp only [fsEnv.call, Stat_env]
    exact hindex e

theorem calls_modtime (compileFilter : Node → Option filter) (cs : List EnvCall) (f : fsEnv)
    (h : f.modtime = maxCreated f.recent) :
    (f.calls compileFilter cs).modtime = maxCreated (f.calls compileFilter cs).recent
      ∧ f.modtime ≤ (f.calls compileFilter cs).modtime := by
  induction cs generalizing f with
  | nil => exact ⟨h, le_refl _⟩
  | cons c cs ih =>
    have h1 := call_modtime compileFilter f c h
    have h2 := ih (f.call compileFilter c) h1.1
    exact ⟨h2.1, le_trans h1.2 h2.2⟩

/-- C16: on an env built by `environ`, after any sequence of `Index` and `Stat` calls the
modtime is the latest creation time among the indexes resolved so far, a first-time
successful resolution of an index created at `c` moves it to the later of the old modtime
and `c`, and no further call moves it back. -/
theorem modtime_is_latest_created (compileFilter : Node → Option filter)
    (tRoot : Except Error Root) (tKey dbname : String) (f : fsEnv) (cs : List EnvCall)
    (henv : environ tRoot tKey dbname = .ok f) :
    (f.calls compileFilter cs).modtime = maxCreated (f.calls compileFilter cs).recent
      ∧ (∀ d t index,
          (f.calls compileFilter cs).recent.find? (fun r => decide (r.db = d ∧ r.table = t)) = none →
          (f.calls compileFilter cs).root.openPartialIndex
              (f.calls compileFilter cs).opens.length d t (f.calls compileFilter cs).tenantKey
            = .ok index →
          ((f.calls compileFilter cs).load d t).2.modtime
            = max (f.calls compileFilter cs).modtime index.Created)
      ∧ (∀ more, (f.calls compileFilter cs).modtime
          ≤ ((f.calls compileFilter cs).calls compileFilter more).modtime) := by
  have hf : f.modtime = maxCreated f.recent := by
    unfold environ at henv
    split at henv
    · cases henv
    · cases henv
    · cases henv; rfl
  have h := calls_modtime compileFilter cs f hf
  refine ⟨h.1, ?_, ?_⟩
  · intro d t index hmiss hopen
    exact load_first_time_modtime _ d t index hmiss hopen
  · intro more
    exact (calls_modtime compileFilter more _ h.1).2

theorem modtime_is_latest_created_witness :
    environ (.ok (.fs steadyStorage)) "key" "" = .ok (freshEnv steadyStorage)
      ∧ ((freshEnv steadyStorage).calls (fun _ => none) [EnvCall.Index dbDotT]).modtime = 5
      ∧ ((freshEnv steadyStorage).calls (fun _ => none) [EnvCall.Index dbDotT]).modtime
        = maxCreated ((freshEnv steadyStorage).calls (fun _ => none)
            [EnvCall.Index dbDotT]).recent :=
  ⟨rfl, rfl,
    (modtime_is_latest_created (fun _ => none) (.ok (.fs steadyStorage)) "key" ""
      (freshEnv steadyStorage) [EnvCall.Index dbDotT] rfl).1⟩


/-! ### Mode selection and the empty input set -/

/-- C14 (as amended): multi-stream mode is selected exactly when there is more than one
input and the configured parallelism is not 1, that is, it is greater than 1 or it is zero
or negative (and `GOMAXPROCS` lanes are used); `Run` then dispatches to `runMulti`, and in
every other configuration with at least one input to `runSingle`. -/
theorem MultiStream_iff (w : World) (c : Converter) :
    (c.MultiStream = true ↔ c.Inputs.length > 1 ∧ (c.Parallel ≤ 0 ∨ c.Parallel > 1))
      ∧ (c.MultiStream = true ↔ c.Inputs.length > 1 ∧ c.Parallel ≠ 1)
      ∧ (c.MultiStream = true → c.Run w = c.runMulti w)
      ∧ (c.MultiStream = false → c.Inputs.length ≠ 0 → c.Run w = c.runSingle w) := by
  have h1 : c.MultiStream = true ↔ c.Inputs.length > 1 ∧ (c.Parallel ≤ 0 ∨ c.Parallel > 1) := by
    simp [Converter.MultiStream]
  refine ⟨h1, ?_, ?_, ?_⟩
  · rw [h1]
    constructor
    · rintro ⟨hl, hp⟩
      exact ⟨hl, by omega⟩
    · rintro ⟨hl, hp⟩
      exact ⟨hl, by omega⟩
  · intro hm
    have hl := (h1.mp hm).1
    have h0 : c.Inputs.length ≠ 0 := by omega
    simp [Converter.Run, h0, hm]
  · intro hm h0
    simp [Converter.Run, h0, hm]

/-- C14 (the claim fails): with two inputs and the parallelism left at zero, which is not
greater than 1, `MultiStream()` is true and `Run` dispatches to `runMulti`. -/
theorem MultiStream_with_default_parallelism :
    (twoInputConverter 0).Inputs.length = 2
      ∧ ¬ ((twoInputConverter 0).Parallel > 1)
      ∧ (twoInputConverter 0).MultiStream = true
      ∧ (twoInputConverter 0).Run quietWorld = (twoInputConverter 0).runMulti quietWorld := by
  refine ⟨rfl, by decide, by decide, ?_⟩
  rfl

theorem MultiStream_iff_witness :
    (twoInputConverter 4).MultiStream = true
      ∧ (twoInputConverter 4).Run quietWorld = (twoInputConverter 4).runMulti quietWorld
      ∧ (twoInputConverter 1).MultiStream = false
      ∧ (twoInputConverter 1).Run quietWorld = (twoInputConverter 1).runSingle quietWorld :=
  ⟨by decide,
    (MultiStream_iff quietWorld (twoInputConverter 4)).2.2.1 (by decide),
    by decide,
    (MultiStream_iff quietWorld (twoInputConverter 1)).2.2.2 (by decide) (by decide)⟩

/-- C19: on a converter with an empty list of inputs, with or without a prepend stream,
`Run` returns the error `no inputs or merge sources` and leaves the converter as it was,
so that `Trailer()` stays nil.  It returns before the branch that closes the Uploader: the
result is what the first test returns and is the same whatever the collaborators, the
Uploader among them, would answer. -/
theorem Run_no_inputs (w : World) (c : Converter) (hin : c.Inputs = [])
    (hfresh : c.trailer = none) :
    (c.Run w).1 = some (.fmtError "no inputs or merge sources")
      ∧ (c.Run w).2 = c
      ∧ (c.Run w).2.Trailer = none
      ∧ (∀ w2, c.Run w2 = c.Run w)
      ∧ ∀ err, c.Run { w with outputClose := err } = c.Run w := by
  have h : ∀ w3, c.Run w3 = (some (.fmtError "no inputs or merge sources"), c) := by
    intro w3
    simp [Converter.Run, hin]
  refine ⟨by rw [h], by rw [h], ?_, fun w2 => by rw [h, h], fun err => by rw [h, h]⟩
  rw [h]
  exact hfresh

theorem Run_no_inputs_witness :
    ({ oneInputConverter "zstd" with Inputs := [], Prepend := some ⟨none, 0⟩ } : Converter).Inputs = []
      ∧ ({ oneInputConverter "zstd" with Inputs := [], Prepend := some ⟨none, 0⟩ } : Converter).trailer
        = none
      ∧ (({ oneInputConverter "zstd" with Inputs := [], Prepend := some ⟨none, 0⟩ } : Converter).Run
          { quietWorld with outputClose := some (.external "closed") }).1
        = some (.fmtError "no inputs or merge sources")
      ∧ (({ oneInputConverter "zstd" with Inputs := [], Prepend := some ⟨none, 0⟩ } : Converter).Run
          { quietWorld with outputClose := some (.external "closed") }).2.Trailer = none :=
  ⟨rfl, rfl,
    (Run_no_inputs { quietWorld with outputClose := some (.external "closed") }
      ({ oneInputConverter "zstd" with Inputs := [], Prepend := some ⟨none, 0⟩ } : Converter)
      rfl rfl).1,
    (Run_no_inputs { quietWorld with outputClose := some (.external "closed") }
      ({ oneInputConverter "zstd" with Inputs := [], Prepend := some ⟨none, 0⟩ } : Converter)
      rfl rfl).2.2.1⟩


/-! ### The error recorded for an input -/

theorem Convert_order (j : jsonConverter) (cloudtrail rows : Option Error) :
    j.Convert cloudtrail rows
      = firstNonNil [j.openError, j.rowError cloudtrail rows, j.closeError] := by
  unfold jsonConverter.Convert jsonConverter.openError jsonConverter.closeError
    jsonConverter.rowError
  cases hd : j.decomp with
  | none =>
    simp only [firstNonNil]
    cases (if j.isCloudtrail = true then cloudtrail else rows) <;> rfl
  | some d =>
    cases d with
    | error err => rfl
    | ok closer =>
      simp only [firstNonNil]
      cases (if j.isCloudtrail = true then cloudtrail else rows) with
      | some e => rfl
      | none =>
        cases closer with
        | none => rfl
        | some ce => cases ce <;> rfl

theorem map_modify_of_eq {β : Type} (F : Input → β) (g : Input → Input)
    (hg : ∀ x, F (g x) = F x) (l : List Input) (i : Nat) :
    (l.modify g i).map F = l.map F := by
  induction l generalizing i with
  | nil => cases i <;> rfl
  | cons x xs ih =>
    cases i with
    | zero => simp [List.modify, List.modifyHead, hg]
    | succ i =>
      have := ih i
      simp only [List.modify_succ_cons, List.map_cons, this]

theorem map_Err_setErr (e : Error) (l : List Input) (i : Nat) :
    (l.modify (fun x => { x with Err := some e }) i).map Input.Err
      = (l.map Input.Err).set i (some e) := by
  induction l generalizing i with
  | nil => cases i <;> rfl
  | cons x xs ih =>
    cases i with
    | zero => simp [List.modify, List.modifyHead]
    | succ i =>
      have := ih i
      simp only [List.modify_succ_cons, List.map_cons, List.set_cons_succ, this]

theorem map_Err_failAt (i : Nat) (e : Error) (l : List Input) :
    (failAt i e l).map Input.Err = (l.map Input.Err).set i (some e) := by
  unfold failAt
  rw [map_Err_setErr, List.map_append, List.map_map]
  have hc : Input.Err ∘ Input.close = Input.Err := rfl
  rw [hc, ← List.map_append, List.take_append_drop]

theorem inputError_eq (x : Input) :
    (match x.convert with
      | some e => some e
      | none => x.rclose) = inputError x := by
  unfold inputError
  cases hc : x.convert with
  | none => cases hr : x.rclose <;> simp [firstNonNil]
  | some e => simp [firstNonNil]

/-- The main loop of `runSingle` stops at the first input whose error is not nil: it
returns nil and records nothing when every input from `i0` on is free of error, and
otherwise returns the error of the first such input and stores it in its `Err`. -/
theorem singleLoop_Err (disable : Bool) (n i0 : Nat) (st : SingleState)
    (h : i0 + n = st.Inputs.length) :
    ((singleLoop disable n i0 st).1 = none
        ∧ (singleLoop disable n i0 st).2.Inputs.map Input.Err = st.Inputs.map Input.Err
        ∧ ∀ k, i0 ≤ k → k < st.Inputs.length → (st.Inputs.map inputError)[k]? = some none)
      ∨ ∃ i e, i0 ≤ i ∧ (st.Inputs.map inputError)[i]? = some (some e)
        ∧ (∀ k, i0 ≤ k → k < i → (st.Inputs.map inputError)[k]? = some none)
        ∧ (singleLoop disable n i0 st).1 = some e
        ∧ (singleLoop disable n i0 st).2.Inputs.map Input.Err
          = (st.Inputs.map Input.Err).set i (some e) := by
  induction n generalizing i0 st with
  | zero =>
    left
    refine ⟨rfl, rfl, ?_⟩
    intro k hk hlt
    omega
  | succ n ih =>
    have hi : i0 < st.Inputs.length := by omega
    have hget : st.Inputs.get? i0 = some st.Inputs[i0] := by
      simp [List.getElem?_eq_getElem hi]
    have hE : (st.Inputs.map inputError)[i0]? = some (inputError st.Inputs[i0]) := by
      simp [List.getElem?_eq_getElem hi]
    rw [singleLoop]
    simp only [hget, inputError_eq]
    cases herr : inputError st.Inputs[i0] with
    | some e =>
      right
      refine ⟨i0, e, le_refl _, by rw [hE, herr], ?_, rfl, ?_⟩
      · intro k h1 h2; omega
      · simp only [map_Err_failAt, awaitAndPrefetch_Inputs]
        rw [map_modify_of_eq Input.Err Input.close (fun _ => rfl)]
    | none =>
      simp only
      have hlen : i0 + 1 + n = (List.modify Input.close i0 st.Inputs).length := by
        rw [List.length_modify]; omega
      have hm1 : (List.modify Input.close i0 st.Inputs).map Input.Err = st.Inputs.map Input.Err :=
        map_modify_of_eq Input.Err Input.close (fun _ => rfl) _ _
      have hm2 : (List.modify Input.close i0 st.Inputs).map inputError
          = st.Inputs.map inputError :=
        map_modify_of_eq inputError Input.close (fun _ => rfl) _ _
      have ih2 := ih (i0 + 1)
        { awaitAndPrefetch disable i0 st.Inputs[i0] st with
          Inputs := List.modify Input.close i0 (awaitAndPrefetch disable i0 st.Inputs[i0] st).Inputs }
        (by simp only [awaitAndPrefetch_Inputs]; exact hlen)
      simp only [awaitAndPrefetch_Inputs, hm1, hm2, List.length_modify] at ih2
      simp only [awaitAndPrefetch_Inputs]
      rcases ih2 with ⟨h1, h2, h3⟩ | ⟨i, e, h1, h2, h3, h4, h5⟩
      · left
        refine ⟨h1, h2, ?_⟩
        intro k hk hlt
        by_cases hk0 : k = i0
        · subst hk0; rw [hE, herr]
        · exact h3 k (by omega) hlt
      · right
        refine ⟨i, e, by omega, h2, ?_, h4, h5⟩
        intro k hk hlt
        by_cases hk0 : k = i0
        · subst hk0; rw [hE, herr]
        · exact h3 k (by omega) hlt

theorem runSingle_loop (w : World) (c : Converter)
    (hcomp : w.compression c.Comp = true) (halign : wrap64 (c.Align * 2) ≠ 0)
    (hpre : ∀ r, c.Prepend = some r → r.copy = none) :
    ((singleLoop c.DisablePrefetch c.Inputs.length 0
          ⟨List.replicate c.Inputs.length false, 1, 0, c.Inputs⟩).1 ≠ none →
        (c.runSingle w).1 = (singleLoop c.DisablePrefetch c.Inputs.length 0
          ⟨List.replicate c.Inputs.length false, 1, 0, c.Inputs⟩).1)
      ∧ (c.runSingle w).2.Inputs = (singleLoop c.DisablePrefetch c.Inputs.length 0
          ⟨List.replicate c.Inputs.length false, 1, 0, c.Inputs⟩).2.Inputs := by
  unfold Converter.runSingle
  simp only [hcomp, Bool.not_true, Bool.false_eq_true, if_false, halign]
  have hrun : c.runPrepend.1 = none ∧ c.runPrepend.2.Inputs = c.Inputs
      ∧ c.runPrepend.2.DisablePrefetch = c.DisablePrefetch := by
    unfold Converter.runPrepend
    cases hp : c.Prepend with
    | none => exact ⟨rfl, rfl, rfl⟩
    | some r => exact ⟨hpre r hp, rfl, rfl⟩
  obtain ⟨hr1, hr2, hr3⟩ := hrun
  cases hrp : c.runPrepend with
  | mk perr c1 =>
    rw [hrp] at hr1 hr2 hr3
    simp only at hr1 hr2 hr3
    subst hr1
    simp only [hr2, hr3]
    cases hsl : singleLoop c.DisablePrefetch c.Inputs.length 0
        ⟨List.replicate c.Inputs.length false, 1, 0, c.Inputs⟩ with
    | mk lerr st =>
      cases lerr with
      | some err => simp
      | none =>
        simp only [ne_eq, not_true_eq_false, false_implies, true_and]
        split <;> rfl

theorem firstNonNil_four (a b c d : Option Error) :
    firstNonNil [a, b, c, d] = firstNonNil [firstNonNil [a, b, c], d] := by
  cases a <;> cases b <;> cases c <;> cases d <;> rfl

/-- C20 (as amended): for an input with a JSON format that single-stream mode reaches
(every input before it is free of error), the error recorded is the first that is not nil
of the error of opening the decompressor, the row-conversion error, the `Close` error of
the decompressor and the `Close` error of the reader, in that order.  When there is one,
`Run` returns it and it is stored in `Inputs[i].Err`; when all four are nil, `Inputs[i].Err`
is left as it was. -/
theorem recorded_error_order (w : World) (c : Converter) (i : Nat) (x : Input)
    (j : jsonConverter) (cloudtrail rows : Option Error)
    (hsingle : c.MultiStream = false) (hcomp : w.compression c.Comp = true)
    (halign : wrap64 (c.Align * 2) ≠ 0) (hpre : ∀ r, c.Prepend = some r → r.copy = none)
    (hx : c.Inputs[i]? = some x) (hconv : x.convert = j.Convert cloudtrail rows)
    (hbefore : ∀ k y, k < i → c.Inputs[k]? = some y → inputError y = none) :
    j.Convert cloudtrail rows
        = firstNonNil [j.openError, j.rowError cloudtrail rows, j.closeError]
      ∧ match firstNonNil [j.openError, j.rowError cloudtrail rows, j.closeError, x.rclose] with
        | some e => (c.Run w).1 = some e
            ∧ ((c.Run w).2.Inputs[i]?).map Input.Err = some (some e)
        | none => ((c.Run w).2.Inputs[i]?).map Input.Err = some x.Err := by
  refine ⟨Convert_order j cloudtrail rows, ?_⟩
  have hilt : i < c.Inputs.length := by
    by_contra hge
    rw [List.getElem?_eq_none (by omega)] at hx
    cases hx
  have h0 : c.Inputs.length ≠ 0 := by omega
  have hRun : c.Run w = c.runSingle w := by
    simp [Converter.Run, h0, hsingle]
  have hfour : firstNonNil [j.openError, j.rowError cloudtrail rows, j.closeError, x.rclose]
      = inputError x := by
    rw [firstNonNil_four, ← Convert_order, ← hconv]
    rfl
  have hEi : (c.Inputs.map inputError)[i]? = some (inputError x) := by
    rw [List.getElem?_map, hx]; rfl
  have hErri : (c.Inputs.map Input.Err)[i]? = some x.Err := by
    rw [List.getElem?_map, hx]; rfl
  have hEk : ∀ k, k < i → (c.Inputs.map inputError)[k]? = some none := by
    intro k hk
    have hklt : k < c.Inputs.length := by omega
    rw [List.getElem?_map, List.getElem?_eq_getElem hklt]
    simp only [Option.map_some']
    rw [hbefore k c.Inputs[k] hk (List.getElem?_eq_getElem hklt)]
  obtain ⟨hl1, hl2⟩ := runSingle_loop w c hcomp halign hpre
  have hloop := singleLoop_Err c.DisablePrefetch c.Inputs.length 0
    ⟨List.replicate c.Inputs.length false, 1, 0, c.Inputs⟩ (by simp)
  simp only at hloop
  have hmapErr : ((c.Run w).2.Inputs[i]?).map Input.Err
      = ((c.Run w).2.Inputs.map Input.Err)[i]? := by
    rw [List.getElem?_map]
  rw [hfour, hmapErr, hRun, hl2]
  rcases hloop with ⟨h1, h2, h3⟩ | ⟨i2, e2, _, h2, h3, h4, h5⟩
  · have hnone := h3 i (Nat.zero_le _) hilt
    rw [hEi] at hnone
    rw [Option.some.inj hnone]
    simp only
    rw [h2, hErri]
  · by_cases hlt : i2 < i
    · have := hEk i2 hlt
      rw [h2] at this
      cases this
    · by_cases hgt : i < i2
      · have hnone := h3 i (Nat.zero_le _) hgt
        rw [hEi] at hnone
        rw [Option.some.inj hnone]
        simp only
        rw [h5, List.getElem?_set_ne (by omega), hErri]
      · have heq : i2 = i := by omega
        subst heq
        rw [hEi] at h2
        rw [Option.some.inj h2]
        simp only
        refine ⟨?_, ?_⟩
        · rw [hl1 (by rw [h4]; simp), h4]
        · rw [h5, List.getElem?_set_self (by simpa using hilt)]

/-- C20 (the claim fails): for a gzip JSON input whose decompressor fails to open, `Convert`
returns the error of opening it although the row-conversion error, the `Close` error of
the decompressor and the `Close` error of the reader are all nil, and `Run` returns that
error and stores it in `Inputs[0].Err`. -/
theorem open_error_is_recorded :
    badGzip.Convert none none = some (.sentinel "gzip" "ErrHeader")
      ∧ firstNonNil [badGzip.rowError none none, badGzip.closeError, none] = none
      ∧ (({ oneInputConverter "zstd" with
            Inputs := [{ plainInput "a.json.gz" 10 with convert := badGzip.Convert none none }] }
          : Converter).Run quietWorld).1 = some (.sentinel "gzip" "ErrHeader")
      ∧ (({ oneInputConverter "zstd" with
            Inputs := [{ plainInput "a.json.gz" 10 with convert := badGzip.Convert none none }] }
          : Converter).Run quietWorld).2.Inputs.map Input.Err
        = [some (.sentinel "gzip" "ErrHeader")] := by
  decide

theorem recorded_error_order_witness :
    ({ oneInputConverter "zstd" with
        Inputs := [{ plainInput "a.json.gz" 10 with
          convert := badChecksumGzip.Convert none none }] } : Converter).MultiStream = false
      ∧ quietWorld.compression "zstd" = true
      ∧ (({ oneInputConverter "zstd" with
            Inputs := [{ plainInput "a.json.gz" 10 with
              convert := badChecksumGzip.Convert none none }] } : Converter).Run quietWorld).1
        = some (.external "gzip: invalid checksum")
      ∧ ((({ oneInputConverter "zstd" with
            Inputs := [{ plainInput "a.json.gz" 10 with
              convert := badChecksumGzip.Convert none none }] }
          : Converter).Run quietWorld).2.Inputs[0]?).map Input.Err
        = some (some (.external "gzip: invalid checksum")) :=
  ⟨rfl, rfl,
    (recorded_error_order quietWorld
      ({ oneInputConverter "zstd" with
        Inputs := [{ plainInput "a.json.gz" 10 with
          convert := badChecksumGzip.Convert none none }] } : Converter)
      0 { plainInput "a.json.gz" 10 with convert := badChecksumGzip.Convert none none }
      badChecksumGzip none none rfl rfl (by decide) (by intro r h; cases h) rfl rfl
      (by intro k y hk; omega)).2⟩


/-! ### Parts dropped by the filter -/

theorem insert_ok (H : SipHash) (st st2 : SplitState) (b : Blob)
    (h : insert H st b = (none, st2)) :
    st2.blobs = st.blobs ++ [b] ∧ st2.s = st.s := by
  unfold insert at h
  split at h
  · cases h
  · split at h
    · cases h; exact ⟨rfl, rfl⟩
    · cases h

theorem scan_pos (pc : CompressedPart) (flt : Option filter) (scan : Int)
    (h : maxscan pc flt = .ok scan) (hne : scan ≠ 0)
    (hfit : decompressedSize pc.Parent.Trailer < 2 ^ 63) : 0 < scan := by
  have hr : pc.StartBlock ≤ pc.EndBlock ∧ pc.EndBlock ≤ pc.Parent.Trailer.Blocks.length := by
    by_contra hc
    simp only [maxscan, hc, if_false] at h
    cases h
  rw [maxscan_eq_scanSum pc flt hr.1 hr.2 hfit] at h
  cases h
  have : (0 : Int) ≤ ((scanSum pc.Parent.Trailer flt pc.StartBlock pc.EndBlock : Nat) : Int) :=
    Int.natCast_nonneg _
  omega

theorem splitParts_pool (H : SipHash) (flt : Option filter) (c : Compressed)
    (sub : List (Nat × Nat × Except Error Info)) (st st2 : SplitState)
    (h : splitParts H flt c sub st = (none, st2)) :
    ∀ b ∈ st2.blobs, b ∈ st.blobs
      ∨ ∃ pc scan, b = Blob.part pc ∧ pc.Parent = c ∧ maxscan pc flt = .ok scan ∧ scan ≠ 0 := by
  induction sub generalizing st with
  | nil =>
    simp only [splitParts] at h
    cases h
    intro b hb
    exact Or.inl hb
  | cons p rest ih =>
    obtain ⟨start, stop, pstat⟩ := p
    simp only [splitParts] at h
    split at h
    · cases h
    · rename_i scan hscan
      split at h
      · exact ih st h
      · rename_i hne
        split at h
        · cases h
        · rename_i st3 hins
          obtain ⟨hb3, _⟩ := insert_ok H _ st3 _ hins
          intro b hb
          rcases ih st3 h b hb with hb2 | hb2
          · rw [hb3] at hb2
            simp only [List.mem_append, List.mem_singleton] at hb2
            rcases hb2 with hb2 | hb2
            · exact Or.inl hb2
            · exact Or.inr ⟨⟨c, start, stop, pstat⟩, scan, hb2, rfl, hscan, hne⟩
          · exact Or.inr hb2

theorem splitBlobs_pool (H : SipHash) (size : Int) (flt : Option filter) (bs : List Blob)
    (st st2 : SplitState) (h : splitBlobs H size flt bs st = (none, st2)) :
    ∀ b ∈ st2.blobs, b ∈ st.blobs ∨ fromHandle flt bs b := by
  induction bs generalizing st with
  | nil =>
    simp only [splitBlobs] at h
    cases h
    intro b hb
    exact Or.inl hb
  | cons b0 rest ih =>
    have hmono : ∀ b, fromHandle flt rest b → fromHandle flt (b0 :: rest) b := by
      intro b hb
      rcases hb with ⟨h1, h2⟩ | ⟨pc, scan, h1, h2, h3⟩
      · exact Or.inl ⟨List.mem_cons_of_mem _ h1, h2⟩
      · exact Or.inr ⟨pc, scan, h1, List.mem_cons_of_mem _ h2, h3⟩
    simp only [splitBlobs] at h
    split at h
    · cases h
    · split at h
      · rename_i c hstat
        split at h
        · cases h
        · rename_i sub hsub
          split at h
          · cases h
          · rename_i st3 hparts
            intro b hb
            rcases ih st3 h b hb with hb2 | hb2
            · rcases splitParts_pool H flt c sub _ st3 hparts b hb2 with hb3 | hb3
              · exact Or.inl hb3
              · obtain ⟨pc, scan, h1, h2, h3, h4⟩ := hb3
                right
                right
                refine ⟨pc, scan, h1, ?_, h3, h4, fun hfit => scan_pos pc flt scan h3 h4 hfit⟩
                rw [h2]
                exact List.mem_cons_self _ _
            · exact Or.inr (hmono b hb2)
      · rename_i hnc
        split at h
        · cases h
        · rename_i st3 hins
          obtain ⟨hb3, _⟩ := insert_ok H st st3 b0 hins
          intro b hb
          rcases ih _ h b hb with hb2 | hb2
          · simp only at hb2
            rw [hb3] at hb2
            simp only [List.mem_append, List.mem_singleton] at hb2
            rcases hb2 with hb2 | hb2
            · exact Or.inl hb2
            · subst hb2
              right
              left
              refine ⟨List.mem_cons_self _ _, ?_⟩
              intro c hc
              exact hnc c hc
          · exact Or.inr (hmono b hb2)

theorem maxscan_never (pc : CompressedPart) (g : filter) (hg : ∀ sparse i, g sparse i = ternary.never)
    (hs : pc.StartBlock ≤ pc.EndBlock) (he : pc.EndBlock ≤ pc.Parent.Trailer.Blocks.length) :
    maxscan pc (some g) = .ok 0 := by
  unfold maxscan
  simp only [hs, he, and_self, if_true]
  apply congrArg Except.ok
  generalize ((pc.Parent.Trailer.Blocks.take pc.EndBlock).drop pc.StartBlock).length = n
  induction n with
  | zero => rfl
  | succ n ih =>
    rw [List.range_succ, List.foldl_append, ih]
    simp [scanned, hg]

theorem splitParts_never (H : SipHash) (g : filter) (hg : ∀ sparse i, g sparse i = ternary.never)
    (c : Compressed) (sub : List (Nat × Nat × Except Error Info)) (st : SplitState)
    (hsub : ∀ p ∈ sub, p.1 ≤ p.2.1 ∧ p.2.1 ≤ c.Trailer.Blocks.length) :
    splitParts H (some g) c sub st = (none, st) := by
  induction sub with
  | nil => rfl
  | cons p rest ih =>
    obtain ⟨start, stop, pstat⟩ := p
    have hp := hsub (start, stop, pstat) (List.mem_cons_self _ _)
    simp only [splitParts]
    rw [maxscan_never ⟨c, start, stop, pstat⟩ g hg hp.1 hp.2]
    simp only [if_true]
    exact ih (fun q hq => hsub q (List.mem_cons_of_mem _ hq))

theorem splitBlobs_never (H : SipHash) (size : Int) (g : filter)
    (hg : ∀ sparse i, g sparse i = ternary.never) (bs : List Blob) (st : SplitState)
    (hall : ∀ b ∈ bs, ∃ c info parts, b = Blob.compressed c ∧ c.stat = .ok info
      ∧ c.split size = .ok parts
      ∧ ∀ p ∈ parts, p.1 ≤ p.2.1 ∧ p.2.1 ≤ c.Trailer.Blocks.length) :
    ∃ st2, splitBlobs H size (some g) bs st = (none, st2)
      ∧ st2.splits = st.splits ∧ st2.blobs = st.blobs ∧ st2.s.maxscan = st.s.maxscan := by
  induction bs generalizing st with
  | nil => exact ⟨st, rfl, rfl, rfl, rfl⟩
  | cons b rest ih =>
    obtain ⟨c, info, parts, hb, hstat, hsplit, hparts⟩ := hall b (List.mem_cons_self _ _)
    subst hb
    simp only [splitBlobs, Blob.Stat, hstat, hsplit]
    rw [splitParts_never H g hg c parts _ hparts]
    simp only
    obtain ⟨st2, h1, h2, h3, h4⟩ := ih
      { st with s := { st.s with total := wrap64 (st.s.total + c.Trailer.Decompressed) } }
      (fun b2 hb2 => hall b2 (List.mem_cons_of_mem _ hb2))
    exact ⟨st2, h1, h2, h3, h4⟩

theorem mapM_transport (s : splitter) (l : List Nat) (hl : ∀ i ∈ l, i < s.peers.length) :
    ∃ out, l.mapM (fun i => do
        let tp ← s.transport i
        pure (⟨tp, []⟩ : split)) = (.ok out : Except Error (List split))
      ∧ ∀ sp ∈ out, sp.blobs = [] := by
  induction l with
  | nil => exact ⟨[], rfl, fun sp hsp => by cases hsp⟩
  | cons i rest ih =>
    obtain ⟨out, h1, h2⟩ := ih (fun k hk => hl k (List.mem_cons_of_mem _ hk))
    have hi := hl i (List.mem_cons_self _ _)
    have htp : ∃ tp, s.transport i = .ok tp := by
      unfold splitter.transport
      rw [List.get?_eq_getElem?, List.getElem?_eq_getElem hi]
      simp only
      split
      · exact ⟨_, rfl⟩
      · exact ⟨_, rfl⟩
    obtain ⟨tp, htp⟩ := htp
    refine ⟨⟨tp, []⟩ :: out, ?_, ?_⟩
    · rw [List.mapM_cons, htp, h1]
      rfl
    · intro sp hsp
      simp only [List.mem_cons] at hsp
      rcases hsp with hsp | hsp
      · rw [hsp]
      · exact h2 sp hsp

theorem initSplits_ok (s : splitter) :
    ∃ out, initSplits s = .ok out ∧ ∀ sp ∈ out, sp.blobs = [] := by
  unfold initSplits
  exact mapM_transport s (List.range s.peers.length) (fun i hi => List.mem_range.mp hi)

theorem compact_all_empty (splits : List split) (h : ∀ sp ∈ splits, sp.blobs = []) :
    compact splits = [] := by
  unfold compact
  rw [compact_foldl, List.nil_append, List.filter_eq_nil_iff]
  intro sp hsp
  simp [h sp hsp]

/-- C17 (as amended): `Split` never assigns a part that it cut from a compressed blob of
the handle and whose scan size under the filter of the handle is 0.  Every blob of the
returned pool is a blob of the handle that is not a `*blob.Compressed`, inserted whole, or
a part of a compressed blob of the handle whose `maxscan` is not zero, and is positive
when the decompressed size of the blob fits an `int64`.  For a handle whose blobs are all
compressed, with `Stat` and `Split` of every blob succeeding and the parts within the
block list, and whose filter answers `never` for every block, `Split` returns subtables
with no splits and an empty pool and leaves the `maxscan` counter as it was. -/
theorem Split_drops_unscanned_parts (H : SipHash) (compileFilter : Node → Option filter)
    (s : splitter) (table : Node) (fh : filterHandle) :
    (∀ st, (s.Split H compileFilter table (.filterHandle fh)).1 = .ok st →
        ∀ b ∈ st.blobs, fromHandle (effectiveFilter compileFilter fh) fh.blobs b)
      ∧ ∀ g, effectiveFilter compileFilter fh = some g →
        (∀ sparse i, g sparse i = ternary.never) →
        (∀ b ∈ fh.blobs, ∃ c info parts, b = Blob.compressed c ∧ c.stat = .ok info
          ∧ c.split (effectiveSize s) = .ok parts
          ∧ ∀ p ∈ parts, p.1 ≤ p.2.1 ∧ p.2.1 ≤ c.Trailer.Blocks.length) →
        (s.Split H compileFilter table (.filterHandle fh)).1
            = .ok (subtables.mk [] table [] none none thfn)
          ∧ (subtables.mk [] table [] none none thfn).Len = 0
          ∧ (s.Split H compileFilter table (.filterHandle fh)).2.maxscan = s.maxscan := by
  obtain ⟨splits, hinit, hempty⟩ := initSplits_ok s
  constructor
  · intro st hst
    rw [Split_eq, hinit] at hst
    simp only at hst
    split at hst
    · cases hst
    · rename_i st2 hsb
      cases hst
      intro b hb
      rcases splitBlobs_pool H _ _ fh.blobs _ st2 hsb b hb with hb2 | hb2
      · cases hb2
      · exact hb2
  · intro g hflt hg hall
    obtain ⟨st2, h1, h2, h3, h4⟩ := splitBlobs_never H (effectiveSize s) g hg fh.blobs
      ⟨s, splits, []⟩ hall
    rw [Split_eq, hinit, hflt]
    simp only [h1, h2, h3, h4]
    rw [compact_all_empty splits hempty]
    exact ⟨rfl, rfl, trivial⟩

/-- C17 (the claim fails): a `CompressedPart` handed to `Split` in the blob list of the
handle is inserted whole although its scan size under the filter is 0, and the part of a
blob with one block of one chunk and block shift 63 is inserted with the scan size
`-2^63`, which is not positive. -/
theorem Split_keeps_unscanned_part :
    (soloSplitter.Split (fun _ _ _ => 0) (fun _ => none) (Node.other "db.t")
        (.filterHandle ⟨none, some neverFilter,
          [Blob.part ⟨twoBlockBlob, 0, 1, .ok ⟨1, "two-0-1"⟩⟩]⟩)).1
        = .ok (subtables.mk [⟨.LocalTransport, [0]⟩] (Node.other "db.t")
            [Blob.part ⟨twoBlockBlob, 0, 1, .ok ⟨1, "two-0-1"⟩⟩] none none thfn)
      ∧ maxscan ⟨twoBlockBlob, 0, 1, .ok ⟨1, "two-0-1"⟩⟩ (some neverFilter) = .ok 0
      ∧ (soloSplitter.Split (fun _ _ _ => 0) (fun _ => none) (Node.other "db.t")
          (.filterHandle ⟨none, none, [Blob.compressed hugeShiftBlob]⟩)).1
        = .ok (subtables.mk [⟨.LocalTransport, [0]⟩] (Node.other "db.t")
            [Blob.part ⟨hugeShiftBlob, 0, 1, .ok ⟨1, "huge-0-1"⟩⟩] none none thfn)
      ∧ maxscan ⟨hugeShiftBlob, 0, 1, .ok ⟨1, "huge-0-1"⟩⟩ none = .ok (-(2 ^ 63)) := by
  refine ⟨?_, ?_, ?_, ?_⟩ <;> rfl

theorem Split_drops_unscanned_parts_witness :
    effectiveFilter (fun _ => none) ⟨none, some neverFilter, [Blob.compressed twoBlockBlob]⟩
        = some neverFilter
      ∧ (soloSplitter.Split (fun _ _ _ => 0) (fun _ => none) (Node.other "db.t")
          (.filterHandle ⟨none, some neverFilter, [Blob.compressed twoBlockBlob]⟩)).1
        = .ok (subtables.mk [] (Node.other "db.t") [] none none thfn)
      ∧ (subtables.mk [] (Node.other "db.t") [] none none thfn).Len = 0
      ∧ (soloSplitter.Split (fun _ _ _ => 0) (fun _ => none) (Node.other "db.t")
          (.filterHandle ⟨none, some neverFilter, [Blob.compressed twoBlockBlob]⟩)).2.maxscan
        = soloSplitter.maxscan :=
  ⟨rfl,
    (Split_drops_unscanned_parts (fun _ _ _ => 0) (fun _ => none) soloSplitter (Node.other "db.t")
      ⟨none, some neverFilter, [Blob.compressed twoBlockBlob]⟩).2 neverFilter rfl
      (fun _ _ => rfl)
      (by
        intro b hb
        simp only [List.mem_singleton] at hb
        subst hb
        refine ⟨twoBlockBlob, ⟨3145728, "two"⟩,
          [(0, 1, .ok ⟨1, "two-0-1"⟩), (1, 2, .ok ⟨2, "two-1-2"⟩)], rfl, rfl, rfl, ?_⟩
        intro p hp
        simp only [List.mem_cons, List.mem_singleton, List.not_mem_nil, or_false] at hp
        rcases hp with hp | hp <;> subst hp <;> decide)⟩

/-! ### Failed resolutions -/

theorem load_error_sameCaches (f : fsEnv) (d t : String) (err : Error)
    (h : (f.load d t).1 = .error err) : sameCaches (f.load d t).2 f := by
  unfold fsEnv.load at h ⊢
  cases hfind : f.recent.find? (fun r => r.db = d ∧ r.table = t) with
  | some r => exact ⟨rfl, rfl, rfl, rfl⟩
  | none =>
    cases hopen : f.root.openPartialIndex f.opens.length d t f.tenantKey with
    | error err2 => exact ⟨rfl, rfl, rfl, rfl⟩
    | ok index =>
      simp only [hfind, hopen] at h
      cases h

theorem index_error_sameCaches (f : fsEnv) (e : Node) (err : Error)
    (h : (f.index e).1 = .error err) : sameCaches (f.index e).2 f := by
  unfold fsEnv.index at h ⊢
  split
  · exact ⟨rfl, rfl, rfl, rfl⟩
  · rename_i d t hres
    simp only [hres] at h
    exact load_error_sameCaches f d t err h

theorem index_error_kind (f : fsEnv) (e : Node) (err : Error)
    (h : (f.index e).1 = .error err) :
    f.resolve e = .error err
      ∨ ∃ d t, f.resolve e = .ok (d, t)
          ∧ f.root.openPartialIndex f.opens.length d t f.tenantKey = .error err := by
  unfold fsEnv.index at h
  split at h
  · rename_i err2 hres
    simp only [Except.error.injEq] at h
    subst h
    exact Or.inl hres
  · rename_i d t hres
    refine Or.inr ⟨d, t, hres, ?_⟩
    unfold fsEnv.load at h
    split at h
    · cases h
    · split at h
      · rename_i err2 hopen
        simp only [Except.error.injEq] at h
        subst h
        exact hopen
      · cases h

theorem Stat_cases (compileFilter : Node → Option filter) (f : fsEnv) (e : Node)
    (whereE : Option Node) :
    (∃ err, (f.index e).1 = .error err ∧ (f.Stat compileFilter e whereE).1 = .error err)
      ∨ ∃ index, (f.index e).1 = .ok index
          ∧ (f.Stat compileFilter e whereE).1
            = ((f.index e).2.root.blobs index (keepOf compileFilter whereE)).map
                (fun blobs => TableHandle.filterHandle ⟨whereE, whereE.bind compileFilter, blobs⟩) := by
  unfold fsEnv.Stat keepOf
  rcases hidx : f.index e with ⟨r, f1⟩
  cases r with
  | error err => exact Or.inl ⟨err, rfl, rfl⟩
  | ok index =>
    refine Or.inr ⟨index, rfl, ?_⟩
    simp only
    cases f1.root.blobs index (Option.map (fun m => fun s n => m s n != ternary.never)
      (whereE.bind compileFilter)) <;> rfl

theorem load_miss_ok (f : fsEnv) (d t : String) (index : Index)
    (hmiss : f.recent.find? (fun r => r.db = d ∧ r.table = t) = none)
    (h : (f.load d t).1 = .ok index) :
    (f.load d t).2.recent = f.recent ++ [⟨d, t, index⟩]
      ∧ (f.load d t).2.hash = f.hash ++ [HashWrite.joined d t, HashWrite.created index.Created]
      ∧ (f.load d t).2.lists = f.lists := by
  unfold fsEnv.load at h ⊢
  simp only [hmiss] at h ⊢
  split
  · rename_i err hopen
    simp only [hopen] at h
    cases h
  · rename_i index2 hopen
    simp only [hopen, Except.ok.injEq] at h
    subst h
    exact ⟨rfl, rfl, rfl⟩

/-- C25 (amended): a resolution that fails leaves the memo tables, the writes absorbed by
the fingerprint hash and the modification time of the env as they were, for `index` (where
the error is the syntax error of the reference or the error of the index request) and for
`ListTables`; a `Stat` that fails because `index` fails leaves them as they were as well,
and a `Stat` that fails in the blob listing after `index` succeeded leaves the env as that
`index` call left it: with the index memoised and its two writes absorbed when it was
loaded by this call. -/
theorem failed_resolution_keeps_caches (compileFilter : Node → Option filter) (f : fsEnv)
    (e : Node) (whereE : Option Node) (dbname : String) :
    (∀ err, (f.index e).1 = .error err →
        sameCaches (f.index e).2 f
          ∧ (f.resolve e = .error err
            ∨ ∃ d t, f.resolve e = .ok (d, t)
                ∧ f.root.openPartialIndex f.opens.length d t f.tenantKey = .error err))
      ∧ (∀ err, (f.ListTables dbname).1 = .error err → (f.ListTables dbname).2 = f)
      ∧ (∀ err, (f.Stat compileFilter e whereE).1 = .error err →
          ((f.index e).1 = .error err ∧ sameCaches (f.Stat compileFilter e whereE).2 f)
            ∨ ∃ index, (f.index e).1 = .ok index
                ∧ (f.index e).2.root.blobs index (keepOf compileFilter whereE) = .error err
                ∧ (f.Stat compileFilter e whereE).2 = (f.index e).2
                ∧ ∀ d t, f.resolve e = .ok (d, t) →
                    f.recent.find? (fun r => r.db = d ∧ r.table = t) = none →
                    (f.Stat compileFilter e whereE).2.recent = f.recent ++ [⟨d, t, index⟩]
                      ∧ (f.Stat compileFilter e whereE).2.hash
                        = f.hash ++ [HashWrite.joined d t, HashWrite.created index.Created]
                      ∧ (f.Stat compileFilter e whereE).2.lists = f.lists) := by
  refine ⟨fun err h => ⟨index_error_sameCaches f e err h, index_error_kind f e err h⟩, ?_, ?_⟩
  · intro err h
    unfold fsEnv.ListTables at h ⊢
    simp only at h ⊢
    cases hfind : f.lists.find? (fun l => l.db = if dbname = "" then f.db else dbname) with
    | some l => rfl
    | none =>
      cases hl : f.root.listTables (if dbname = "" then f.db else dbname) with
      | error err2 => rfl
      | ok li =>
        simp only [hfind, hl] at h
        cases h
  · intro err h
    rw [Stat_env]
    rcases Stat_cases compileFilter f e whereE with ⟨err2, hi, hs⟩ | ⟨index, hi, hs⟩
    · rw [hs] at h
      simp only [Except.error.injEq] at h
      subst h
      exact Or.inl ⟨hi, index_error_sameCaches f e err2 hi⟩
    · refine Or.inr ⟨index, hi, ?_, rfl, ?_⟩
      · rw [hs] at h
        cases hb : (f.index e).2.root.blobs index (keepOf compileFilter whereE) with
        | error err2 =>
          rw [hb] at h
          simp only [Except.map, Except.error.injEq] at h
          rw [h]
        | ok blobs =>
          rw [hb] at h
          cases h
      · intro d t hres hmiss
        have hidx : f.index e = f.load d t := by
          unfold fsEnv.index
          rw [hres]
        rw [hidx] at hi ⊢
        exact load_miss_ok f d t index hmiss hi

/-- C25 (counterexample): on a fresh env over a storage layer whose index request succeeds
and whose blob listing fails, `Stat` of `db.t` returns the error of the blob listing and
leaves the index memoised, its two writes absorbed by the hash and the modification time
set to the creation time of the index. -/
theorem failed_Stat_changes_env :
    ((freshEnv blobsFailStorage).Stat (fun _ => none) dbDotT none).1.toOption.isNone = true
      ∧ (freshEnv blobsFailStorage).recent = []
      ∧ ((freshEnv blobsFailStorage).Stat (fun _ => none) dbDotT none).2.recent
        = [⟨"db", "t", ⟨0, 5⟩⟩]
      ∧ ((freshEnv blobsFailStorage).Stat (fun _ => none) dbDotT none).2.hash
        = [HashWrite.joined "db" "t", HashWrite.created 5]
      ∧ (freshEnv blobsFailStorage).modtime = 0
      ∧ ((freshEnv blobsFailStorage).Stat (fun _ => none) dbDotT none).2.modtime = 5 := by
  refine ⟨?_, ?_, ?_, ?_, ?_, ?_⟩ <;> rfl

theorem failed_resolution_keeps_caches_witness :
    ((freshEnv failingStorage).index dbDotT).1 = .error (.external "index not found")
      ∧ sameCaches ((freshEnv failingStorage).index dbDotT).2 (freshEnv failingStorage) :=
  ⟨rfl, ((failed_resolution_keeps_caches (fun _ => none) (freshEnv failingStorage) dbDotT none
    "db").1 (.external "index not found") rfl).1⟩

/-! ### A scan size of zero -/

theorem rangeSum_eq_zero (g : Nat → Nat) (a b : Nat) :
    rangeSum g a b = 0 ↔ ∀ i, a ≤ i → i < b → g i = 0 := by
  unfold rangeSum
  rw [List.sum_eq_zero_iff]
  constructor
  · intro h i hi1 hi2
    have h2 := h (g (a + (i - a))) (List.mem_map.mpr ⟨i - a, List.mem_range.mpr (by omega), rfl⟩)
    have h3 : a + (i - a) = i := by omega
    rw [h3] at h2
    exact h2
  · intro h x hx
    obtain ⟨k, hk, rfl⟩ := List.mem_map.mp hx
    have hk2 := List.mem_range.mp hk
    exact h _ (by omega) (by omega)

theorem keptBytes_eq_zero (t : Trailer) (f : Option filter) (i : Nat) :
    keptBytes t f i = 0 ↔
      ((t.Blocks.getD i ⟨0, 0⟩).Chunks ≠ 0 →
        ∃ g, f = some g ∧ g t.Sparse (i : Int) = ternary.never) := by
  unfold keptBytes blockBytes scanned
  have hpow : (2 : Nat) ^ t.BlockShift ≠ 0 := by positivity
  cases f with
  | none =>
    simp only [if_true, Nat.mul_eq_zero, hpow, or_false, false_and, exists_false,
      ne_eq, imp_false, not_not, reduceCtorEq]
  | some g =>
    simp only [Option.some.injEq, exists_eq_left', ne_eq]
    by_cases hg : g t.Sparse (i : Int) = ternary.never
    · simp [hg]
    · simp [hg, hpow]

/-- What a scan size of zero says: for a part whose block range lies within the block list
of a blob whose decompressed size fits an `int64`, `maxscan` returns 0 exactly when every
block of the range that holds at least one chunk is eliminated by the filter, that is, the
filter is present and answers `never` for it; so when `maxscan` returns 0 and some block of
the range holds a chunk, the filter is present. -/
theorem maxscan_zero_iff (pc : CompressedPart) (f : Option filter)
    (hs : pc.StartBlock ≤ pc.EndBlock) (he : pc.EndBlock ≤ pc.Parent.Trailer.Blocks.length)
    (hfit : decompressedSize pc.Parent.Trailer < 2 ^ 63) :
    (maxscan pc f = .ok 0 ↔
        ∀ i, pc.StartBlock ≤ i → i < pc.EndBlock →
          (pc.Parent.Trailer.Blocks.getD i ⟨0, 0⟩).Chunks ≠ 0 →
          ∃ g, f = some g ∧ g pc.Parent.Trailer.Sparse (i : Int) = ternary.never)
      ∧ (maxscan pc f = .ok 0 →
          (∃ i, pc.StartBlock ≤ i ∧ i < pc.EndBlock
            ∧ (pc.Parent.Trailer.Blocks.getD i ⟨0, 0⟩).Chunks ≠ 0) →
          ∃ g, f = some g) := by
  have hiff : maxscan pc f = .ok 0 ↔
      ∀ i, pc.StartBlock ≤ i → i < pc.EndBlock →
        (pc.Parent.Trailer.Blocks.getD i ⟨0, 0⟩).Chunks ≠ 0 →
        ∃ g, f = some g ∧ g pc.Parent.Trailer.Sparse (i : Int) = ternary.never := by
    rw [maxscan_eq_scanSum pc f hs he hfit]
    simp only [Except.ok.injEq, Nat.cast_eq_zero]
    unfold scanSum
    rw [rangeSum_eq_zero]
    constructor
    · intro h i h1 h2
      exact (keptBytes_eq_zero _ f i).mp (h i h1 h2)
    · intro h i h1 h2
      exact (keptBytes_eq_zero _ f i).mpr (h i h1 h2)
  refine ⟨hiff, ?_⟩
  intro h0 ⟨i, h1, h2, h3⟩
  obtain ⟨g, hg, _⟩ := hiff.mp h0 i h1 h2 h3
  exact ⟨g, hg⟩

/-- C22 (the code breaks the claim): `maxscan` returns 0 although no filter excludes the
part: without a filter for a part with an empty block range, and for a part whose only
block holds no chunk both without a filter and with a filter that answers `always` for
every block. -/
theorem maxscan_zero_without_exclusion :
    maxscan ⟨twoBlockBlob, 1, 1, .ok ⟨0, "two-1-1"⟩⟩ none = .ok 0
      ∧ maxscan ⟨zeroChunkBlob, 0, 1, .ok ⟨0, "zero-0-1"⟩⟩ none = .ok 0
      ∧ maxscan ⟨zeroChunkBlob, 0, 1, .ok ⟨0, "zero-0-1"⟩⟩ (some alwaysFilter) = .ok 0
      ∧ alwaysFilter zeroChunkBlob.Trailer.Sparse 0 ≠ ternary.never := by
  refine ⟨?_, ?_, ?_, by decide⟩ <;> rfl

theorem maxscan_zero_iff_witness :
    maxscan ⟨twoBlockBlob, 0, 2, .ok ⟨3, "two-0-2"⟩⟩ (some neverFilter) = .ok 0 ↔
      ∀ i : Nat, 0 ≤ i → i < 2 → (twoBlockBlob.Trailer.Blocks.getD i ⟨0, 0⟩).Chunks ≠ 0 →
        ∃ g, some neverFilter = some g ∧ g twoBlockBlob.Trailer.Sparse (i : Int) = ternary.never :=
  (maxscan_zero_iff ⟨twoBlockBlob, 0, 2, .ok ⟨3, "two-0-2"⟩⟩ (some neverFilter)
    (by decide) (by decide) (by decide)).1

/-! ### Sub-table lookup -/

theorem mapM_pick (pool : List Blob) : ∀ (idx : List Int),
    (∀ bi ∈ idx, 0 ≤ bi ∧ bi < (pool.length : Int)) →
    ∃ picked, idx.mapM (fun bi => if 0 ≤ bi then pool.get? bi.toNat else none) = some picked
      ∧ List.Forall₂ (fun b bi => pool.get? (Int.toNat bi) = some b) picked idx
  | [], _ => ⟨[], rfl, List.Forall₂.nil⟩
  | bi :: rest, h => by
    obtain ⟨picked, hp, hf⟩ := mapM_pick pool rest (fun x hx => h x (List.mem_cons_of_mem _ hx))
    have hb := h bi (List.mem_cons_self _ _)
    have hlt : bi.toNat < pool.length := by omega
    refine ⟨pool.get ⟨bi.toNat, hlt⟩ :: picked, ?_, ?_⟩
    · simp only [List.mapM_cons, hb.1, if_true, hp, List.get?_eq_get hlt]
      rfl
    · exact List.Forall₂.cons (List.get?_eq_get hlt) hf

theorem subtableOf_ok (splits : List split) (table : Node) (blobs : List Blob)
    (filter : Option Node) (fn : tableHandleFn) (i : Nat) (sp : split)
    (hsp : splits.get? i = some sp)
    (hv : ∀ bi ∈ sp.blobs, 0 ≤ bi ∧ bi < (blobs.length : Int)) :
    ∃ sub picked, subtableOf splits table blobs filter fn (i : Int) = .ok sub
      ∧ sub.Transport = sp.tp ∧ sub.Table = (table, "part." ++ toString (i : Int))
      ∧ sub.Handle = fn picked filter
      ∧ List.Forall₂ (fun b bi => blobs.get? (Int.toNat bi) = some b) picked sp.blobs := by
  obtain ⟨picked, hp, hf⟩ := mapM_pick blobs sp.blobs hv
  refine ⟨⟨sp.tp, (table, "part." ++ toString (i : Int)), fn picked filter⟩, picked, ?_, rfl, rfl,
    rfl, hf⟩
  unfold subtableOf
  simp only [Int.natCast_nonneg, if_true, Int.toNat_ofNat, hsp, hp]

theorem entries_cons (splits : List split) (table : Node) (blobs : List Blob)
    (filter : Option Node) (n : subtables) (fn : tableHandleFn) :
    (subtables.mk splits table blobs filter (some n) fn).entries
      = splits.map (fun sp => ((⟨splits, table, blobs, filter, fn⟩ : Link), sp)) ++ n.entries := by
  simp only [subtables.entries, subtables.links, List.flatMap_cons]

theorem entries_last (splits : List split) (table : Node) (blobs : List Blob)
    (filter : Option Node) (fn : tableHandleFn) :
    (subtables.mk splits table blobs filter none fn).entries
      = splits.map (fun sp => ((⟨splits, table, blobs, filter, fn⟩ : Link), sp)) := by
  simp only [subtables.entries, subtables.links, List.flatMap_cons, List.flatMap_nil,
    List.append_nil]

theorem entries_length : ∀ (s : subtables), s.entries.length = s.Len
  | .mk splits table blobs filter none fn => by
    rw [entries_last]
    simp only [List.length_map, subtables.Len]
  | .mk splits table blobs filter (some n) fn => by
    rw [entries_cons]
    simp only [List.length_append, List.length_map, subtables.Len, entries_length n]

theorem Subtable_entry : ∀ (s : subtables), validIndices s → ∀ (i : Nat) (l : Link) (sp : split),
    s.entries.get? i = some (l, sp) →
    ∃ sub picked, s.Subtable (i : Int) = .ok sub
      ∧ sub.Transport = sp.tp ∧ sub.Table.1 = l.table ∧ sub.Handle = l.fn picked l.filter
      ∧ List.Forall₂ (fun b bi => l.blobs.get? (Int.toNat bi) = some b) picked sp.blobs
  | .mk splits table blobs filter none fn, hv, i, l, sp, h => by
    rw [entries_last] at h
    simp only [List.get?_eq_getElem?, List.getElem?_map, Option.map_eq_some',
      Prod.mk.injEq] at h
    obtain ⟨sp2, hsp, hl, hsp2⟩ := h
    subst hl hsp2
    have hv2 : ∀ bi ∈ sp2.blobs, 0 ≤ bi ∧ bi < (blobs.length : Int) :=
      hv ⟨splits, table, blobs, filter, fn⟩ (by simp [subtables.links]) sp2
        (List.getElem?_mem hsp)
    obtain ⟨sub, picked, h1, h2, h3, h4, h5⟩ :=
      subtableOf_ok splits table blobs filter fn i sp2 (by simpa using hsp) hv2
    refine ⟨sub, picked, ?_, h2, ?_, h4, h5⟩
    · simp only [subtables.Subtable]
      exact h1
    · rw [h3]
  | .mk splits table blobs filter (some n) fn, hv, i, l, sp, h => by
    rw [entries_cons] at h
    by_cases hi : i < splits.length
    · rw [List.get?_eq_getElem?, List.getElem?_append_left (by simpa using hi)] at h
      simp only [List.getElem?_map, Option.map_eq_some', Prod.mk.injEq] at h
      obtain ⟨sp2, hsp, hl, hsp2⟩ := h
      subst hl hsp2
      have hv2 : ∀ bi ∈ sp2.blobs, 0 ≤ bi ∧ bi < (blobs.length : Int) :=
        hv ⟨splits, table, blobs, filter, fn⟩ (by simp [subtables.links]) sp2
          (List.getElem?_mem hsp)
      obtain ⟨sub, picked, h1, h2, h3, h4, h5⟩ :=
        subtableOf_ok splits table blobs filter fn i sp2 (by simpa using hsp) hv2
      refine ⟨sub, picked, ?_, h2, ?_, h4, h5⟩
      · have hlt : ¬ ((i : Int) ≥ (splits.length : Int)) := by omega
        simp only [subtables.Subtable, hlt, if_false]
        exact h1
      · rw [h3]
    · have hge : splits.length ≤ i := by omega
      rw [List.get?_eq_getElem?, List.getElem?_append_right (by simpa using hge)] at h
      simp only [List.length_map] at h
      have hvn : validIndices n := by
        intro l2 hl2
        exact hv l2 (by simp [subtables.links, hl2])
      obtain ⟨sub, picked, h1, h2, h3, h4, h5⟩ :=
        Subtable_entry n hvn (i - splits.length) l sp (by simpa using h)
      refine ⟨sub, picked, ?_, h2, h3, h4, h5⟩
      have hge2 : (i : Int) ≥ (splits.length : Int) := by omega
      simp only [subtables.Subtable, hge2, if_true]
      have hcast : (i : Int) - (splits.length : Int) = ((i - splits.length : Nat) : Int) := by
        omega
      rw [hcast]
      exact h1

/-- C24: for a chain whose splits hold valid pool indices, `Len()` is the total number of
splits over all links, the length of the result of appending a chain is the sum of the two
lengths, and for every `i` below `Len()`, `Subtable(i)` returns without a panic the
sub-table of the `i`-th split in the concatenation of the split lists of the links: its
transport is the transport of that split and its handle is built by the handle factory of
the owning link from that link's filter and from the blobs the indices of the split select
in that link's pool, one for each index and in the same order. -/
theorem Subtable_selects (s : subtables) (hv : validIndices s) :
    s.Len = (s.links.map (fun l => l.splits.length)).sum
      ∧ s.Len = s.entries.length
      ∧ (∀ b, (s.append b).Len = s.Len + b.Len)
      ∧ ∀ i : Nat, i < s.Len →
          ∃ l sp sub picked, s.entries.get? i = some (l, sp) ∧ l ∈ s.links ∧ sp ∈ l.splits
            ∧ s.Subtable (i : Int) = .ok sub
            ∧ sub.Transport = sp.tp ∧ sub.Table.1 = l.table ∧ sub.Handle = l.fn picked l.filter
            ∧ List.Forall₂ (fun b bi => l.blobs.get? (Int.toNat bi) = some b) picked sp.blobs := by
  refine ⟨Len_eq_links s, (entries_length s).symm, ?_, ?_⟩
  · intro b
    rw [Len_eq_links, Len_eq_links s, Len_eq_links b, links_append]
    simp only [List.map_append, List.sum_append]
  · intro i hi
    rw [← entries_length] at hi
    have hget : s.entries.get? i = some (s.entries.get ⟨i, hi⟩) := List.get?_eq_get hi
    obtain ⟨sub, picked, h1, h2, h3, h4, h5⟩ :=
      Subtable_entry s hv i (s.entries.get ⟨i, hi⟩).1 (s.entries.get ⟨i, hi⟩).2 hget
    have hmem : s.entries.get ⟨i, hi⟩ ∈ s.entries := List.get_mem _ _ _
    unfold subtables.entries at hmem
    simp only [List.mem_flatMap, List.mem_map] at hmem
    obtain ⟨l, hl, sp, hsp, heq⟩ := hmem
    have e1 : (s.entries.get ⟨i, hi⟩).1 = l := (congrArg Prod.fst heq).symm
    have e2 : (s.entries.get ⟨i, hi⟩).2 = sp := (congrArg Prod.snd heq).symm
    refine ⟨(s.entries.get ⟨i, hi⟩).1, (s.entries.get ⟨i, hi⟩).2, sub, picked, hget, ?_, ?_,
      h1, h2, h3, h4, h5⟩
    · rw [e1]
      exact hl
    · rw [e1, e2]
      exact hsp

theorem exampleChain_valid : validIndices exampleChain := by
  intro l hl sp hsp bi hbi
  simp only [exampleChain, subtables.links, List.mem_cons, List.mem_singleton,
    List.not_mem_nil, or_false] at hl
  rcases hl with rfl | rfl
  · simp only [List.mem_cons, List.mem_singleton, List.not_mem_nil, or_false] at hsp
    rcases hsp with rfl | rfl
    · simp only [List.mem_singleton] at hbi
      subst hbi
      decide
    · simp only [List.mem_singleton] at hbi
      subst hbi
      decide
  · simp only [List.mem_singleton] at hsp
    subst hsp
    simp only [List.mem_singleton] at hbi
    subst hbi
    decide

/-- The third sub-table of the example chain is the only split of its second link. -/
theorem Subtable_exampleChain :
    (exampleChain.Subtable 2).toOption.map (fun sub => (sub.Transport, sub.Table))
        = some (Transport.LocalTransport, (Node.other "db.u", "part.0"))
      ∧ (exampleChain.Subtable 3).toOption.isNone = true := by
  constructor <;> rfl

theorem Subtable_selects_witness :
    validIndices exampleChain
      ∧ ∀ i : Nat, i < exampleChain.Len →
          ∃ l sp sub picked, exampleChain.entries.get? i = some (l, sp)
            ∧ l ∈ exampleChain.links ∧ sp ∈ l.splits
            ∧ exampleChain.Subtable (i : Int) = .ok sub
            ∧ sub.Transport = sp.tp ∧ sub.Table.1 = l.table ∧ sub.Handle = l.fn picked l.filter
            ∧ List.Forall₂ (fun b bi => l.blobs.get? (Int.toNat bi) = some b) picked sp.blobs :=
  ⟨exampleChain_valid, (Subtable_selects exampleChain exampleChain_valid).2.2.2⟩

/-! ### The splits divide the blob pool -/

theorem dividesPool_modify (splits : List split) (n j : Nat) (hj : j < splits.length)
    (h : dividesPool splits n) :
    dividesPool (splits.modify (fun sp => { sp with blobs := sp.blobs ++ [(n : Int)] }) j)
      (n + 1) := by
  obtain ⟨hperm, hall⟩ := h
  have hsplit : splits = splits.take j ++ splits[j] :: splits.drop (j + 1) := by
    rw [← List.drop_eq_getElem_cons hj, List.take_append_drop]
  rw [List.modify_eq_take_cons_drop hj]
  constructor
  · rw [hsplit] at hperm
    simp only [List.flatMap_append, List.flatMap_cons, List.range_succ, List.map_append,
      List.map_cons, List.map_nil] at hperm ⊢
    have h1 : (((splits.take j).flatMap (fun sp => sp.blobs))
          ++ ((splits[j].blobs ++ [(n : Int)])
            ++ ((splits.drop (j + 1)).flatMap (fun sp => sp.blobs)))).Perm
        ((((splits.take j).flatMap (fun sp => sp.blobs))
          ++ (splits[j].blobs
            ++ ((splits.drop (j + 1)).flatMap (fun sp => sp.blobs)))) ++ [(n : Int)]) := by
      rw [List.append_assoc _ _ [(n : Int)]]
      apply List.Perm.append_left
      rw [List.append_assoc, List.append_assoc]
      apply List.Perm.append_left
      exact List.perm_append_comm
    exact h1.trans (hperm.append_right _)
  · intro sp hsp
    simp only [List.mem_append, List.mem_cons] at hsp
    have hold : ∀ x ∈ splits, x.blobs.Pairwise (fun a b => a < b)
        ∧ ∀ bi ∈ x.blobs, 0 ≤ bi ∧ bi < ((n + 1 : Nat) : Int) := by
      intro x hx
      refine ⟨(hall x hx).1, fun bi hbi => ?_⟩
      have := (hall x hx).2 bi hbi
      omega
    rcases hsp with hsp | hsp | hsp
    · exact hold sp (List.mem_of_mem_take hsp)
    · subst hsp
      have hj2 := hall splits[j] (List.getElem_mem _)
      constructor
      · simp only
        rw [List.pairwise_append]
        refine ⟨hj2.1, List.pairwise_singleton _ _, ?_⟩
        intro a ha b hb
        simp only [List.mem_singleton] at hb
        subst hb
        exact (hj2.2 a ha).2
      · intro bi hbi
        simp only [List.mem_append, List.mem_singleton] at hbi
        rcases hbi with hbi | hbi
        · have := hj2.2 bi hbi
          omega
        · subst hbi
          omega
    · exact hold sp (List.mem_of_mem_drop hsp)

theorem insert_splits (H : SipHash) (st st2 : SplitState) (b : Blob)
    (h : insert H st b = (none, st2)) :
    ∃ j, j < st.splits.length
      ∧ st2.splits = st.splits.modify
          (fun sp => { sp with blobs := sp.blobs ++ [(st.blobs.length : Int)] }) j
      ∧ st2.blobs = st.blobs ++ [b] := by
  unfold insert at h
  split at h
  · cases h
  · rename_i i hi
    split at h
    · rename_i hr
      simp only [Prod.mk.injEq, true_and] at h
      subst h
      exact ⟨i.toNat, hr.2, rfl, rfl⟩
    · cases h

theorem insert_dividesPool (H : SipHash) (st st2 : SplitState) (b : Blob)
    (h : insert H st b = (none, st2)) (hd : dividesPool st.splits st.blobs.length) :
    dividesPool st2.splits st2.blobs.length := by
  obtain ⟨j, hj, hs, hb⟩ := insert_splits H st st2 b h
  rw [hs, hb, List.length_append, List.length_singleton]
  exact dividesPool_modify _ _ j hj hd

theorem splitParts_dividesPool (H : SipHash) (flt : Option filter) (c : Compressed) :
    ∀ (sub : List (Nat × Nat × Except Error Info)) (st st2 : SplitState),
      splitParts H flt c sub st = (none, st2) → dividesPool st.splits st.blobs.length →
      dividesPool st2.splits st2.blobs.length
  | [], st, st2, h, hd => by
    simp only [splitParts, Prod.mk.injEq, true_and] at h
    subst h
    exact hd
  | (start, stop, pstat) :: rest, st, st2, h, hd => by
    unfold splitParts at h
    simp only at h
    split at h
    · cases h
    · rename_i scan hscan
      split at h
      · exact splitParts_dividesPool H flt c rest st st2 h hd
      · split at h
        · cases h
        · rename_i st3 hins
          have hd3 := insert_dividesPool H _ st3 _ hins hd
          exact splitParts_dividesPool H flt c rest st3 st2 h hd3

theorem splitBlobs_dividesPool (H : SipHash) (size : Int) (flt : Option filter) :
    ∀ (bs : List Blob) (st st2 : SplitState),
      splitBlobs H size flt bs st = (none, st2) → dividesPool st.splits st.blobs.length →
      dividesPool st2.splits st2.blobs.length
  | [], st, st2, h, hd => by
    simp only [splitBlobs, Prod.mk.injEq, true_and] at h
    subst h
    exact hd
  | b :: rest, st, st2, h, hd => by
    unfold splitBlobs at h
    split at h
    · cases h
    · rename_i stat hstat
      split at h
      · rename_i c
        simp only at h
        split at h
        · cases h
        · rename_i sub hsub
          split at h
          · cases h
          · rename_i st3 hparts
            have hd3 := splitParts_dividesPool H flt c sub _ st3 hparts hd
            exact splitBlobs_dividesPool H size flt rest st3 st2 h hd3
      · split at h
        · cases h
        · rename_i st3 hins
          have hd3 := insert_dividesPool H st st3 b hins hd
          exact splitBlobs_dividesPool H size flt rest _ st2 h hd3

theorem flatMap_filter_nonempty (splits : List split) :
    (splits.filter (fun sp => decide (sp.blobs ≠ []))).flatMap (fun sp => sp.blobs)
      = splits.flatMap (fun sp => sp.blobs) := by
  induction splits with
  | nil => rfl
  | cons sp rest ih =>
    by_cases hsp : sp.blobs = []
    · simp only [List.filter_cons, hsp, ne_eq, not_true_eq_false, decide_False,
        Bool.false_eq_true, if_false, List.flatMap_cons, List.nil_append, ih]
    · simp only [List.filter_cons, hsp, ne_eq, not_false_eq_true, decide_True, if_true,
        List.flatMap_cons, ih]

theorem compact_filter (splits : List split) :
    compact splits = splits.filter (fun sp => decide (sp.blobs ≠ [])) := by
  unfold compact
  rw [compact_foldl]
  rfl

theorem dividesPool_init (splits : List split) (h : ∀ sp ∈ splits, sp.blobs = []) :
    dividesPool splits 0 := by
  constructor
  · have : splits.flatMap (fun sp => sp.blobs) = [] := by
      rw [List.flatMap_eq_nil_iff]
      exact h
    rw [this]
    exact List.Perm.refl _
  · intro sp hsp
    rw [h sp hsp]
    exact ⟨List.Pairwise.nil, fun bi hbi => absurd hbi (List.not_mem_nil _)⟩

/-- C23: when `Split` succeeds, the blob indices held by the returned splits divide the
returned blob pool among the splits: the index lists taken together are a rearrangement of
`0, 1, .., len(pool)-1`, so that every index is a position of the pool and every position
occurs once over all the splits (and so in one split only); within a split the indices
increase strictly, and no returned split is empty. -/
theorem Split_divides_pool (H : SipHash) (compileFilter : Node → Option filter) (s : splitter)
    (table : Node) (handle : TableHandle) (sub : subtables)
    (h : (s.Split H compileFilter table handle).1 = .ok sub) :
    (sub.splits.flatMap (fun sp => sp.blobs)).Perm
        ((List.range sub.blobs.length).map (fun k : Nat => (k : Int)))
      ∧ (∀ k : Nat, k < sub.blobs.length →
          (sub.splits.map (fun sp => sp.blobs.count (k : Int))).sum = 1)
      ∧ (∀ sp ∈ sub.splits, sp.blobs ≠ []
          ∧ sp.blobs.Pairwise (fun a b => a < b)
          ∧ ∀ bi ∈ sp.blobs, 0 ≤ bi ∧ bi < (sub.blobs.length : Int))
      ∧ sub.next.isNone = true := by
  cases handle with
  | otherHandle typeName =>
    simp only [splitter.Split] at h
    cases h
  | filterHandle fh =>
    rw [Split_eq] at h
    obtain ⟨init, hinit, hempty⟩ := initSplits_ok s
    rw [hinit] at h
    simp only at h
    split at h
    · cases h
    · rename_i st hst
      simp only [Except.ok.injEq] at h
      subst h
      have hd := splitBlobs_dividesPool H _ _ fh.blobs ⟨s, init, []⟩ st hst
        (dividesPool_init init hempty)
      simp only [subtables.splits, subtables.blobs, subtables.next, Option.isNone_none,
        and_true]
      have hperm : ((compact st.splits).flatMap (fun sp => sp.blobs)).Perm
          ((List.range st.blobs.length).map (fun k : Nat => (k : Int))) := by
        rw [compact_filter, flatMap_filter_nonempty]
        exact hd.1
      refine ⟨hperm, ?_, ?_⟩
      · intro k hk
        have hc := hperm.count_eq (k : Int)
        rw [List.flatMap, List.count_flatten, List.map_map] at hc
        have hnd : ((List.range st.blobs.length).map (fun k : Nat => (k : Int))).Nodup :=
          (List.nodup_range _).map (fun a b hab => by simpa using hab)
        have hmem : (k : Int) ∈ (List.range st.blobs.length).map (fun k : Nat => (k : Int)) :=
          List.mem_map.mpr ⟨k, List.mem_range.mpr hk, rfl⟩
        rw [List.count_eq_one_of_mem hnd hmem] at hc
        exact hc
      · intro sp hsp
        rw [compact_filter, List.mem_filter] at hsp
        exact ⟨by simpa using hsp.2, hd.2 sp hsp.1⟩

theorem Split_divides_pool_witness :
    (pairSplitter.Split exampleHash (fun _ => none) (Node.other "db.t")
        (.filterHandle ⟨none, none, [Blob.compressed twoBlockBlob]⟩)).1 = .ok pairPlan
      ∧ (pairPlan.splits.flatMap (fun sp => sp.blobs)).Perm
          ((List.range pairPlan.blobs.length).map (fun k : Nat => (k : Int)))
      ∧ (∀ k : Nat, k < pairPlan.blobs.length →
          (pairPlan.splits.map (fun sp => sp.blobs.count (k : Int))).sum = 1)
      ∧ (∀ sp ∈ pairPlan.splits, sp.blobs ≠ []
          ∧ sp.blobs.Pairwise (fun a b => a < b)
          ∧ ∀ bi ∈ sp.blobs, 0 ≤ bi ∧ bi < (pairPlan.blobs.length : Int))
      ∧ pairPlan.next.isNone = true :=
  ⟨rfl, Split_divides_pool exampleHash (fun _ => none) pairSplitter (Node.other "db.t")
    (.filterHandle ⟨none, none, [Blob.compressed twoBlockBlob]⟩) pairPlan rfl⟩

/-! ### The prefetch window -/

theorem awaitAndPrefetch_eq (disable : Bool) (i : Nat) (x : Input) (st : SingleState) :
    awaitAndPrefetch disable i x st
      = prefetch disable i (fastForward i (awaitReady i x st)).Inputs.length
          (fastForward i (awaitReady i x st)) := rfl

/-- The state `singleLoop` returns is the state at the last point of the loop. -/
theorem loopPoints_last (disable : Bool) : ∀ (n i : Nat) (st : SingleState),
    ((loopPoints disable n i st).getLast?.map Prod.snd).getD st = (singleLoop disable n i st).2
  | 0, _, _ => rfl
  | n + 1, i, st => by
    unfold loopPoints singleLoop
    cases hx : st.Inputs.get? i with
    | none => rfl
    | some x =>
      simp only
      cases herr : (match x.convert with
        | some e => some e
        | none => x.rclose) with
      | some e =>
        rw [List.getLast?_append, List.getLast?_singleton]
        rfl
      | none =>
        simp only
        have ih := loopPoints_last disable n (i + 1)
          { awaitAndPrefetch disable i x st with
            Inputs := (awaitAndPrefetch disable i x st).Inputs.modify Input.close i }
        rw [← ih, List.getLast?_append, List.getLast?_cons]
        cases (loopPoints disable n (i + 1)
          { awaitAndPrefetch disable i x st with
            Inputs := (awaitAndPrefetch disable i x st).Inputs.modify Input.close i }).getLast? with
        | none => rfl
        | some a => rfl

theorem queued_nonneg : ∀ (r : List Bool) (xs : List Input),
    (∀ x ∈ xs, 0 ≤ x.Size) → 0 ≤ queued r xs
  | [], _, _ => by simp [queued]
  | _ :: _, [], _ => by simp [queued]
  | true :: r, x :: xs, h => by
    have ih := queued_nonneg r xs (fun y hy => h y (List.mem_cons_of_mem _ hy))
    have hx := h x (List.mem_cons_self _ _)
    simp only [queued]
    omega
  | false :: r, x :: xs, h => by
    simp only [queued]
    exact queued_nonneg r xs (fun y hy => h y (List.mem_cons_of_mem _ hy))

theorem queued_replicate : ∀ (n : Nat) (xs : List Input), queued (List.replicate n false) xs = 0
  | 0, _ => by simp [queued]
  | _ + 1, [] => by simp [List.replicate, queued]
  | n + 1, x :: xs => by
    simp only [List.replicate, queued]
    exact queued_replicate n xs

theorem queued_set_false : ∀ (r : List Bool) (xs : List Input) (i : Nat) (x : Input),
    r.getD i false = true → xs.get? i = some x →
    queued (r.set i false) xs = queued r xs - x.Size
  | [], _, _, _, h, _ => by simp at h
  | _ :: _, [], _, _, _, hx => by simp at hx
  | b :: r, y :: xs, 0, x, h, hx => by
    simp only [List.getD_cons_zero] at h
    simp only [List.get?_cons_zero, Option.some.injEq] at hx
    subst h hx
    simp only [List.set_cons_zero, queued]
    omega
  | b :: r, y :: xs, i + 1, x, h, hx => by
    have ih := queued_set_false r xs i x (by simpa using h) (by simpa using hx)
    cases b
    · simp only [List.set_cons_succ, queued, ih]
    · simp only [List.set_cons_succ, queued, ih]
      omega

theorem queued_set_true : ∀ (r : List Bool) (xs : List Input) (n : Nat) (d : Input),
    r.getD n false = false → n < xs.length → n < r.length →
    queued (r.set n true) xs = queued r xs + (xs.getD n d).Size
  | [], _, _, _, _, _, hr => by simp at hr
  | _ :: _, [], _, _, _, hx, _ => by simp at hx
  | b :: r, y :: xs, 0, d, h, _, _ => by
    simp only [List.getD_cons_zero] at h
    subst h
    simp only [List.set_cons_zero, queued, List.getD_cons_zero]
    omega
  | b :: r, y :: xs, n + 1, d, h, hx, hr => by
    have ih := queued_set_true r xs n d (by simpa using h) (by simpa using hx) (by simpa using hr)
    cases b
    · simp only [List.set_cons_succ, queued, ih, List.getD_cons_succ]
    · simp only [List.set_cons_succ, queued, ih, List.getD_cons_succ]
      omega

theorem queued_modify_close : ∀ (r : List Bool) (xs : List Input) (i : Nat),
    queued r (xs.modify Input.close i) = queued r xs
  | [], xs, i => by
    cases h : xs.modify Input.close i <;> cases xs <;> simp [queued]
  | _ :: _, [], i => by simp [queued]
  | b :: r, y :: xs, 0 => by
    cases b <;> simp [queued, Input.close]
  | b :: r, y :: xs, i + 1 => by
    have ih := queued_modify_close r xs i
    cases b
    · simp only [List.modify_succ_cons, queued]
      exact ih
    · simp only [List.modify_succ_cons, queued]
      exact congrArg (fun z => y.Size + z) ih

theorem mem_modify_close (xs : List Input) (i : Nat) (M : Int)
    (h : ∀ x ∈ xs, 0 ≤ x.Size ∧ x.Size ≤ M) :
    ∀ x ∈ xs.modify Input.close i, 0 ≤ x.Size ∧ x.Size ≤ M := by
  intro x hx
  have hmap : (xs.modify Input.close i).map Input.Size = xs.map Input.Size :=
    map_modify_of_eq Input.Size Input.close (fun _ => rfl) xs i
  have hx2 : x.Size ∈ (xs.modify Input.close i).map Input.Size := List.mem_map_of_mem _ hx
  rw [hmap] at hx2
  obtain ⟨y, hy, hyx⟩ := List.mem_map.mp hx2
  rw [← hyx]
  exact h y hy

theorem wantInflight_eq : wantInflight = 83886080 := by
  unfold wantInflight
  norm_num

theorem getD_set_false (r : List Bool) (i k : Nat) (h : r.getD k false = false) :
    (r.set i false).getD k false = false := by
  simp only [List.getD_eq_getElem?_getD, List.getElem?_set] at h ⊢
  split
  · split <;> rfl
  · exact h

theorem getD_set_ne (r : List Bool) (i k : Nat) (b : Bool) (hne : i ≠ k) :
    (r.set i b).getD k false = r.getD k false := by
  simp only [List.getD_eq_getElem?_getD, List.getElem?_set, hne, if_false]

theorem windowInv_await (M : Int) (hfit : wantInflight + M ≤ 2 ^ 63) (i : Nat) (x : Input)
    (st : SingleState) (hx : st.Inputs.get? i = some x) (h : windowInv M i st) :
    windowInv M i (awaitReady i x st) := by
  obtain ⟨h1, h2, h3, h4, h5, h6⟩ := h
  unfold awaitReady
  by_cases hr : st.ready.getD i false = true
  · simp only [hr, if_true]
    have hq := queued_set_false st.ready st.Inputs i x hr hx
    have hnn : 0 ≤ queued (st.ready.set i false) st.Inputs :=
      queued_nonneg _ _ (fun y hy => (h6 y hy).1)
    have hx2 : st.Inputs[i]? = some x := by
      rw [← List.get?_eq_getElem?]
      exact hx
    have hxs : 0 ≤ x.Size := (h6 x (List.getElem?_mem hx2)).1
    have hwant := wantInflight_eq
    have hw : wrap64 (st.inflight - x.Size) = st.inflight - x.Size :=
      wrap64_of_fits _ (by omega) (by omega)
    refine ⟨?_, ?_, ?_, h4, ?_, h6⟩
    · simp only [List.length_set]
      exact h1
    · intro k hk
      exact getD_set_false _ _ _ (h2 k hk)
    · show wrap64 (st.inflight - x.Size) = queued (st.ready.set i false) st.Inputs
      rw [hw, hq, h3]
    · simp only [hw]
      omega
  · simp only [hr]
    exact ⟨h1, h2, h3, h4, h5, h6⟩

theorem windowInv_fastForward (M : Int) (i : Nat) (st : SingleState) (h : windowInv M i st) :
    windowInv M i (fastForward i st) := by
  obtain ⟨h1, h2, h3, h4, h5, h6⟩ := h
  unfold fastForward
  by_cases hn : st.next ≤ i
  · simp only [hn, if_true]
    refine ⟨h1, ?_, h3, ?_, h5, h6⟩
    · intro k hk
      simp only at hk
      exact h2 k (by omega)
    · push_cast
      omega
  · simp only [hn, if_false]
    exact ⟨h1, h2, h3, h4, h5, h6⟩

theorem windowInv_prefetch (M : Int) (hfit : wantInflight + M ≤ 2 ^ 63) (disable : Bool)
    (i : Nat) : ∀ (fuel : Nat) (st : SingleState), windowInv M i st →
      windowInv M i (prefetch disable i fuel st)
  | 0, st, h => h
  | fuel + 1, st, h => by
    unfold prefetch
    split
    · rename_i hc
      apply windowInv_prefetch M hfit disable i fuel
      obtain ⟨h1, h2, h3, h4, h5, h6⟩ := h
      obtain ⟨_, hc2, hc3, hc4⟩ := hc
      have hq := queued_set_true st.ready st.Inputs st.next ⟨"", "", 0, none, none, none, 0⟩
        (h2 st.next (Nat.le_refl _)) hc4 (by omega)
      have hnn : 0 ≤ queued st.ready st.Inputs := queued_nonneg _ _ (fun y hy => (h6 y hy).1)
      have hmem : st.Inputs.getD st.next ⟨"", "", 0, none, none, none, 0⟩ ∈ st.Inputs := by
        rw [List.getD_eq_getElem _ _ hc4]
        exact List.getElem_mem _
      have hsz := h6 _ hmem
      have hwant := wantInflight_eq
      have hw : wrap64 (st.inflight
            + (st.Inputs.getD st.next ⟨"", "", 0, none, none, none, 0⟩).Size)
          = st.inflight + (st.Inputs.getD st.next ⟨"", "", 0, none, none, none, 0⟩).Size :=
        wrap64_of_fits _ (by omega) (by omega)
      refine ⟨?_, ?_, ?_, ?_, ?_, h6⟩
      · simp only [List.length_set]
        exact h1
      · intro k hk
        simp only at hk
        rw [getD_set_ne _ _ _ _ (by omega)]
        exact h2 k (by omega)
      · show wrap64 (st.inflight
            + (st.Inputs.getD st.next ⟨"", "", 0, none, none, none, 0⟩).Size)
          = queued (st.ready.set st.next true) st.Inputs
        rw [hw, hq, h3]
      · simp only
        push_cast
        omega
      · simp only [hw]
        omega
    · exact h

theorem windowInv_init (M : Int) (hM : 0 ≤ M) (inputs : List Input)
    (hsz : ∀ x ∈ inputs, 0 ≤ x.Size ∧ x.Size ≤ M) :
    windowInv M 0 ⟨List.replicate inputs.length false, 1, 0, inputs⟩ := by
  have hwant := wantInflight_eq
  refine ⟨by simp, ?_, ?_, by simp, ?_, hsz⟩
  · intro k _
    simp only [List.getD_eq_getElem?_getD, List.getElem?_replicate]
    split <;> rfl
  · simp only [queued_replicate]
  · simp only
    omega

theorem windowInv_bounds (M : Int) (i : Nat) (st : SingleState) (h : windowInv M i st) :
    (st.next : Int) - (i : Int) ≤ 64 ∧ 0 ≤ st.inflight ∧ st.inflight < wantInflight + M := by
  obtain ⟨h1, h2, h3, h4, h5, h6⟩ := h
  refine ⟨h4, ?_, h5⟩
  rw [h3]
  exact queued_nonneg _ _ (fun y hy => (h6 y hy).1)

theorem windowInv_next (M : Int) (i : Nat) (st : SingleState) (h : windowInv M i st) :
    windowInv M (i + 1) { st with Inputs := st.Inputs.modify Input.close i } := by
  obtain ⟨h1, h2, h3, h4, h5, h6⟩ := h
  refine ⟨?_, h2, ?_, ?_, h5, mem_modify_close _ _ _ h6⟩
  · simp only [List.length_modify]
    exact h1
  · simp only [queued_modify_close]
    exact h3
  · push_cast
    omega

theorem bodyPoints_bounds (M : Int) (hfit : wantInflight + M ≤ 2 ^ 63) (disable : Bool)
    (i : Nat) (x : Input) (st : SingleState) (hx : st.Inputs.get? i = some x)
    (h : windowInv M i st) : ∀ p ∈ bodyPoints disable i x st, windowInv M i p := by
  have ha := windowInv_await M hfit i x st hx h
  have hf := windowInv_fastForward M i _ ha
  intro p hp
  unfold bodyPoints at hp
  simp only [List.cons_append, List.nil_append, List.mem_cons, List.mem_map, List.mem_range] at hp
  rcases hp with rfl | rfl | rfl | ⟨k, _, rfl⟩
  · exact h
  · exact ha
  · exact hf
  · exact windowInv_prefetch M hfit disable i k _ hf

theorem loopPoints_bounds (M : Int) (hfit : wantInflight + M ≤ 2 ^ 63) (disable : Bool) :
    ∀ (n i : Nat) (st : SingleState), windowInv M i st →
      ∀ p ∈ loopPoints disable n i st,
        (p.2.next : Int) - (p.1 : Int) ≤ 64 ∧ 0 ≤ p.2.inflight
          ∧ p.2.inflight < wantInflight + M
  | 0, _, _, _ => by
    intro p hp
    simp [loopPoints] at hp
  | n + 1, i, st, h => by
    intro p hp
    unfold loopPoints at hp
    cases hx : st.Inputs.get? i with
    | none =>
      simp only [hx] at hp
      cases hp
    | some x =>
      simp only [hx, List.mem_append, List.mem_map] at hp
      have h3 : windowInv M i (awaitAndPrefetch disable i x st) := by
        rw [awaitAndPrefetch_eq]
        exact windowInv_prefetch M hfit disable i _ _
          (windowInv_fastForward M i _ (windowInv_await M hfit i x st hx h))
      have h4 := windowInv_next M i _ h3
      have hb3 := windowInv_bounds M i _ h3
      rcases hp with ⟨q, hq, rfl⟩ | hp
      · exact windowInv_bounds M i q (bodyPoints_bounds M hfit disable i x st hx h q hq)
      · split at hp
        · simp only [List.mem_singleton] at hp
          subst hp
          exact hb3
        · simp only [List.mem_cons] at hp
          rcases hp with rfl | hp
          · exact hb3
          · exact loopPoints_bounds M hfit disable n (i + 1) _ h4 p hp

/-- C21 (amended): in the single-stream driver, for inputs whose sizes lie between 0 and
`M` with `wantInflight + M` within the range of an `int64`, at every point of the main loop
the prefetch pointer is at most 64 inputs ahead of the input being converted, and the
in-flight byte counter is not negative and stays below `wantInflight + M`: an input is
queued only while the counter is below `wantInflight`, so the counter exceeds the budget by
less than the size of one input.  The last of these points is the state the loop ends in. -/
theorem prefetch_window (c : Converter) (M : Int) (hM : 0 ≤ M)
    (hfit : wantInflight + M ≤ 2 ^ 63)
    (hsz : ∀ x ∈ c.Inputs, 0 ≤ x.Size ∧ x.Size ≤ M) :
    (∀ p ∈ loopPoints c.DisablePrefetch c.Inputs.length 0
          ⟨List.replicate c.Inputs.length false, 1, 0, c.Inputs⟩,
        (p.2.next : Int) - (p.1 : Int) ≤ 64 ∧ 0 ≤ p.2.inflight
          ∧ p.2.inflight < wantInflight + M)
      ∧ ((loopPoints c.DisablePrefetch c.Inputs.length 0
            ⟨List.replicate c.Inputs.length false, 1, 0, c.Inputs⟩).getLast?.map Prod.snd).getD
          ⟨List.replicate c.Inputs.length false, 1, 0, c.Inputs⟩
        = (singleLoop c.DisablePrefetch c.Inputs.length 0
            ⟨List.replicate c.Inputs.length false, 1, 0, c.Inputs⟩).2 :=
  ⟨loopPoints_bounds M hfit c.DisablePrefetch c.Inputs.length 0 _
      (windowInv_init M hM c.Inputs hsz),
    loopPoints_last c.DisablePrefetch c.Inputs.length 0 _⟩

/-- C21 (the claim fails): for two inputs of 10 bytes and of 200 MiB, while the first
input is converted the second is queued, since the counter is 0 and so below the budget,
and the in-flight byte counter then stands at 200 MiB, above the budget of 80 MiB. -/
theorem inflight_exceeds_budget :
    (∀ x ∈ bigInputConverter.Inputs, 0 ≤ x.Size)
      ∧ (0, (⟨[false, true], 2, 209715200, bigInputConverter.Inputs⟩ : SingleState))
          ∈ loopPoints bigInputConverter.DisablePrefetch bigInputConverter.Inputs.length 0
              ⟨List.replicate bigInputConverter.Inputs.length false, 1, 0,
                bigInputConverter.Inputs⟩
      ∧ (awaitAndPrefetch bigInputConverter.DisablePrefetch 0 (plainInput "a.json" 10)
            ⟨List.replicate bigInputConverter.Inputs.length false, 1, 0,
              bigInputConverter.Inputs⟩).inflight = 209715200
      ∧ wantInflight < 209715200 := by
  refine ⟨by decide, by decide, by decide, by decide⟩

theorem prefetch_window_witness :
    (∀ x ∈ (twoInputConverter 1).Inputs, 0 ≤ x.Size ∧ x.Size ≤ 20)
      ∧ ∀ p ∈ loopPoints (twoInputConverter 1).DisablePrefetch (twoInputConverter 1).Inputs.length 0
          ⟨List.replicate (twoInputConverter 1).Inputs.length false, 1, 0,
            (twoInputConverter 1).Inputs⟩,
        (p.2.next : Int) - (p.1 : Int) ≤ 64 ∧ 0 ≤ p.2.inflight
          ∧ p.2.inflight < wantInflight + 20 :=
  ⟨by decide,
    (prefetch_window (twoInputConverter 1) 20 (by decide) (by decide) (by decide)).1⟩

end Sneller
